import Mathlib

/-!
# c-dsa-generic: sorting suite and dynamic array

A shallow embedding of `Algorithms/sorting.c`, `Data Structures/util/util.c`,
`Data Structures/Vector/vector.c`, `Data Structures/Stack/stack.c` and of the
functions `ll_set` and `ll_set_at` of `Data Structures/Linked List/linked_list.c`.

## Memory model of the range algorithms

A range `[start, end)` of `n` slots of `element_size` bytes each is a
`List α` of length `n`: one value of `α` stands for the `element_size` bytes
of one slot, and the pointer `start + k * element_size` is the slot index `k`.
Every dereference of a pointer goes through `load` / `store`, which fail
with `Fault.bounds` when the slot is not one of the range, so a result
`Except.ok m` says that the run stayed inside `[start, end)`.

Loops and recursions that are not structurally decreasing carry a fuel
argument; running out of it is the separate fault `Fault.fuel`.

The comparator is a function `cmp : α → α → Int`, as the C comparator is a
function of the two slots it is pointed at.
-/

namespace CDsa

/-- Outcome of a run that did not complete normally. -/
inductive Fault where
  /-- a slot outside the range was dereferenced -/
  | bounds
  /-- the fuel of the model ran out -/
  | fuel
  /-- an `assert` of the source failed -/
  | assertion
  deriving DecidableEq

variable {α : Type}

/-! ## Slot access -/

/-- Read the slot `p` of the range `m`. -/
def load (m : List α) (p : Nat) : Except Fault α :=
  match m[p]? with
  | some x => .ok x
  | none => .error .bounds

/-- Write `x` to the slot `p` of the range `m`. -/
def store (m : List α) (p : Nat) (x : α) : Except Fault (List α) :=
  if p < m.length then .ok (m.set p x) else .error .bounds

/-- Read through a pointer that may lie before `start`: slot index `p : Int`. -/
def loadP (m : List α) (p : Int) : Except Fault α :=
  if 0 ≤ p then load m p.toNat else .error .bounds

/-- Read the slot `p` of the sub-range `[s, e)` of the buffer `m`. -/
def loadIn (m : List α) (s e p : Nat) : Except Fault α :=
  if s ≤ p ∧ p < e then load m p else .error .bounds

/-- Read the slot `p` of the sub-range `[s, e)`, for a pointer that may lie
before `start`. -/
def loadInP (m : List α) (s e p : Int) : Except Fault α :=
  if s ≤ p ∧ p < e then loadP m p else .error .bounds

/-- Source function `swap(a, b, element_size)` of util.c: the byte loop
`temp = a[i]; a[i] = b[i]; b[i] = temp` over one slot. For `a = b` every
byte is written back to itself. -/
def swap (m : List α) (a b : Nat) : Except Fault (List α) := do
  let x ← load m a
  let y ← load m b
  let m1 ← store m a y
  store m1 b x

/-- The function `swap` through pointers that may lie before `start`. -/
def swapP (m : List α) (a b : Int) : Except Fault (List α) :=
  if 0 ≤ a ∧ 0 ≤ b then swap m a.toNat b.toNat else .error .bounds

/-- The function `swap` on two slots of the sub-range `[s, e)`. -/
def swapInP (m : List α) (s e a b : Int) : Except Fault (List α) :=
  if s ≤ a ∧ a < e ∧ s ≤ b ∧ b < e then swapP m a b else .error .bounds

/-! ## selection_sort -/

/-- Inner loop of `selection_sort`: `while (j < end) { if (cmp(j, min) < 0) min = j; j += element_size; }`.
Returns the final `min`. -/
def selection_sort_inner (cmp : α → α → Int) (m : List α) :
    Nat → Nat → Nat → Except Fault Nat
  | 0, j, min => if j < m.length then .error .fuel else .ok min
  | fuel + 1, j, min =>
    if j < m.length then do
      let a ← load m j
      let b ← load m min
      selection_sort_inner cmp m fuel (j + 1) (if cmp a b < 0 then j else min)
    else .ok min

/-- Outer loop of `selection_sort`, from the position `i`. The second component
counts the runs of the exchange block `if (min != i) { ... }`. -/
def selection_sort_outer (cmp : α → α → Int) :
    Nat → Nat → List α → Nat → Except Fault (List α × Nat)
  | 0, i, m, k => if i < m.length then .error .fuel else .ok (m, k)
  | fuel + 1, i, m, k =>
    if i < m.length then do
      let min ← selection_sort_inner cmp m m.length (i + 1) i
      if min ≠ i then do
        let tmp ← load m i
        let x ← load m min
        let m1 ← store m i x
        let m2 ← store m1 min tmp
        selection_sort_outer cmp fuel (i + 1) m2 (k + 1)
      else
        selection_sort_outer cmp fuel (i + 1) m k
    else .ok (m, k)

/-- Source function `selection_sort(start, end, element_size, cmp)`. -/
def selection_sort (cmp : α → α → Int) (xs : List α) : Except Fault (List α) :=
  (selection_sort_outer cmp xs.length 0 xs 0).map Prod.fst

/-- Number of exchanges `selection_sort` performs on `xs`. -/
def selection_sort_exchanges (cmp : α → α → Int) (xs : List α) : Except Fault Nat :=
  (selection_sort_outer cmp xs.length 0 xs 0).map Prod.snd

/-! ## insertion_sort -/

/-- Inner loop of `insertion_sort`, entered with the pointer `j`:
`while (j > start && cmp(j, j - element_size) < 0) { swap(j, j - element_size); j -= element_size; }`. -/
def insertion_sort_inner (cmp : α → α → Int) : Nat → List α → Except Fault (List α)
  | 0, m => .ok m
  | j + 1, m => do
    let a ← load m (j + 1)
    let b ← load m j
    if cmp a b < 0 then do
      let m1 ← swap m (j + 1) j
      insertion_sort_inner cmp j m1
    else .ok m

/-- Outer loop of `insertion_sort`, from the position `i`. -/
def insertion_sort_outer (cmp : α → α → Int) : Nat → Nat → List α → Except Fault (List α)
  | 0, i, m => if i < m.length then .error .fuel else .ok m
  | fuel + 1, i, m =>
    if i < m.length then do
      let m1 ← insertion_sort_inner cmp i m
      insertion_sort_outer cmp fuel (i + 1) m1
    else .ok m

/-- Source function `insertion_sort(start, end, element_size, cmp)`; the outer loop starts at
`start + element_size`. -/
def insertion_sort (cmp : α → α → Int) (xs : List α) : Except Fault (List α) :=
  insertion_sort_outer cmp xs.length 1 xs

/-! ## merge_sort -/

/-- First merge loop: `while (left < mid && right < end)`, taking the left
head when `cmp(left, right) < 0` and the right head otherwise. `temp` is the
part of the auxiliary buffer written so far (`ptr = temp + |temp|`), `n` its
allocated length. Returns `left`, `right` and the buffer. -/
def merge_both (cmp : α → α → Int) (m : List α) (s mid e n : Nat) :
    Nat → Nat → Nat → List α → Except Fault (Nat × Nat × List α)
  | 0, left, right, temp =>
    if left < mid ∧ right < e then .error .fuel else .ok (left, right, temp)
  | fuel + 1, left, right, temp =>
    if left < mid ∧ right < e then do
      let a ← loadIn m s e left
      let b ← loadIn m s e right
      if temp.length < n then
        if cmp a b < 0 then
          merge_both cmp m s mid e n fuel (left + 1) right (temp ++ [a])
        else
          merge_both cmp m s mid e n fuel left (right + 1) (temp ++ [b])
      else .error .bounds
    else .ok (left, right, temp)

/-- The two copy loops of the merge, `while (left < mid)` and
`while (right < end)`, as one loop over `[p, stop)`. -/
def merge_rest (m : List α) (s e n stop : Nat) : Nat → Nat → List α → Except Fault (List α)
  | 0, p, temp => if p < stop then .error .fuel else .ok temp
  | fuel + 1, p, temp =>
    if p < stop then do
      let a ← loadIn m s e p
      if temp.length < n then merge_rest m s e n stop fuel (p + 1) (temp ++ [a])
      else .error .bounds
    else .ok temp

/-- The three loops of the merge, run one after the other from the pointers
`left` and `right` with `temp` written so far. -/
def merge_loops (cmp : α → α → Int) (m : List α) (s mid e n fuel left right : Nat)
    (temp : List α) : Except Fault (List α) := do
  let (l, r, t1) ← merge_both cmp m s mid e n fuel left right temp
  let t2 ← merge_rest m s e n mid n l t1
  merge_rest m s e n e n r t2

/-- Source function `merge_sort(start, end, element_size, cmp)` on the sub-range `[s, e)` of
the buffer `m`. The closing `memcpy(start, temp, total_size)` copies the `n`
slots of the auxiliary buffer back. -/
def merge_sort_rng (cmp : α → α → Int) : Nat → List α → Nat → Nat → Except Fault (List α)
  | 0, m, s, e => if (e - s) ≤ 1 then .ok m else .error .fuel
  | fuel + 1, m, s, e =>
    let n := e - s
    if n ≤ 1 then .ok m
    else do
      let mid := s + n / 2
      let m1 ← merge_sort_rng cmp fuel m s mid
      let m2 ← merge_sort_rng cmp fuel m1 mid e
      let t3 ← merge_loops cmp m2 s mid e n n s mid []
      if t3.length = n ∧ e ≤ m2.length then .ok (m2.take s ++ t3 ++ m2.drop e)
      else .error .bounds

/-- The function `merge_sort` on a whole range. -/
def merge_sort (cmp : α → α → Int) (xs : List α) : Except Fault (List α) :=
  merge_sort_rng cmp xs.length xs 0 xs.length

/-! ## quick_sort -/

/-- Scan `while (cmp(left, pivot) < 0) left += element_size;`. The pivot is
the pointer `pivot`, dereferenced at every comparison. -/
def quick_scan_left (cmp : α → α → Int) (m : List α) (s e pivot : Int) :
    Nat → Int → Except Fault Int
  | 0, _ => .error .fuel
  | fuel + 1, left => do
    let a ← loadInP m s e left
    let p ← loadInP m s e pivot
    if cmp a p < 0 then quick_scan_left cmp m s e pivot fuel (left + 1) else .ok left

/-- Scan `while (cmp(right, pivot) > 0) right -= element_size;`. -/
def quick_scan_right (cmp : α → α → Int) (m : List α) (s e pivot : Int) :
    Nat → Int → Except Fault Int
  | 0, _ => .error .fuel
  | fuel + 1, right => do
    let a ← loadInP m s e right
    let p ← loadInP m s e pivot
    if cmp a p > 0 then quick_scan_right cmp m s e pivot fuel (right - 1) else .ok right

/-- Partition loop `while (left <= right) { ... }` of `quick_sort`. Returns
the buffer and the final `left` and `right`. -/
def quick_partition (cmp : α → α → Int) (s e pivot : Int) :
    Nat → List α → Int → Int → Except Fault (List α × Int × Int)
  | 0, m, left, right => if left ≤ right then .error .fuel else .ok (m, left, right)
  | fuel + 1, m, left, right =>
    if left ≤ right then do
      let n := (e - s).toNat
      let left1 ← quick_scan_left cmp m s e pivot (n + 1) left
      let right1 ← quick_scan_right cmp m s e pivot (n + 1) right
      if left1 ≤ right1 then do
        let m1 ← swapInP m s e left1 right1
        quick_partition cmp s e pivot fuel m1 (left1 + 1) (right1 - 1)
      else
        quick_partition cmp s e pivot fuel m left1 right1
    else .ok (m, left, right)

/-- Source function `quick_sort(start, end, element_size, cmp)` on the sub-range `[s, e)` of
the buffer `m`. -/
def quick_sort_rng (cmp : α → α → Int) : Nat → List α → Int → Int → Except Fault (List α)
  | 0, m, s, e => if (e - s).toNat ≤ 1 then .ok m else .error .fuel
  | fuel + 1, m, s, e =>
    let n := (e - s).toNat
    if n ≤ 1 then .ok m
    else do
      let pivot : Int := s + ((n / 2 : Nat) : Int)
      let (m1, left, right) ← quick_partition cmp s e pivot (n + 1) m s (e - 1)
      let m2 ← quick_sort_rng cmp fuel m1 s (right + 1)
      quick_sort_rng cmp fuel m2 left e

/-- The function `quick_sort` on a whole range. -/
def quick_sort (cmp : α → α → Int) (xs : List α) : Except Fault (List α) :=
  quick_sort_rng cmp xs.length xs 0 xs.length

/-! ## heap_sort -/

/-- Conversion of an integer value to `int` (32 bits, two's complement). -/
def toInt32 (x : Int) : Int := (x + 2 ^ 31) % 2 ^ 32 - 2 ^ 31

/-- Conversion of an integer value to `size_t` (64 bits). -/
def toSizeT (x : Int) : Nat := (x % 2 ^ 64).toNat

/-- One statement `if (c < size && cmp(start + c * element_size, start + largest * element_size) > 0) largest = c;`
of `_heap_ify`, returning the new `largest`. The `int` index `c` is converted
to `size_t` for the comparison with `size`; `start + c * element_size` is the
slot of index `c`. -/
def heap_pick (cmp : α → α → Int) (m : List α) (size : Nat) (c largest : Int) :
    Except Fault Int :=
  if toSizeT c < size then do
    let a ← loadP m c
    let b ← loadP m largest
    pure (if cmp a b > 0 then c else largest)
  else pure largest

/-- Source function `_heap_ify(start, size, i, element_size, cmp)`: `size` is a `size_t`,
`i`, `l`, `r` and `largest` are `int`. -/
def _heap_ify (cmp : α → α → Int) : Nat → List α → Nat → Int → Except Fault (List α)
  | 0, _, _, _ => .error .fuel
  | fuel + 1, m, size, i => do
    let l := toInt32 (2 * i + 1)
    let r := toInt32 (2 * i + 2)
    let largest1 ← heap_pick cmp m size l i
    let largest ← heap_pick cmp m size r largest1
    if largest ≠ i then do
      let m1 ← swapP m i largest
      _heap_ify cmp fuel m1 size largest
    else .ok m

/-- First loop of `heap_sort`: `for (int i = ...; i >= 0; i--) _heap_ify(start, size, i, ...)`,
with `k = i + 1` iterations left. -/
def heap_build (cmp : α → α → Int) (size : Nat) : Nat → List α → Except Fault (List α)
  | 0, m => .ok m
  | k + 1, m => do
    let m1 ← _heap_ify cmp (size + 1) m size (k : Int)
    heap_build cmp size k m1

/-- Second loop of `heap_sort`:
`for (int i = size - 1; i >= 0; i--) { swap(start, start + i * element_size); _heap_ify(start, i, 0, ...); }`,
with `k = i + 1` iterations left. -/
def heap_extract (cmp : α → α → Int) : Nat → List α → Except Fault (List α)
  | 0, m => .ok m
  | k + 1, m => do
    let m1 ← swapP m 0 (k : Int)
    let m2 ← _heap_ify cmp (k + 1) m1 (toSizeT (k : Int)) 0
    heap_extract cmp k m2

/-- Source function `heap_sort(start, end, element_size, cmp)`. `size / 2 - 1` and `size - 1`
are computed in `size_t` and converted to the `int` loop variable. -/
def heap_sort (cmp : α → α → Int) (xs : List α) : Except Fault (List α) := do
  let size := xs.length
  let i0 := toInt32 (((size / 2 : Nat) : Int) - 1)
  let m1 ← heap_build cmp size (i0 + 1).toNat xs
  let i1 := toInt32 ((size : Int) - 1)
  heap_extract cmp (i1 + 1).toNat m1

/-! ## sort -/

/-- Source function `sort(start, end, element_size, cmp)`: the dispatcher. `n` is
`total_size / element_size`, the number of slots of the range. -/
def sort (element_size : Nat) (cmp : α → α → Int) (xs : List α) : Except Fault (List α) :=
  let n := xs.length
  if element_size ≤ 8 then
    if n ≤ 50 then insertion_sort cmp xs
    else if n ≤ 100 then selection_sort cmp xs
    else quick_sort cmp xs
  else
    if n ≤ 100 then insertion_sort cmp xs
    else heap_sort cmp xs

/-! ## Vocabulary of the statements -/

/-- A three-way comparator that is a total preorder: the sign of `cmp b a` is
the opposite of the sign of `cmp a b`, and `cmp a b ≤ 0` is transitive. -/
structure IsTotalPreorder (cmp : α → α → Int) : Prop where
  flip : ∀ a b, cmp a b < 0 ↔ 0 < cmp b a
  trans : ∀ a b c, cmp a b ≤ 0 → cmp b c ≤ 0 → cmp a c ≤ 0

/-- The range is in non-decreasing order under the comparator: `cmp a b ≤ 0`
for every pair of an earlier `a` and a later `b`. -/
def NonDecreasing (cmp : α → α → Int) (ys : List α) : Prop :=
  ys.Pairwise (fun a b => cmp a b ≤ 0)

/-- Every adjacent pair `(a, b)` of the range has `cmp a b ≤ 0`. -/
def AdjacentOrdered (cmp : α → α → Int) (ys : List α) : Prop :=
  ys.Chain' (fun a b => cmp a b ≤ 0)

/-- The elements that compare equal to `a` occur in `ys` in the same order as
in `xs`. -/
def SameOrderOfEquals (cmp : α → α → Int) (xs ys : List α) : Prop :=
  ∀ a, ys.filter (fun y => decide (cmp y a = 0)) = xs.filter (fun y => decide (cmp y a = 0))

/-- The comparator of integers by difference, on values small enough for the
difference not to overflow. -/
def diff_cmp (a b : Int) : Int := a - b

/-- A comparator of pairs by their first component: the second component
tells apart elements that compare equal. -/
def key_cmp (a b : Int × Int) : Int := a.1 - b.1

/-- Equality of results is decidable. -/
instance instDecidableEqExcept {ε β : Type} [DecidableEq ε] [DecidableEq β] :
    DecidableEq (Except ε β)
  | .ok a, .ok b =>
    if h : a = b then isTrue (by rw [h]) else isFalse (by intro h1; cases h1; exact h rfl)
  | .error a, .error b =>
    if h : a = b then isTrue (by rw [h]) else isFalse (by intro h1; cases h1; exact h rfl)
  | .ok _, .error _ => isFalse (by intro h; cases h)
  | .error _, .ok _ => isFalse (by intro h; cases h)

/-! ## Dynamic array (vector.c)

The descriptor `vector` of vector.h with its buffer: `data` is the list of
the bytes of the allocated block (`capacity * element_size` bytes, empty for
the `NULL` buffer), and a pointer into the buffer is its byte offset from
`vec->data`, an `Int`. `size_t` values are natural numbers.

Five fields are ghost state: `destroyed` records, in order, the byte offsets
the destroyer was called on, `destroyed_bytes` the bytes the slot at that
offset held when the call was made and `destroyed_size` the value the field
`size` had when the call was made, `overrun` is set as soon as a `memcpy` or
`memmove` touches a byte outside the allocated block (the descriptor fields
are still updated as the source updates them), and `reallocs` records, in
order, the value of `size` at every call of `realloc`. Bytes that the C
library leaves indeterminate (fresh `malloc` / `realloc` storage) are `0`.

A product of two `size_t` values one of which is a count chosen by the caller
of the library is taken modulo `2 ^ 64` (`size_t_mul`), and so are the index
computations of `vec_back` and `vec_at`. The byte lengths `size * element_size`
and `capacity * element_size` of the live part and of the block, the byte
count `__vec_double_if_full` asks for and the byte length of a source range that
exists in memory are the products themselves. -/

/-- The `vector` descriptor, its buffer and the ghost state. -/
structure vector where
  size : Nat
  element_size : Nat
  capacity : Nat
  data : List Nat
  /-- whether the `destroyer` function pointer is not `NULL` -/
  destroyer : Bool
  /-- ghost: offsets the destroyer was called on -/
  destroyed : List Int
  /-- ghost: a byte outside the block was read or written -/
  overrun : Bool
  /-- ghost: the number of live elements at each call of `realloc` -/
  reallocs : List Nat
  /-- ghost: the bytes of the slot the destroyer was called on, at each call -/
  destroyed_bytes : List (List Nat) := []
  /-- ghost: the value of `size` at each call of the destroyer -/
  destroyed_size : List Nat := []
  deriving DecidableEq

/-- The product `a * b` of two `size_t` values, modulo `2 ^ 64`. -/
def size_t_mul (a b : Nat) : Nat := (a * b) % 2 ^ 64

/-- The pointer `data` to the value of `vec_insert`: to bytes outside the buffer of the
vector, given by those bytes, or into the buffer, given by its byte offset
from `vec->data`. -/
inductive value_ptr where
  | outside (bytes : List Nat)
  | inside (offset : Int)
  deriving DecidableEq

/-- The bytes at the pointer `data` in the present state of the buffer: the
`element_size` bytes from the offset on for a pointer into the buffer (an
offset that is not negative). -/
def read_value (vec : vector) : value_ptr → List Nat
  | .outside bytes => bytes
  | .inside offset => (vec.data.drop offset.toNat).take vec.element_size

/-- The block `realloc(block, n)` returns: the first `min n |block|` bytes kept. -/
def realloc (block : List Nat) (n : Nat) : List Nat :=
  block.take n ++ List.replicate (n - block.length) 0

/-- The `n` bytes an operation reads at the source pointer `value`. -/
def bytes_of (value : List Nat) (n : Nat) : List Nat :=
  value.take n ++ List.replicate (n - value.length) 0

/-- Source function `memcpy(vec->data + dst, bs, |bs|)` on the buffer of `vec`. -/
def vec_memcpy (vec : vector) (dst : Int) (bs : List Nat) : vector :=
  if 0 ≤ dst ∧ dst + bs.length ≤ vec.data.length then
    { vec with data := vec.data.take dst.toNat ++ bs ++ vec.data.drop (dst.toNat + bs.length) }
  else { vec with overrun := true }

/-- Source function `memmove(vec->data + dst, vec->data + src, n)` on the buffer of `vec`. -/
def vec_memmove (vec : vector) (dst src : Int) (n : Nat) : vector :=
  if 0 ≤ src ∧ src + n ≤ vec.data.length then
    vec_memcpy vec dst ((vec.data.drop src.toNat).take n)
  else { vec with overrun := true }

/-- The call `vec->destroyer(vec->data + pos)` guarded by `vec->destroyer != NULL`. -/
def vec_destroy_at (vec : vector) (pos : Int) : vector :=
  if vec.destroyer then
    { vec with destroyed := vec.destroyed ++ [pos],
               destroyed_bytes := vec.destroyed_bytes ++
                 [(vec.data.drop pos.toNat).take vec.element_size],
               destroyed_size := vec.destroyed_size ++ [vec.size] }
  else vec

/-- Source function `vec_init_with_destroyer(size, element_size, destroyer)`. -/
def vec_init_with_destroyer (size element_size : Nat) (destroyer : Bool) :
    Except Fault vector :=
  if 0 < element_size then
    .ok { size := 0, element_size := element_size, capacity := size,
          data := List.replicate (size * element_size) 0, destroyer := destroyer,
          destroyed := [], overrun := false, reallocs := [] }
  else .error .assertion

/-- Source function `vec_init(size, element_size)`. -/
def vec_init (size element_size : Nat) : Except Fault vector :=
  vec_init_with_destroyer size element_size false

/-- Source function `__force_reserve_to(vec, size)` for a count the library takes from its
own block (`__vec_double_if_full`, `vec_shrink_to_fit`) or from a source range
that exists in memory (`vec_assign_rng`). -/
def __force_reserve_to (vec : vector) (size : Nat) : vector :=
  { vec with data := realloc vec.data (size * vec.element_size), capacity := size,
             reallocs := vec.reallocs ++ [vec.size] }

/-- Source function `__force_reserve_to(vec, size)` for a count `size` chosen by the caller of
the library (`vec_reserve`, `vec_resize`, `vec_assign`): the byte count
`size * vec->element_size` handed to `realloc` is the product in `size_t`. -/
def __force_reserve_to_n (vec : vector) (size : Nat) : vector :=
  { vec with data := realloc vec.data (size_t_mul size vec.element_size), capacity := size,
             reallocs := vec.reallocs ++ [vec.size] }

/-- Source function `__vec_double_if_full(vec)`. -/
def __vec_double_if_full (vec : vector) : vector :=
  if vec.size = vec.capacity then
    if vec.size = 0 then __force_reserve_to vec 1
    else __force_reserve_to vec (vec.capacity * 2)
  else vec

/-- Source function `vec_push_back(vec, data)`. -/
def vec_push_back (vec : vector) (data : List Nat) : Except Fault vector :=
  let v1 := __vec_double_if_full vec
  let dest : Int := ((v1.size * v1.element_size : Nat) : Int)
  let v2 := { v1 with size := v1.size + 1 }
  .ok (vec_memcpy v2 dest (bytes_of data v2.element_size))

/-- Source function `vec_pop_back(vec)`. -/
def vec_pop_back (vec : vector) : Except Fault vector :=
  if 0 < vec.size then
    let pos : Int := (((vec.size - 1) * vec.element_size : Nat) : Int)
    let v1 := vec_destroy_at vec pos
    .ok { v1 with size := v1.size - 1 }
  else .error .assertion

/-- Source function `__valid_pos(vec, pos)`: the two assertions. -/
def __valid_pos (vec : vector) (pos : Int) : Except Fault Unit :=
  let e : Int := ((vec.size * vec.element_size : Nat) : Int)
  if 0 ≤ pos then
    if pos < e then .ok () else .error .assertion
  else .error .assertion

/-- Source function `vec_erase(vec, pos)`. The byte count `end - pos - element_size` is a
`size_t`. -/
def vec_erase (vec : vector) (pos : Int) : Except Fault vector := do
  __valid_pos vec pos
  let e : Int := ((vec.size * vec.element_size : Nat) : Int)
  let v1 := vec_destroy_at vec pos
  let size := toSizeT (e - pos - v1.element_size)
  let v2 := vec_memmove v1 pos (pos + v1.element_size) size
  .ok { v2 with size := v2.size - 1 }

/-- Source function `vec_insert(vec, pos, data)`. The bytes at `data` are read by the
`memcpy`, which in the last branch comes after the `memmove` of the tail; in
the first branch they are the bytes at `data` when `vec_push_back` is called. -/
def vec_insert (vec : vector) (pos : Int) (data : value_ptr) : Except Fault vector :=
  let capacityEnd : Int := ((vec.capacity * vec.element_size : Nat) : Int)
  let e : Int := ((vec.size * vec.element_size : Nat) : Int)
  if 0 ≤ pos then
    if pos ≤ capacityEnd then
      if pos = e then vec_push_back vec (read_value vec data)
      else if pos > e then
        let v1 := vec_memcpy vec pos (bytes_of (read_value vec data) vec.element_size)
        .ok { v1 with size := v1.size + ((pos - e).toNat / v1.element_size + 1) }
      else
        let size := (e - pos).toNat
        let v1 := vec_memmove vec (pos + vec.element_size) pos size
        let v2 := vec_memcpy v1 pos (bytes_of (read_value v1 data) v1.element_size)
        .ok { v2 with size := v2.size + 1 }
    else .error .assertion
  else .error .assertion

/-- Source function `__check_erase_bounds(vec, start, end)`: both pointers go through
`__valid_pos`, then the order and the alignment of the range are asserted
unless `start == end`. -/
def __check_erase_bounds (vec : vector) (start e : Int) : Except Fault Unit := do
  __valid_pos vec start
  __valid_pos vec e
  if start = e then .ok ()
  else if start ≤ e then
    if (e - start) % (vec.element_size : Int) = 0 then .ok () else .error .assertion
  else .error .assertion

/-- The loop `while (pos != end) { vec->destroyer(pos); pos += vec->element_size; }`
of `__vec_destroy_rng`. -/
def __vec_destroy_loop (e : Int) : Nat → vector → Int → Except Fault vector
  | 0, vec, pos => if pos ≠ e then .error .fuel else .ok vec
  | fuel + 1, vec, pos =>
    if pos ≠ e then
      __vec_destroy_loop e fuel (vec_destroy_at vec pos) (pos + vec.element_size)
    else .ok vec

/-- Source function `__vec_destroy_rng(vec, start, end)`. -/
def __vec_destroy_rng (vec : vector) (start e : Int) : Except Fault vector :=
  if vec.destroyer then __vec_destroy_loop e (e - start).toNat vec start else .ok vec

/-- Source function `vec_erase_rng(vec, start, end)`. -/
def vec_erase_rng (vec : vector) (start e : Int) : Except Fault vector := do
  __check_erase_bounds vec start e
  let v1 ← __vec_destroy_rng vec start e
  let live : Int := ((v1.size * v1.element_size : Nat) : Int)
  let size := toSizeT (live - e)
  let v2 := vec_memmove v1 start e size
  .ok { v2 with size := v2.size - (e - start).toNat / v2.element_size }

/-- Source function `vec_insert_rng(vec, pos, start, end)`. The source range `[start, end)`
lies outside the buffer of the vector and is given by its bytes `src`, so
that `end - start` is `|src|` and `assert(start <= end)` holds. -/
def vec_insert_rng (vec : vector) (pos : Int) (src : List Nat) : Except Fault vector :=
  let capacityEnd : Int := ((vec.capacity * vec.element_size : Nat) : Int)
  let vecEnd : Int := ((vec.size * vec.element_size : Nat) : Int)
  if 0 ≤ pos then
    if pos ≤ capacityEnd then
      if src.length % vec.element_size = 0 then
        if (src.length : Int) ≤ capacityEnd - vecEnd then
          if pos ≥ vecEnd then
            let v1 := vec_memcpy vec pos src
            .ok { v1 with size := v1.size +
              ((pos - vecEnd).toNat / v1.element_size + src.length / v1.element_size) }
          else
            let size := (vecEnd - pos).toNat
            let v1 := vec_memmove vec (pos + src.length) pos size
            let v2 := vec_memcpy v1 pos src
            .ok { v2 with size := v2.size + src.length / v2.element_size }
        else .error .assertion
      else .error .assertion
    else .error .assertion
  else .error .assertion

/-- A run of consecutive `vec_push_back` calls, one for each value. -/
def vec_push_back_all : vector → List (List Nat) → Except Fault vector
  | vec, [] => .ok vec
  | vec, x :: xs => do
    let v1 ← vec_push_back vec x
    vec_push_back_all v1 xs

/-! ## Dynamic array: release, capacity and assignment -/

/-- Source function `__vec_destroy_each_item(vec)`: the range is `[data, data + size * element_size)`. -/
def __vec_destroy_each_item (vec : vector) : Except Fault vector :=
  __vec_destroy_rng vec 0 ((vec.size * vec.element_size : Nat) : Int)

/-- Source function `__vec_destroyer(vec)`: after `free(vec->data)` the buffer is `NULL`, the
empty block, and every field of the descriptor is zeroed. -/
def __vec_destroyer (vec : vector) : Except Fault vector := do
  let v1 ← __vec_destroy_each_item vec
  .ok { v1 with data := [], size := 0, capacity := 0, element_size := 0, destroyer := false }

/-- Source function `vec_free(vec)`. -/
def vec_free (vec : vector) : Except Fault vector := __vec_destroyer vec

/-- Source function `vec_clear(vec)`. -/
def vec_clear (vec : vector) : Except Fault vector := do
  let v1 ← __vec_destroy_each_item vec
  .ok { v1 with size := 0 }

/-- Source function `__force_resize_to(vec, size)` for a count taken from a source range that
exists in memory (`vec_assign_rng`). -/
def __force_resize_to (vec : vector) (size : Nat) : Except Fault vector :=
  if size = 0 then vec_clear vec
  else
    let v1 := __force_reserve_to vec size
    .ok { v1 with size := size }

/-- Source function `__force_resize_to(vec, size)` for a count `size` chosen by the caller of
the library (`vec_resize`, `vec_assign`). -/
def __force_resize_to_n (vec : vector) (size : Nat) : Except Fault vector :=
  if size = 0 then vec_clear vec
  else
    let v1 := __force_reserve_to_n vec size
    .ok { v1 with size := size }

/-- Source function `vec_shrink_to_fit(vec)`. -/
def vec_shrink_to_fit (vec : vector) : vector := __force_reserve_to vec vec.size

/-- The loop `for (i = 0; i < n; i++) { memcpy(dest, data, element_size); dest += element_size; }`
of `vec_assign`, with `n - i` iterations left. -/
def vec_assign_loop (data : List Nat) : Nat → vector → Int → vector
  | 0, vec, _ => vec
  | k + 1, vec, dest =>
    vec_assign_loop data k (vec_memcpy vec dest (bytes_of data vec.element_size))
      (dest + vec.element_size)

/-- Source function `vec_assign(vec, n, data)`. -/
def vec_assign (vec : vector) (n : Nat) (data : List Nat) : Except Fault vector := do
  let v1 ← __vec_destroy_each_item vec
  let v2 ← if n > v1.capacity then __force_resize_to_n v1 n else .ok v1
  let v3 := { v2 with size := n }
  .ok (vec_assign_loop data n v3 0)

/-- The loop `for (i = 0; i < size; i++) { memcpy(dest, start, element_size); dest += element_size; start += element_size; }`
of `vec_assign_rng`, with `size - i` iterations left; `src` is the bytes from
the pointer `start` on. -/
def vec_assign_rng_loop (element_size : Nat) : Nat → vector → Int → List Nat → vector
  | 0, vec, _, _ => vec
  | k + 1, vec, dest, src =>
    vec_assign_rng_loop element_size k (vec_memcpy vec dest (bytes_of src element_size))
      (dest + element_size) (src.drop element_size)

/-- Source function `vec_assign_rng(vec, start, end)`. The source range `[start, end)` lies
outside the buffer of the vector and is given by its bytes `src`, so that
`end - start` is `|src|`. -/
def vec_assign_rng (vec : vector) (src : List Nat) : Except Fault vector := do
  let element_size := vec.element_size
  let size := src.length / element_size
  let v1 ← __vec_destroy_each_item vec
  let v2 ← if size > v1.capacity then __force_resize_to v1 size else .ok v1
  let v3 := { v2 with size := size }
  .ok (vec_assign_rng_loop element_size size v3 0 src)

/-! ## Dynamic array: accessors and the stack built on them -/

/-- Conversion of an address difference to `ptrdiff_t` (64 bits, two's complement). -/
def toPtrdiff (x : Int) : Int := (x + 2 ^ 63) % 2 ^ 64 - 2 ^ 63

/-- Source function `vec_back(vec)`: the pointer `vec->data + (vec->size - 1) * vec->element_size`,
as its offset from `vec->data`. The index `vec->size - 1` and its product with
`element_size` are computed in `size_t`; there is no assertion. -/
def vec_back (vec : vector) : Except Fault Int :=
  .ok (toPtrdiff ((toSizeT (toSizeT ((vec.size : Int) - 1) * vec.element_size : Nat) : Nat) : Int))

/-- The `stack` of stack.h: a `vector`. -/
structure stack where
  data : vector
  deriving DecidableEq

/-- Source function `stk_init(element_size)` of stack.c. -/
def stk_init (element_size : Nat) : Except Fault stack :=
  (vec_init 0 element_size).map stack.mk

/-- Source function `stk_top(stk)` of stack.c. -/
def stk_top (stk : stack) : Except Fault Int := vec_back stk.data

/-! ## Range algorithms of util.c on the buffer of a vector -/

/-- Source function `fill(start, end, element_size, value)`: the loop
`for (ptr = start; ptr < end; ptr += element_size) memcpy(ptr, value, element_size);`. -/
def fill_loop (element_size : Nat) (value : List Nat) (e : Int) :
    Nat → vector → Int → Except Fault vector
  | 0, vec, ptr => if ptr < e then .error .fuel else .ok vec
  | fuel + 1, vec, ptr =>
    if ptr < e then
      fill_loop element_size value e fuel (vec_memcpy vec ptr (bytes_of value element_size))
        (ptr + element_size)
    else .ok vec

/-- Source function `fill(start, end, element_size, value)` on the buffer of `vec`. -/
def fill (vec : vector) (start e : Int) (element_size : Nat) (value : List Nat) :
    Except Fault vector :=
  fill_loop element_size value e (e - start).toNat vec start

/-- Source function `memcmp(a, b, n)` on two blocks of `n` bytes: the difference of the first
pair of bytes that differ. -/
def memcmp : List Nat → List Nat → Int
  | x :: xs, y :: ys => if x = y then memcmp xs ys else (x : Int) - (y : Int)
  | _, _ => 0

/-- The loop of `find_cmp`: the pointer of the first slot on which `cmp` is `0`,
or `end`. -/
def find_loop (vec : vector) (element_size : Nat) (value : List Nat)
    (cmp : List Nat → List Nat → Int) (e : Int) : Nat → Int → Except Fault Int
  | 0, ptr => if ptr < e then .error .fuel else .ok e
  | fuel + 1, ptr =>
    if ptr < e then
      if cmp ((vec.data.drop ptr.toNat).take element_size) (bytes_of value element_size) = 0
      then .ok ptr
      else find_loop vec element_size value cmp e fuel (ptr + element_size)
    else .ok e

/-- Source function `find_cmp(start, end, element_size, value, cmp)` on the buffer of `vec`. -/
def find_cmp (vec : vector) (start e : Int) (element_size : Nat) (value : List Nat)
    (cmp : List Nat → List Nat → Int) : Except Fault Int :=
  find_loop vec element_size value cmp e (e - start).toNat start

/-- Source function `find_rng(start, end, element_size, value)`: `find_rng_cmp` with `memcmp`. -/
def find_rng (vec : vector) (start e : Int) (element_size : Nat) (value : List Nat) :
    Except Fault Int :=
  find_cmp vec start e element_size value memcmp

/-- Source function `find_n(start, n, element_size, value)`: `find_n_cmp` with `memcmp`, up to
`start + n * element_size` with the product taken in `size_t`. -/
def find_n (vec : vector) (start : Int) (n element_size : Nat) (value : List Nat) :
    Except Fault Int :=
  find_cmp vec start (start + (size_t_mul n element_size : Nat)) element_size value memcmp

/-- The exchange `temp = left[j]; left[j] = right[j]; right[j] = temp;` of two bytes of
the buffer, at the offsets `a` and `b`. -/
def vec_byte_swap (vec : vector) (a b : Int) : vector :=
  if 0 ≤ a ∧ a < vec.data.length ∧ 0 ≤ b ∧ b < vec.data.length then
    let x := vec.data.getD a.toNat 0
    let y := vec.data.getD b.toNat 0
    { vec with data := (vec.data.set a.toNat y).set b.toNat x }
  else { vec with overrun := true }

/-- Inner loop `for (j = 0; j < element_size; j++)` of `reverse`, with `k` iterations left. -/
def reverse_inner (left right : Int) : Nat → Nat → vector → vector
  | 0, _, vec => vec
  | k + 1, j, vec =>
    reverse_inner left right k (j + 1) (vec_byte_swap vec (left + j) (right + j))

/-- Outer loop `for (i = 0; i < half_size; i += element_size)` of `reverse`. -/
def reverse_loop (half_size element_size : Nat) :
    Nat → vector → Nat → Int → Int → Except Fault vector
  | 0, vec, i, _, _ => if i < half_size then .error .fuel else .ok vec
  | fuel + 1, vec, i, left, right =>
    if i < half_size then
      reverse_loop half_size element_size fuel (reverse_inner left right element_size 0 vec)
        (i + element_size) (left + element_size) (right - element_size)
    else .ok vec

/-- Source function `reverse(start, end, element_size)` on the buffer of `vec`: the buffer after
the loop and the returned pointer, `start`. -/
def reverse (vec : vector) (start e : Int) (element_size : Nat) :
    Except Fault (vector × Int) :=
  let total_size := toSizeT (e - start)
  let half_size := total_size / 2
  (reverse_loop half_size element_size half_size vec 0 start (e - element_size)).map
    (fun v => (v, start))

/-- Source function `sort(start, end, element_size, cmp)` on the buffer of `vec`: the slots of
the range are sorted by the function `sort` and written back in place. -/
def sort_buffer (vec : vector) (start e : Int) (element_size : Nat)
    (cmp : List Nat → List Nat → Int) : Except Fault vector :=
  let n := toSizeT (e - start) / element_size
  let xs := (List.range n).map
    (fun k => (vec.data.drop (start.toNat + k * element_size)).take element_size)
  match sort element_size cmp xs with
  | .ok ys => .ok (vec_memcpy vec start ys.flatten)
  | .error f => .error f

/-! ## Dynamic array: the operations on a range of the vector -/

/-- Source function `__check_range(vec, start, end)`: the four assertions. -/
def __check_range (vec : vector) (start e : Int) : Except Fault Unit :=
  let live : Int := ((vec.size * vec.element_size : Nat) : Int)
  if 0 ≤ start then
    if e ≤ live then
      if start ≤ e then
        if (e - start) % (vec.element_size : Int) = 0 then .ok () else .error .assertion
      else .error .assertion
    else .error .assertion
  else .error .assertion

/-- Source function `vec_fill_rng(vec, start, end, data)`. -/
def vec_fill_rng (vec : vector) (start e : Int) (data : List Nat) : Except Fault vector := do
  __check_range vec start e
  fill vec start e vec.element_size data

/-- Source function `vec_fill(vec, data)`. -/
def vec_fill (vec : vector) (data : List Nat) : Except Fault vector :=
  vec_fill_rng vec 0 ((vec.size * vec.element_size : Nat) : Int) data

/-- Source function `vec_fill_n(vec, start, n, data)`; `n * vec->element_size` is the product in
`size_t`. -/
def vec_fill_n (vec : vector) (start : Int) (n : Nat) (data : List Nat) :
    Except Fault vector := do
  __check_range vec start (start + (size_t_mul n vec.element_size : Nat))
  vec_fill_rng vec start (start + (size_t_mul n vec.element_size : Nat)) data

/-- Source function `vec_find_rng(vec, start, end, data)`. -/
def vec_find_rng (vec : vector) (start e : Int) (data : List Nat) : Except Fault Int := do
  __check_range vec start e
  find_rng vec start e vec.element_size data

/-- Source function `vec_find_n(vec, start, n, data)`; `n * vec->element_size` is the product in
`size_t`. -/
def vec_find_n (vec : vector) (start : Int) (n : Nat) (data : List Nat) :
    Except Fault Int := do
  __check_range vec start (start + (size_t_mul n vec.element_size : Nat))
  find_n vec start n vec.element_size data

/-- Source function `vec_reverse(vec)`; the pointer `reverse` returns is dropped. -/
def vec_reverse (vec : vector) : Except Fault vector :=
  (reverse vec 0 ((vec.size * vec.element_size : Nat) : Int) vec.element_size).map Prod.fst

/-- Source function `vec_sort_rng_cmp(vec, start, end, cmp)`. -/
def vec_sort_rng_cmp (vec : vector) (start e : Int) (cmp : List Nat → List Nat → Int) :
    Except Fault vector := do
  __check_range vec start e
  sort_buffer vec start e vec.element_size cmp

/-- Source function `vec_sort_n_cmp(vec, start, n, cmp)`; `n * vec->element_size` is the product
in `size_t`. -/
def vec_sort_n_cmp (vec : vector) (start : Int) (n : Nat) (cmp : List Nat → List Nat → Int) :
    Except Fault vector := do
  __check_range vec start (start + (size_t_mul n vec.element_size : Nat))
  sort_buffer vec start (start + (size_t_mul n vec.element_size : Nat)) vec.element_size cmp

/-- Source function `vec_size(vec)`. -/
def vec_size (vec : vector) : Nat := vec.size

/-- Source function `vec_empty(vec)`: `vec->size == 0`. -/
def vec_empty (vec : vector) : Bool := vec.size == 0

/-- Source function `vec_begin(vec)`, as an offset from `vec->data`. -/
def vec_begin (_vec : vector) : Int := 0

/-- Source function `vec_end(vec)`, as an offset from `vec->data`. -/
def vec_end (vec : vector) : Int := ((vec.size * vec.element_size : Nat) : Int)

/-- Source function `vec_at(vec, index)` for a value `index` of type `int`, as the offset of the
returned pointer from `vec->data`. In `index < vec->size`, `index >= -vec->size`,
`index * vec->element_size` and `vec->size + index` the `int` is converted to
`size_t`, and `-vec->size` is the negation in `size_t`. -/
def vec_at (vec : vector) (index : Int) : Except Fault Int :=
  if index ≥ 0 then
    if toSizeT index < vec.size then
      .ok (toPtrdiff ((toSizeT ((toSizeT index * vec.element_size : Nat) : Int) : Nat) : Int))
    else .error .assertion
  else
    if toSizeT index ≥ toSizeT (-(vec.size : Int)) then
      .ok (toPtrdiff ((toSizeT ((toSizeT ((vec.size : Int) + (toSizeT index : Int)) *
        vec.element_size : Nat) : Int) : Nat) : Int))
    else .error .assertion

/-- Source function `find(start, end, element_size, value)` of util.c: `find_cmp` with `memcmp`. -/
def find (vec : vector) (start e : Int) (element_size : Nat) (value : List Nat) :
    Except Fault Int :=
  find_cmp vec start e element_size value memcmp

/-- Source function `vec_find(vec, data)`. -/
def vec_find (vec : vector) (data : List Nat) : Except Fault Int :=
  find vec 0 ((vec.size * vec.element_size : Nat) : Int) vec.element_size data

/-- Source function `fill_n(start, n, element_size, value)` of util.c, for `n` slots that exist
in memory from `start` on (their byte length is `n * element_size`). -/
def fill_n (vec : vector) (start : Int) (n element_size : Nat) (value : List Nat) :
    Except Fault vector :=
  fill vec start (start + ((n * element_size : Nat) : Int)) element_size value

/-- The `int` read by `*(int*)a` at a slot with the bytes `a`: four bytes, least
significant first, in two's complement. -/
def int_of_bytes (a : List Nat) : Int :=
  toInt32 ((a.getD 0 0 + 256 * a.getD 1 0 + 65536 * a.getD 2 0 + 16777216 * a.getD 3 0 : Nat) : Int)

/-- Source function `int_cmp(a, b)` of sorting.c: `*(int*)a - *(int*)b`, the difference
taken in 32-bit wrap-around arithmetic. -/
def int_cmp (a b : List Nat) : Int := toInt32 (int_of_bytes a - int_of_bytes b)

/-- Source function `vec_sort_cmp(vec, cmp)`. -/
def vec_sort_cmp (vec : vector) (cmp : List Nat → List Nat → Int) : Except Fault vector :=
  sort_buffer vec 0 ((vec.size * vec.element_size : Nat) : Int) vec.element_size cmp

/-- Source function `vec_sort(vec)`. -/
def vec_sort (vec : vector) : Except Fault vector := vec_sort_cmp vec int_cmp

/-- Source function `vec_sort_n(vec, start, n)`. -/
def vec_sort_n (vec : vector) (start : Int) (n : Nat) : Except Fault vector :=
  vec_sort_n_cmp vec start n int_cmp

/-- Source function `vec_sort_rng(vec, start, end)`. -/
def vec_sort_rng (vec : vector) (start e : Int) : Except Fault vector :=
  vec_sort_rng_cmp vec start e int_cmp

/-- Source function `stk_push(stk, data)` of stack.c. -/
def stk_push (stk : stack) (data : List Nat) : Except Fault stack :=
  (vec_push_back stk.data data).map stack.mk

/-- Source function `stk_pop(stk)` of stack.c. -/
def stk_pop (stk : stack) : Except Fault stack :=
  (vec_pop_back stk.data).map stack.mk

/-- Source function `stk_size(stk)` of stack.c. -/
def stk_size (stk : stack) : Nat := vec_size stk.data

/-- Source function `stk_empty(stk)` of stack.c. -/
def stk_empty (stk : stack) : Bool := vec_empty stk.data

/-- The value of `sizeof(data)` for a parameter `void* data`: the size of a
pointer where `size_t` has 64 bits. -/
def sizeof_ptr : Nat := 8

/-- The list descriptor with its nodes. -/
structure linked_list where
  size : Nat
  nodes : List (List Nat)
  element_size : Nat
  /-- ghost: a byte past the block of a node was written -/
  overrun : Bool
  deriving DecidableEq

/-- Source function `ll_create_node(list, data)`: the data block of the new node. -/
def ll_create_node (list : linked_list) (data : List Nat) : List Nat :=
  bytes_of data list.element_size

/-- Source function `ll_node_at(list, index)`: the position of the node reached from `head`
by `index` steps, after `assert(size > index)`. -/
def ll_node_at (list : linked_list) (index : Nat) : Except Fault Nat :=
  if list.size > index then
    if index < list.nodes.length then .ok index else .error .bounds
  else .error .assertion

/-- The call `memcpy(node->data, data, n)` on the data block `block` of a node:
the new block, and whether bytes past its end were written. -/
def ll_memcpy (block data : List Nat) (n : Nat) : List Nat × Bool :=
  if n ≤ block.length then (bytes_of data n ++ block.drop n, false)
  else ((bytes_of data n).take block.length, true)

/-- Source function `ll_set(node, data)`: `memcpy(node->data, data, sizeof(data))`. -/
def ll_set (block data : List Nat) : List Nat × Bool :=
  ll_memcpy block data sizeof_ptr

/-- Source function `ll_set_at(list, index, data)`: `ll_node_at`, then
`memcpy(node->data, data, sizeof(data))`. -/
def ll_set_at (list : linked_list) (index : Nat) (data : List Nat) :
    Except Fault linked_list := do
  let i ← ll_node_at list index
  let r := ll_set (list.nodes.getD i []) data
  .ok { list with nodes := list.nodes.set i r.1, overrun := list.overrun || r.2 }

/-! ## Vocabulary of the statements about the vector -/

/-- The `len` bytes of the block `D` from the offset `off`. -/
def blk (D : List Nat) (off len : Nat) : List Nat := (D.drop off).take len

/-- The bytes of the slot of index `k`. -/
def vec_slot (vec : vector) (k : Nat) : List Nat :=
  blk vec.data (k * vec.element_size) vec.element_size

/-- The live sequence: the slots of index `0 .. size - 1`. -/
def vec_elems (vec : vector) : List (List Nat) :=
  (List.range vec.size).map (vec_slot vec)

/-- The invariants of the data model: a positive element size, `size ≤ capacity`
and a block of `capacity * element_size` bytes. -/
def vec_wf (vec : vector) : Prop :=
  0 < vec.element_size ∧ vec.size ≤ vec.capacity ∧
    vec.data.length = vec.capacity * vec.element_size

/-- The elements of a source range given by its bytes `src`: its consecutive
blocks of `element_size` bytes. -/
def src_elems (src : List Nat) (element_size : Nat) : List (List Nat) :=
  (List.range (src.length / element_size)).map
    (fun t => blk src (t * element_size) element_size)

/-- One call on a vector: `vec_push_back` with a value, or `vec_pop_back`. -/
inductive vec_op where
  | push_back (data : List Nat)
  | pop_back
  deriving DecidableEq

/-- The call `op` on the vector. -/
def vec_apply (vec : vector) : vec_op → Except Fault vector
  | .push_back data => vec_push_back vec data
  | .pop_back => vec_pop_back vec

/-- The bytes of the slots the destroyer was called on between the state
`before` and the state `after` of an operation: the slots, read in the buffer
before the operation, at the offsets the operation appended to `destroyed`. -/
def destroyed_by (before after : vector) : List (List Nat) :=
  (after.destroyed.drop before.destroyed.length).map
    (fun p => blk before.data p.toNat before.element_size)

/-- A run of calls, one after the other. The second component lists the bytes
of the slots the destroyer was called on, call after call. -/
def vec_run : vector → List vec_op → Except Fault (vector × List (List Nat))
  | vec, [] => .ok (vec, [])
  | vec, op :: ops => do
    let v1 ← vec_apply vec op
    let r ← vec_run v1 ops
    .ok (r.1, destroyed_by vec v1 ++ r.2)

/-- The values pushed by a run of calls, in order, as the `element_size` bytes
that `vec_push_back` reads. -/
def pushed (element_size : Nat) : List vec_op → List (List Nat)
  | [] => []
  | .push_back data :: ops => bytes_of data element_size :: pushed element_size ops
  | .pop_back :: ops => pushed element_size ops

/-- Every `vec_pop_back` of the run is called on a non-empty vector, for a run
that starts on a vector of `n` elements. -/
def pops_on_nonempty : Nat → List vec_op → Bool
  | _, [] => true
  | n, .push_back _ :: ops => pops_on_nonempty (n + 1) ops
  | n, .pop_back :: ops => decide (0 < n) && pops_on_nonempty (n - 1) ops

/-- The value of a `vec_insert` at `pos` is unmoved: its bytes lie outside the buffer,
or in the block wholly before `pos`, or in the block from the new live end
on, so that none of them is in `[pos, end + element_size)`, the slot the
`memcpy` writes and the bytes the `memmove` of the tail writes. -/
def value_unmoved (vec : vector) (pos : Int) : value_ptr → Prop
  | .outside _ => True
  | .inside offset =>
    0 ≤ offset ∧
      (offset + (vec.element_size : Int) ≤ pos ∨
        (((vec.size * vec.element_size : Nat) : Int) + (vec.element_size : Int) ≤ offset ∧
          offset + (vec.element_size : Int) ≤ ((vec.capacity * vec.element_size : Nat) : Int)))

/-! ## Functions and invariants used in the proofs -/

/-- Invariant of the outer loop: every slot before `i` is below every later slot. -/
def selectionInv (cmp : α → α → Int) (i : Nat) (m : List α) : Prop :=
  ∀ (a b : Nat) (x y : α), a < b → a < i → m[a]? = some x → m[b]? = some y → cmp x y ≤ 0

/-- Invariant of the outer loop at position `i`: the first `i` slots are the
sorted, order-preserving rearrangement of the first `i` input slots, and the
rest is untouched. -/
def insertionInv (cmp : α → α → Int) (xs : List α) (i : Nat) (m : List α) : Prop :=
  ∃ S, m = S ++ xs.drop i ∧ S.length = i ∧ i ≤ xs.length ∧ S.Perm (xs.take i) ∧
    (IsTotalPreorder cmp → NonDecreasing cmp S ∧ SameOrderOfEquals cmp (xs.take i) S)

/-- The merge of `merge_sort` on two lists: the left head is taken when it
compares strictly below the right head, the right head otherwise. -/
def mergeLists (cmp : α → α → Int) : List α → List α → List α
  | [], R => R
  | a :: L, [] => a :: L
  | a :: L, b :: R =>
    if cmp a b < 0 then a :: mergeLists cmp L (b :: R)
    else b :: mergeLists cmp (a :: L) R
termination_by L R => L.length + R.length

/-- Choice made by one `if (c < size && cmp(...) > 0) largest = c;`. -/
def pickN (cmp : α → α → Int) (m : List α) (size c largest : Nat) : Nat :=
  if c < size then
    match m[c]?, m[largest]? with
    | some a, some b => if cmp a b > 0 then c else largest
    | _, _ => largest
  else largest

/-- The index `largest` that `_heap_ify` computes for the node `i`. -/
def largestN (cmp : α → α → Int) (m : List α) (size i : Nat) : Nat :=
  pickN cmp m size (2 * i + 2) (pickN cmp m size (2 * i + 1) i)

/-- Index map of an exchange of the slots `a` and `b`. -/
def tr (a b t : Nat) : Nat := if t = b then a else if t = a then b else t

/-- The slot `a` compares below or equal to the slot `b`. -/
def leAt (cmp : α → α → Int) (m : List α) (a b : Nat) : Prop :=
  ∀ x y, m[a]? = some x → m[b]? = some y → cmp x y ≤ 0

/-- The children of the node `j` that lie in the heap compare below `j`. -/
def HeapAt (cmp : α → α → Int) (m : List α) (size j : Nat) : Prop :=
  ∀ c, (c = 2 * j + 1 ∨ c = 2 * j + 2) → c < size → leAt cmp m c j

/-- Every node from `k` on has the heap property. -/
def HeapFrom (cmp : α → α → Int) (m : List α) (size k : Nat) : Prop :=
  ∀ j, k ≤ j → HeapAt cmp m size j

/-- Invariant of the second loop with `k` iterations left: the first `k`
slots form a heap, and every slot from `k` on is above every earlier slot. -/
def extractInv (cmp : α → α → Int) (k : Nat) (m : List α) : Prop :=
  HeapFrom cmp m k 0 ∧ ∀ a b, a < b → k ≤ b → leAt cmp m a b

/-- State after `n ≥ 1` pushes on an empty vector of capacity 0 whose log of
reallocations was `r0`: the capacity is the least power of two that is at
least `n`, and a reallocation took place at the sizes `0, 1, 2, 4, ...`
below `n`. -/
def pushInv (r0 : List Nat) (n : Nat) (v : vector) : Prop :=
  v.size = n ∧ vec_wf v ∧ ∃ k, v.capacity = 2 ^ k ∧ n ≤ 2 ^ k ∧ (k = 0 ∨ 2 ^ (k - 1) < n) ∧
    v.reallocs = r0 ++ 0 :: (List.range k).map (fun j => 2 ^ j)

/-! # Theorems -/

/-! ## Slot access lemmas -/

theorem load_eq_ok {m : List α} {p : Nat} {x : α} : load m p = .ok x ↔ m[p]? = some x := by
  unfold load
  cases h : m[p]? <;> simp

theorem load_of_lt {m : List α} {p : Nat} (h : p < m.length) : load m p = .ok m[p] := by
  rw [load_eq_ok]; exact List.getElem?_eq_getElem h

theorem load_of_ge {m : List α} {p : Nat} (h : m.length ≤ p) : load m p = .error .bounds := by
  unfold load
  rw [List.getElem?_eq_none h]

theorem store_of_lt {m : List α} {p : Nat} (x : α) (h : p < m.length) :
    store m p x = .ok (m.set p x) := by
  simp [store, h]

theorem swap_of_lt {m : List α} {a b : Nat} (ha : a < m.length) (hb : b < m.length) :
    swap m a b = .ok ((m.set a m[b]).set b m[a]) := by
  simp [swap, load_of_lt ha, load_of_lt hb, store, ha, hb, bind, Except.bind]

/-- Exchanging two slots gives a permutation. -/
theorem exchange_perm (m : List α) {a b : Nat} (ha : a < m.length) (hb : b < m.length) :
    ((m.set a m[b]).set b m[a]).Perm m := by
  classical
  by_cases hab : a = b
  · subst hab
    have h : (m.set a m[a]) = m := by
      apply List.ext_getElem? ; intro t
      rw [List.getElem?_set]
      by_cases h : a = t
      · subst h; simp [ha]
      · simp [h]
    simp [h]
  rw [List.perm_iff_count]
  intro x
  rw [List.count_set _ _ _ _ (by simpa using hb), List.count_set _ _ _ _ ha]
  simp only [List.getElem_set]
  have h1 := List.count_pos_iff.2 (List.getElem_mem ha)
  have h2 := List.count_pos_iff.2 (List.getElem_mem hb)
  simp only [hab, if_false, beq_iff_eq]
  by_cases c1 : m[a] = x <;> by_cases c2 : m[b] = x
  · simp only [c1, c2, if_true]; rw [c1] at h1; omega
  · simp only [c1, c2, if_true, if_false]; rw [c1] at h1; omega
  · simp only [c1, c2, if_true, if_false]; rw [c2] at h2; omega
  · simp only [c1, c2, if_false]; omega

theorem exchange_getElem? (m : List α) {a b : Nat} (ha : a < m.length) (hb : b < m.length)
    (t : Nat) :
    ((m.set a m[b]).set b m[a])[t]? =
      if t = b then m[a]? else if t = a then m[b]? else m[t]? := by
  rw [List.getElem?_set]
  by_cases h1 : b = t
  · subst h1; simp [ha, hb]
  · have h1' : ¬ t = b := fun h => h1 h.symm
    simp only [h1, h1', if_false]
    rw [List.getElem?_set]
    by_cases h2 : a = t
    · subst h2; simp [ha, hb]
    · have h2' : ¬ t = a := fun h => h2 h.symm
      simp [h2, h2']

/-! ## Comparator lemmas -/

theorem IsTotalPreorder.le_of_not_lt {cmp : α → α → Int} (hc : IsTotalPreorder cmp) {a b : α}
    (h : ¬ cmp a b < 0) : cmp b a ≤ 0 := by
  have := hc.flip b a
  by_contra h'
  have h2 : 0 < cmp b a := by omega
  have := (hc.flip a b).2 h2
  exact h this

theorem IsTotalPreorder.le_of_lt {cmp : α → α → Int} (_hc : IsTotalPreorder cmp) {a b : α}
    (h : cmp a b < 0) : cmp a b ≤ 0 := by omega

theorem IsTotalPreorder.refl {cmp : α → α → Int} (hc : IsTotalPreorder cmp) (a : α) :
    cmp a a ≤ 0 := by
  have := hc.flip a a
  by_contra h
  have h2 : 0 < cmp a a := by omega
  have := this.2 h2
  omega

/-- Pairwise order from the order of every two positions. -/
theorem nonDecreasing_of_index {cmp : α → α → Int} {m : List α}
    (h : ∀ (a b : Nat) (x y : α), a < b → m[a]? = some x → m[b]? = some y → cmp x y ≤ 0) :
    NonDecreasing cmp m := by
  unfold NonDecreasing
  rw [List.pairwise_iff_getElem]
  intro i j hi hj hij
  exact h i j _ _ hij (List.getElem?_eq_getElem hi) (List.getElem?_eq_getElem hj)

theorem NonDecreasing.adjacent {cmp : α → α → Int} {m : List α} (h : NonDecreasing cmp m) :
    AdjacentOrdered cmp m :=
  List.Pairwise.chain' h

/-! ## selection_sort -/

theorem selection_sort_inner_ok (cmp : α → α → Int) (m : List α) :
    ∀ fuel j min, min < m.length → m.length - j ≤ fuel →
      ∃ k, selection_sort_inner cmp m fuel j min = .ok k ∧ k < m.length ∧ (k = min ∨ j ≤ k) := by
  intro fuel
  induction fuel with
  | zero =>
    intro j min hmin hf
    have : ¬ j < m.length := by omega
    exact ⟨min, by simp [selection_sort_inner, this], hmin, Or.inl rfl⟩
  | succ fuel ih =>
    intro j min hmin hf
    by_cases hj : j < m.length
    · obtain ⟨k, hk, hk1, hk2⟩ := ih (j + 1)
        (if cmp m[j] m[min] < 0 then j else min) (by split_ifs <;> assumption) (by omega)
      refine ⟨k, ?_, hk1, ?_⟩
      · simp only [selection_sort_inner, hj, if_true, load_of_lt hj, load_of_lt hmin, bind,
          Except.bind]
        exact hk
      · rcases hk2 with h | h
        · split_ifs at h
          · right; omega
          · left; exact h
        · right; omega
    · exact ⟨min, by simp [selection_sort_inner, hj], hmin, Or.inl rfl⟩

theorem selection_sort_inner_min {cmp : α → α → Int} (hc : IsTotalPreorder cmp) (m : List α) :
    ∀ fuel j min k, selection_sort_inner cmp m fuel j min = .ok k → min < m.length →
      ∀ t x y, (t = min ∨ j ≤ t) → m[k]? = some x → m[t]? = some y → cmp x y ≤ 0 := by
  intro fuel
  induction fuel with
  | zero =>
    intro j min k h hmin t x y ht hx hy
    by_cases hj : j < m.length
    · simp [selection_sort_inner, hj] at h
    · simp [selection_sort_inner, hj] at h
      subst h
      have htl : t < m.length := by
        by_contra hh
        rw [List.getElem?_eq_none (by omega)] at hy
        cases hy
      rcases ht with ht | ht
      · subst ht
        rw [hx] at hy
        cases hy
        exact hc.refl _
      · omega
  | succ fuel ih =>
    intro j min k h hmin t x y ht hx hy
    have htl : t < m.length := by
      by_contra hh
      rw [List.getElem?_eq_none (by omega)] at hy
      cases hy
    by_cases hj : j < m.length
    · simp only [selection_sort_inner, hj, if_true, load_of_lt hj, load_of_lt hmin, bind,
        Except.bind] at h
      by_cases hlt : cmp m[j] m[min] < 0
      · simp only [hlt, if_true] at h
        have key := ih (j + 1) j k h hj
        rcases ht with ht | ht
        · subst ht
          have h1 := key j x m[j] (Or.inl rfl) hx (List.getElem?_eq_getElem hj)
          rw [List.getElem?_eq_getElem htl] at hy
          cases hy
          exact hc.trans _ _ _ h1 (by omega)
        · by_cases htj : t = j
          · exact key t x y (Or.inl htj) hx hy
          · exact key t x y (Or.inr (by omega)) hx hy
      · simp only [hlt, if_false] at h
        have key := ih (j + 1) min k h hmin
        rcases ht with ht | ht
        · exact key t x y (Or.inl ht) hx hy
        · by_cases htj : t = j
          · subst htj
            have h1 := key min x m[min] (Or.inl rfl) hx (List.getElem?_eq_getElem hmin)
            rw [List.getElem?_eq_getElem htl] at hy
            cases hy
            exact hc.trans _ _ _ h1 (hc.le_of_not_lt hlt)
          · exact key t x y (Or.inr (by omega)) hx hy
    · simp [selection_sort_inner, hj] at h
      subst h
      rcases ht with ht | ht
      · subst ht
        rw [hx] at hy
        cases hy
        exact hc.refl _
      · omega

/-- The exchange block of `selection_sort` on two slots of the range. -/
theorem selection_exchange_eq {m : List α} {i k : Nat} (hi : i < m.length) (hk : k < m.length)
    (f : List α → Except Fault (List α × Nat)) :
    (do
      let tmp ← load m i
      let x ← load m k
      let m1 ← store m i x
      let m2 ← store m1 k tmp
      f m2) = f ((m.set i m[k]).set k m[i]) := by
  simp [load_of_lt hi, load_of_lt hk, store, hi, hk, bind, Except.bind]

theorem selection_sort_outer_ok (cmp : α → α → Int) :
    ∀ fuel i (m : List α) k, m.length - i ≤ fuel →
      ∃ m1 k1, selection_sort_outer cmp fuel i m k = .ok (m1, k1) ∧ m1.Perm m ∧
        k1 ≤ k + (m.length - (i + 1)) := by
  intro fuel
  induction fuel with
  | zero =>
    intro i m k hf
    have : ¬ i < m.length := by omega
    exact ⟨m, k, by simp [selection_sort_outer, this], List.Perm.refl _, by omega⟩
  | succ fuel ih =>
    intro i m k hf
    by_cases hi : i < m.length
    · obtain ⟨k0, hk0, hk0l, hk0i⟩ := selection_sort_inner_ok cmp m m.length (i + 1) i hi (by omega)
      by_cases hne : k0 = i
      · obtain ⟨m1, k1, h1, h2, h3⟩ := ih (i + 1) m k (by omega)
        refine ⟨m1, k1, ?_, h2, by omega⟩
        simp only [selection_sort_outer, hi, if_true, hk0, bind, Except.bind]
        simp only [hne, ne_eq, not_true_eq_false, if_false]
        exact h1
      · have hlen : ((m.set i m[k0]).set k0 m[i]).length = m.length := by simp
        obtain ⟨m1, k1, h1, h2, h3⟩ := ih (i + 1) ((m.set i m[k0]).set k0 m[i]) (k + 1)
          (by rw [hlen]; omega)
        refine ⟨m1, k1, ?_, h2.trans (exchange_perm m hi hk0l), ?_⟩
        · simp only [selection_sort_outer, hi, if_true, hk0, bind, Except.bind]
          simp only [hne, ne_eq, not_false_eq_true, if_true]
          have := selection_exchange_eq hi hk0l
            (fun m2 => selection_sort_outer cmp fuel (i + 1) m2 (k + 1))
          simp only [bind, Except.bind] at this
          rw [this]
          exact h1
        · rw [hlen] at h3
          have : i + 1 < m.length := by omega
          omega
    · exact ⟨m, k, by simp [selection_sort_outer, hi], List.Perm.refl _, by omega⟩

theorem selectionInv_step {cmp : α → α → Int} {m : List α} {i k : Nat}
    (hi : i < m.length) (hk : k < m.length) (hik : k = i ∨ i + 1 ≤ k)
    (hmin : ∀ t x y, (t = i ∨ i + 1 ≤ t) → m[k]? = some x → m[t]? = some y → cmp x y ≤ 0)
    (hinv : selectionInv cmp i m) :
    selectionInv cmp (i + 1) ((m.set i m[k]).set k m[i]) := by
  intro a b x y hab hai hx hy
  rw [exchange_getElem? m hi hk] at hx hy
  have hbl : b < m.length := by
    by_contra hh
    have h1 : ¬ b = k := by omega
    have h2 : ¬ b = i := by omega
    simp only [h1, h2, if_false] at hy
    rw [List.getElem?_eq_none (by omega)] at hy
    cases hy
  by_cases ha : a = i
  · subst ha
    have hx' : m[k]? = some x := by
      by_cases h : a = k
      · simp only [h, if_true] at hx; rw [← h]; rw [← h] at hx; exact hx
      · simpa [h] using hx
    by_cases hbk : b = k
    · simp only [hbk, if_true] at hy
      exact hmin a x y (Or.inl rfl) hx' hy
    · have hba : ¬ b = a := by omega
      simp only [hbk, hba, if_false] at hy
      exact hmin b x y (Or.inr (by omega)) hx' hy
  · have hai' : a < i := by omega
    have h1 : ¬ a = k := by omega
    simp only [h1, ha, if_false] at hx
    by_cases hbk : b = k
    · simp only [hbk, if_true] at hy
      exact hinv a i x y hai' hai' hx hy
    · by_cases hbi : b = i
      · subst hbi
        simp only [hbk, if_false, if_true] at hy
        exact hinv a k x y (by omega) hai' hx hy
      · simp only [hbk, hbi, if_false] at hy
        exact hinv a b x y hab hai' hx hy

theorem selection_sort_outer_sorted {cmp : α → α → Int} (hc : IsTotalPreorder cmp) :
    ∀ fuel i (m : List α) k m1 k1, selection_sort_outer cmp fuel i m k = .ok (m1, k1) →
      selectionInv cmp i m → NonDecreasing cmp m1 := by
  intro fuel
  induction fuel with
  | zero =>
    intro i m k m1 k1 h hinv
    by_cases hi : i < m.length
    · simp [selection_sort_outer, hi] at h
    · simp [selection_sort_outer, hi] at h
      obtain ⟨rfl, -⟩ := h
      apply nonDecreasing_of_index
      intro a b x y hab hx hy
      have hbl : b < m.length := by
        by_contra hh
        rw [List.getElem?_eq_none (by omega)] at hy
        cases hy
      exact hinv a b x y hab (by omega) hx hy
  | succ fuel ih =>
    intro i m k m1 k1 h hinv
    by_cases hi : i < m.length
    · obtain ⟨k0, hk0, hk0l, hk0i⟩ := selection_sort_inner_ok cmp m m.length (i + 1) i hi (by omega)
      have hmin := selection_sort_inner_min hc m m.length (i + 1) i k0 hk0 hi
      simp only [selection_sort_outer, hi, if_true, hk0, bind, Except.bind] at h
      by_cases hne : k0 = i
      · simp only [hne, ne_eq, not_true_eq_false, if_false] at h
        refine ih (i + 1) m k m1 k1 h ?_
        intro a b x y hab hai hx hy
        by_cases ha : a = i
        · subst ha
          rw [hne] at hmin
          exact hmin b x y (Or.inr (by omega)) hx hy
        · exact hinv a b x y hab (by omega) hx hy
      · simp only [hne, ne_eq, not_false_eq_true, if_true] at h
        have := selection_exchange_eq hi hk0l
          (fun m2 => selection_sort_outer cmp fuel (i + 1) m2 (k + 1))
        simp only [bind, Except.bind] at this
        rw [this] at h
        exact ih (i + 1) _ (k + 1) m1 k1 h (selectionInv_step hi hk0l hk0i hmin hinv)
    · simp [selection_sort_outer, hi] at h
      obtain ⟨rfl, -⟩ := h
      apply nonDecreasing_of_index
      intro a b x y hab hx hy
      have hbl : b < m.length := by
        by_contra hh
        rw [List.getElem?_eq_none (by omega)] at hy
        cases hy
      exact hinv a b x y hab (by omega) hx hy

/-! ## insertion_sort -/

theorem load_append_mid (A : List α) (x : α) (C : List α) (k : Nat) (hk : k = A.length) :
    load (A ++ x :: C) k = .ok x := by
  subst hk
  rw [load_eq_ok, List.getElem?_append_right (le_refl _)]
  simp

theorem swap_adjacent (A : List α) (b x : α) (C : List α) (k : Nat) (hk : k = A.length) :
    swap (A ++ b :: x :: C) (k + 1) k = .ok (A ++ x :: b :: C) := by
  subst hk
  have h1 : load (A ++ b :: x :: C) (A.length + 1) = .ok x := by
    have := load_append_mid (A ++ [b]) x C (A.length + 1) (by simp)
    simpa using this
  have h2 : load (A ++ b :: x :: C) A.length = .ok b := load_append_mid A b (x :: C) _ rfl
  simp only [swap, h1, h2, bind, Except.bind, store]
  have e1 : (A ++ b :: x :: C).set (A.length + 1) b = A ++ b :: b :: C := by
    rw [List.set_append_right _ _ (by omega)]
    simp
  simp only [List.length_append, List.length_cons]
  rw [if_pos (by omega), e1]
  simp only [List.length_append, List.length_cons]
  rw [if_pos (by omega)]
  rw [List.set_append_right _ _ (by omega)]
  simp

theorem insertion_sort_inner_spec (cmp : α → α → Int) :
    ∀ j (A : List α) (x : α) (C : List α), A.length = j →
      ∃ A1 A2, A = A1 ++ A2 ∧
        insertion_sort_inner cmp j (A ++ x :: C) = .ok (A1 ++ x :: (A2 ++ C)) ∧
        (∀ a ∈ A2, cmp x a < 0) ∧ (∀ a, A1.getLast? = some a → ¬ cmp x a < 0) := by
  intro j
  induction j with
  | zero =>
    intro A x C hA
    have : A = [] := List.eq_nil_of_length_eq_zero hA
    subst this
    exact ⟨[], [], rfl, by simp [insertion_sort_inner], by simp, by simp⟩
  | succ j ih =>
    intro A x C hA
    rcases List.eq_nil_or_concat A with h | ⟨A', b, h⟩
    · subst h; simp at hA
    · rw [List.concat_eq_append] at h
      subst h
      have hA' : A'.length = j := by simpa using hA
      have h1 : load (A' ++ [b] ++ x :: C) (j + 1) = .ok x :=
        load_append_mid (A' ++ [b]) x C (j + 1) (by simp [hA'])
      have h2 : load (A' ++ [b] ++ x :: C) j = .ok b := by
        have := load_append_mid A' b (x :: C) j hA'.symm
        simpa using this
      by_cases hlt : cmp x b < 0
      · obtain ⟨A1, A2, e, hrun, hA2, hA1⟩ := ih A' x (b :: C) hA'
        refine ⟨A1, A2 ++ [b], by rw [e]; simp, ?_, ?_, hA1⟩
        · have hs := swap_adjacent A' b x C j hA'.symm
          simp only [List.append_assoc, List.singleton_append] at h1 h2 ⊢
          simp only [insertion_sort_inner, h1, h2, bind, Except.bind, hlt, if_true, hs]
          exact hrun
        · intro a ha
          rcases List.mem_append.1 ha with h | h
          · exact hA2 a h
          · simp at h; subst h; exact hlt
      · refine ⟨A' ++ [b], [], by simp, ?_, by simp, ?_⟩
        · simp only [insertion_sort_inner, h1, h2, bind, Except.bind, hlt, if_false,
            List.nil_append]
        · intro a ha
          simp at ha
          subst ha
          exact hlt

theorem filter_eq_nil_of_lt {cmp : α → α → Int} (hc : IsTotalPreorder cmp) {x a : α}
    (hxa : cmp x a = 0) (A2 : List α) (hA2 : ∀ b ∈ A2, cmp x b < 0) :
    A2.filter (fun y => decide (cmp y a = 0)) = [] := by
  rw [List.filter_eq_nil_iff]
  intro b hb hba
  have hba' : cmp b a = 0 := by simpa using hba
  have h1 : cmp a x ≤ 0 := hc.le_of_not_lt (by omega)
  have h2 : cmp b x ≤ 0 := hc.trans _ _ _ (by omega) h1
  have h3 := (hc.flip x b).1 (hA2 b hb)
  omega

theorem insertionInv_step {cmp : α → α → Int} {xs : List α} {i : Nat} {m : List α}
    (hi : i < m.length) (hinv : insertionInv cmp xs i m) :
    ∃ m1, insertion_sort_inner cmp i m = .ok m1 ∧ m1.length = m.length ∧
      insertionInv cmp xs (i + 1) m1 := by
  obtain ⟨S, hm, hS, hix, hperm, hsorted⟩ := hinv
  have hlen : m.length = xs.length := by
    rw [hm]; simp [hS]; omega
  have hi' : i < xs.length := by omega
  have hdrop : xs.drop i = xs[i] :: xs.drop (i + 1) := (List.drop_eq_getElem_cons hi')
  have htake : xs.take (i + 1) = xs.take i ++ [xs[i]] := by
    rw [List.take_succ, List.getElem?_eq_getElem hi']; rfl
  obtain ⟨A1, A2, e, hrun, hA2, hA1⟩ :=
    insertion_sort_inner_spec cmp i S xs[i] (xs.drop (i + 1)) hS
  rw [hm, hdrop]
  refine ⟨_, hrun, ?_, ?_⟩
  · rw [e]; simp; omega
  · refine ⟨A1 ++ xs[i] :: A2, by simp, ?_, by omega, ?_, ?_⟩
    · rw [e] at hS; simp at hS ⊢; omega
    · rw [htake]
      have : (A1 ++ xs[i] :: A2).Perm (A1 ++ A2 ++ [xs[i]]) := by
        simp only [List.append_assoc]
        exact List.Perm.append_left A1 (List.perm_append_singleton _ _).symm
      refine this.trans ?_
      rw [← e]
      exact List.Perm.append_right _ hperm
    · intro hc
      obtain ⟨hs, hst⟩ := hsorted hc
      constructor
      · unfold NonDecreasing at hs ⊢
        rw [e] at hs
        rw [List.pairwise_append] at hs
        obtain ⟨hs1, hs2, hs12⟩ := hs
        rw [List.pairwise_append]
        have hlast : ∀ a ∈ A1, cmp a xs[i] ≤ 0 := by
          intro a ha
          rcases List.eq_nil_or_concat A1 with h | ⟨A0, l, h⟩
          · subst h; simp at ha
          · rw [List.concat_eq_append] at h
            subst h
            have hl : cmp l xs[i] ≤ 0 := hc.le_of_not_lt (hA1 l (by simp))
            rcases List.mem_append.1 ha with h | h
            · rw [List.pairwise_append] at hs1
              exact hc.trans _ _ _ (hs1.2.2 a h l (by simp)) hl
            · simp at h; subst h; exact hl
        refine ⟨hs1, ?_, ?_⟩
        · rw [List.pairwise_cons]
          exact ⟨fun a ha => by have := hA2 a ha; omega, hs2⟩
        · intro a ha b hb
          rcases List.mem_cons.1 hb with h | h
          · subst h; exact hlast a ha
          · exact hs12 a ha b h
      · intro a
        have hst' := hst a
        rw [htake]
        simp only [List.filter_append]
        rw [← hst', e]
        simp only [List.filter_append, List.filter_cons, List.filter_nil]
        by_cases hxa : cmp xs[i] a = 0
        · simp only [hxa, decide_True, if_true]
          rw [filter_eq_nil_of_lt hc hxa A2 hA2]
          simp
        · simp [hxa]

theorem insertion_sort_outer_spec (cmp : α → α → Int) (xs : List α) :
    ∀ fuel i (m : List α), m.length - i ≤ fuel → insertionInv cmp xs i m →
      ∃ m1, insertion_sort_outer cmp fuel i m = .ok m1 ∧ insertionInv cmp xs xs.length m1 := by
  intro fuel
  induction fuel with
  | zero =>
    intro i m hf hinv
    have hi : ¬ i < m.length := by omega
    refine ⟨m, by simp [insertion_sort_outer, hi], ?_⟩
    have hinv' := hinv
    obtain ⟨S, hm, hS, hix, -⟩ := hinv
    have : i = xs.length := by
      have : m.length = xs.length := by rw [hm]; simp [hS]; omega
      omega
    subst this
    exact hinv'
  | succ fuel ih =>
    intro i m hf hinv
    by_cases hi : i < m.length
    · obtain ⟨m1, hrun, hl, hinv1⟩ := insertionInv_step hi hinv
      obtain ⟨m2, hrun2, hinv2⟩ := ih (i + 1) m1 (by omega) hinv1
      refine ⟨m2, ?_, hinv2⟩
      simp only [insertion_sort_outer, hi, if_true, hrun, bind, Except.bind]
      exact hrun2
    · refine ⟨m, by simp [insertion_sort_outer, hi], ?_⟩
      have hinv' := hinv
      obtain ⟨S, hm, hS, hix, -⟩ := hinv
      have : i = xs.length := by
        have : m.length = xs.length := by rw [hm]; simp [hS]; omega
        omega
      subst this
      exact hinv'

/-- What `insertion_sort` returns, for any comparator. -/
theorem insertion_sort_spec (cmp : α → α → Int) (xs : List α) :
    ∃ ys, insertion_sort cmp xs = .ok ys ∧ ys.Perm xs ∧
      (IsTotalPreorder cmp → NonDecreasing cmp ys ∧ SameOrderOfEquals cmp xs ys) := by
  cases xs with
  | nil =>
    refine ⟨[], by simp [insertion_sort, insertion_sort_outer], List.Perm.refl _, ?_⟩
    intro _
    exact ⟨List.Pairwise.nil, fun a => rfl⟩
  | cons x xs =>
    have hinv : insertionInv cmp (x :: xs) 1 (x :: xs) := by
      refine ⟨[x], by simp, rfl, by simp, by simp, ?_⟩
      intro _
      exact ⟨List.pairwise_singleton _ _, fun a => by simp⟩
    obtain ⟨m1, hrun, S, hm, hS, -, hperm, hrest⟩ :=
      insertion_sort_outer_spec cmp (x :: xs) (x :: xs).length 1 (x :: xs) (by simp) hinv
    simp only [List.drop_length, List.append_nil, List.take_length] at hm hperm hrest
    subst hm
    exact ⟨m1, hrun, hperm, hrest⟩

/-! ## merge_sort -/

theorem mergeLists_nil_right (cmp : α → α → Int) (L : List α) : mergeLists cmp L [] = L := by
  cases L <;> simp [mergeLists]

theorem mergeLists_perm (cmp : α → α → Int) :
    ∀ (k : Nat) (L R : List α), L.length + R.length = k → (mergeLists cmp L R).Perm (L ++ R) := by
  intro k
  induction k with
  | zero =>
    intro L R h
    have h1 : L = [] := List.eq_nil_of_length_eq_zero (by omega)
    have h2 : R = [] := List.eq_nil_of_length_eq_zero (by omega)
    subst h1 h2
    simp [mergeLists]
  | succ k ih =>
    intro L R h
    cases L with
    | nil => simp [mergeLists]
    | cons a L =>
      cases R with
      | nil => simp [mergeLists]
      | cons b R =>
        rw [mergeLists]
        split_ifs with hlt
        · exact List.Perm.cons a (ih L (b :: R) (by simp at h ⊢; omega))
        · have h1 := ih (a :: L) R (by simp at h ⊢; omega)
          refine (List.Perm.cons b h1).trans ?_
          exact (@List.perm_middle _ b (a :: L) R).symm

theorem mergeLists_sorted {cmp : α → α → Int} (hc : IsTotalPreorder cmp) :
    ∀ (k : Nat) (L R : List α), L.length + R.length = k → NonDecreasing cmp L →
      NonDecreasing cmp R → NonDecreasing cmp (mergeLists cmp L R) := by
  intro k
  induction k with
  | zero =>
    intro L R h _ _
    have h1 : L = [] := List.eq_nil_of_length_eq_zero (by omega)
    have h2 : R = [] := List.eq_nil_of_length_eq_zero (by omega)
    subst h1 h2
    simp [mergeLists, NonDecreasing]
  | succ k ih =>
    intro L R h hL hR
    cases L with
    | nil => simpa [mergeLists] using hR
    | cons a L =>
      cases R with
      | nil => simpa [mergeLists] using hL
      | cons b R =>
        rw [mergeLists]
        unfold NonDecreasing at hL hR
        rw [List.pairwise_cons] at hL hR
        split_ifs with hlt
        · have h1 := ih L (b :: R) (by simp at h ⊢; omega) hL.2
            (by unfold NonDecreasing; rw [List.pairwise_cons]; exact hR)
          unfold NonDecreasing at h1 ⊢
          rw [List.pairwise_cons]
          refine ⟨?_, h1⟩
          intro y hy
          have hy' := (mergeLists_perm cmp _ L (b :: R) rfl).subset hy
          rcases List.mem_append.1 hy' with h2 | h2
          · exact hL.1 y h2
          · rcases List.mem_cons.1 h2 with h3 | h3
            · subst h3; omega
            · exact hc.trans _ _ _ (by omega) (hR.1 y h3)
        · have h1 := ih (a :: L) R (by simp at h ⊢; omega)
            (by unfold NonDecreasing; rw [List.pairwise_cons]; exact hL) hR.2
          unfold NonDecreasing at h1 ⊢
          rw [List.pairwise_cons]
          refine ⟨?_, h1⟩
          intro y hy
          have hba : cmp b a ≤ 0 := hc.le_of_not_lt hlt
          have hy' := (mergeLists_perm cmp _ (a :: L) R rfl).subset hy
          rcases List.mem_append.1 hy' with h2 | h2
          · rcases List.mem_cons.1 h2 with h3 | h3
            · subst h3; exact hba
            · exact hc.trans _ _ _ hba (hL.1 y h3)
          · exact hR.1 y h2

theorem loadIn_append_mid (A : List α) (x : α) (C : List α) (s e k : Nat) (hk : k = A.length)
    (hs : s ≤ k) (he : k < e) : loadIn (A ++ x :: C) s e k = .ok x := by
  simp only [loadIn, hs, he, and_self, if_true]
  exact load_append_mid A x C k hk

theorem merge_rest_copy (m : List α) (s e n stop : Nat) :
    ∀ (fuel : Nat) (X A B temp : List α), m = A ++ X ++ B → s ≤ A.length →
      stop = A.length + X.length → stop ≤ e → temp.length + X.length ≤ n → X.length ≤ fuel →
      merge_rest m s e n stop fuel A.length temp = .ok (temp ++ X) := by
  intro fuel
  induction fuel with
  | zero =>
    intro X A B temp hm hs hstop he hn hf
    have : X = [] := List.eq_nil_of_length_eq_zero (by omega)
    subst this
    simp [merge_rest, hstop]
  | succ fuel ih =>
    intro X A B temp hm hs hstop he hn hf
    cases X with
    | nil => simp [merge_rest, hstop]
    | cons x X =>
      have hlt : A.length < stop := by simp at hstop; omega
      have hld : loadIn m s e A.length = .ok x := by
        rw [hm]
        simp only [List.append_assoc, List.cons_append]
        exact loadIn_append_mid A x _ s e _ rfl hs (by omega)
      have ht : temp.length < n := by simp at hn; omega
      have := ih X (A ++ [x]) B (temp ++ [x]) (by rw [hm]; simp) (by simp; omega)
        (by simp at hstop ⊢; omega) he (by simp at hn ⊢; omega) (by simp at hf; omega)
      simp only [List.length_append, List.length_singleton] at this
      simp only [merge_rest, hlt, if_true, hld, bind, Except.bind, ht, this]
      simp

theorem merge_loops_spec (cmp : α → α → Int) (m : List α) (s mid e n : Nat) :
    ∀ (fuel : Nat) (A L B R Q temp : List α), m = A ++ L ++ B ++ R ++ Q → s ≤ A.length →
      mid = A.length + L.length → e = mid + B.length + R.length →
      temp.length + L.length + R.length ≤ n → L.length + R.length ≤ fuel →
      merge_loops cmp m s mid e n fuel A.length (mid + B.length) temp =
        .ok (temp ++ mergeLists cmp L R) := by
  intro fuel
  induction fuel with
  | zero =>
    intro A L B R Q temp hm hs hmid he hn hf
    have h1 : L = [] := List.eq_nil_of_length_eq_zero (by omega)
    have h2 : R = [] := List.eq_nil_of_length_eq_zero (by omega)
    subst h1 h2
    simp only [List.length_nil, Nat.add_zero] at hmid he
    have c1 : ¬ (A.length < mid ∧ mid + B.length < e) := by omega
    have r1 := merge_rest_copy m s e n mid n [] A (B ++ Q) temp (by rw [hm]; simp) hs
      (by simp [hmid]) (by omega) (by simp; omega) (by simp)
    have r2 := merge_rest_copy m s e n e n [] (A ++ B) Q temp (by rw [hm]; simp) (by simp; omega)
      (by simp; omega) (by omega) (by simp; omega) (by simp)
    simp only [List.length_append] at r2
    rw [← hmid] at r2
    simp only [merge_loops, merge_both, c1, if_false, bind, Except.bind, r1, List.append_nil, r2]
    simp [mergeLists]
  | succ fuel ih =>
    intro A L B R Q temp hm hs hmid he hn hf
    cases L with
    | nil =>
      simp only [List.length_nil, Nat.add_zero] at hmid
      have c1 : ¬ (A.length < mid ∧ mid + B.length < e) := by omega
      have r1 := merge_rest_copy m s e n mid n [] A (B ++ R ++ Q) temp (by rw [hm]; simp) hs
        (by simp [hmid]) (by omega) (by simp; omega) (by simp)
      have r2 := merge_rest_copy m s e n e n R (A ++ B) Q temp (by rw [hm]; simp)
        (by simp; omega) (by simp; omega) (by omega) (by simp at hn; omega) (by simp at hn; omega)
      simp only [List.length_append] at r2
      rw [← hmid] at r2
      simp only [merge_loops, merge_both, c1, if_false, bind, Except.bind, r1, List.append_nil, r2]
      simp [mergeLists]
    | cons a L =>
      cases R with
      | nil =>
        simp only [List.length_nil, Nat.add_zero] at he
        have c1 : ¬ (A.length < mid ∧ mid + B.length < e) := by omega
        have r1 := merge_rest_copy m s e n mid n (a :: L) A (B ++ Q) temp (by rw [hm]; simp) hs
          hmid (by omega) (by simp at hn ⊢; omega) (by simp at hn ⊢; omega)
        have r2 := merge_rest_copy m s e n e n [] (A ++ a :: L ++ B) Q (temp ++ a :: L)
          hm (by simp only [List.length_append]; omega)
          (by simp at hmid ⊢; omega) (by omega)
          (by simp at hn ⊢; omega) (by simp)
        have e2 : (A ++ a :: L ++ B).length = mid + B.length := by
          simp at hmid ⊢; omega
        rw [e2] at r2
        simp only [merge_loops, merge_both, c1, if_false, bind, Except.bind, r1, r2]
        simp [mergeLists]
      | cons b R =>
        have c1 : A.length < mid ∧ mid + B.length < e := by
          simp at hmid he; omega
        have hla : loadIn m s e A.length = .ok a := by
          rw [hm]
          simp only [List.append_assoc, List.cons_append]
          exact loadIn_append_mid A a _ s e _ rfl hs (by omega)
        have hlb : loadIn m s e (mid + B.length) = .ok b := by
          have : m = (A ++ a :: L ++ B) ++ b :: (R ++ Q) := by rw [hm]; simp
          rw [this]
          exact loadIn_append_mid _ b _ s e _ (by simp at hmid ⊢; omega) (by omega) (by omega)
        have ht : temp.length < n := by simp at hn; omega
        by_cases hlt : cmp a b < 0
        · have := ih (A ++ [a]) L B (b :: R) Q (temp ++ [a]) (by rw [hm]; simp) (by simp; omega)
            (by simp at hmid ⊢; omega) he (by simp at hn ⊢; omega) (by simp at hf ⊢; omega)
          simp only [List.length_append, List.length_singleton, merge_loops] at this
          simp only [merge_loops, merge_both, c1, and_self, if_true, hla, hlb, bind, Except.bind,
            ht, hlt]
          simp only [bind, Except.bind] at this
          rw [this, mergeLists]
          simp [hlt]
        · have := ih A (a :: L) (B ++ [b]) R Q (temp ++ [b]) (by rw [hm]; simp) hs hmid
            (by simp at he ⊢; omega) (by simp at hn ⊢; omega) (by simp at hf ⊢; omega)
          simp only [List.length_append, List.length_singleton, merge_loops] at this
          simp only [merge_loops, merge_both, c1, and_self, if_true, hla, hlb, bind, Except.bind,
            ht, hlt, if_false]
          simp only [bind, Except.bind, ← Nat.add_assoc] at this
          rw [this, mergeLists]
          simp [hlt]

theorem merge_sort_rng_spec (cmp : α → α → Int) :
    ∀ (fuel : Nat) (m P X Q : List α) (s e : Nat), m = P ++ X ++ Q → s = P.length →
      e = P.length + X.length → X.length ≤ fuel →
      ∃ ys, merge_sort_rng cmp fuel m s e = .ok (P ++ ys ++ Q) ∧ ys.Perm X ∧
        (IsTotalPreorder cmp → NonDecreasing cmp ys) := by
  intro fuel
  induction fuel with
  | zero =>
    intro m P X Q s e hm hs he hf
    have : X = [] := List.eq_nil_of_length_eq_zero (by omega)
    subst this
    refine ⟨[], ?_, List.Perm.refl _, fun _ => List.Pairwise.nil⟩
    have : e - s ≤ 1 := by simp at he; omega
    simp [merge_sort_rng, this, hm]
  | succ fuel ih =>
    intro m P X Q s e hm hs he hf
    by_cases hn : e - s ≤ 1
    · refine ⟨X, by simp [merge_sort_rng, hn, hm], List.Perm.refl _, ?_⟩
      intro _
      have hx : X.length ≤ 1 := by omega
      unfold NonDecreasing
      match X, hx with
      | [], _ => exact List.Pairwise.nil
      | [x], _ => exact List.pairwise_singleton _ _
    · have hnX : e - s = X.length := by omega
      have hX1 : (X.take (X.length / 2)).length = X.length / 2 := by
        rw [List.length_take]; omega
      have hX2 : (X.drop (X.length / 2)).length = X.length - X.length / 2 := by
        rw [List.length_drop]
      have hsplit : X = X.take (X.length / 2) ++ X.drop (X.length / 2) :=
        (List.take_append_drop _ _).symm
      obtain ⟨ys1, hr1, hp1, hs1⟩ := ih m P (X.take (X.length / 2)) (X.drop (X.length / 2) ++ Q)
        s (s + X.length / 2) (by rw [hm, List.append_assoc, List.append_assoc,
                                 ← List.append_assoc (X.take _), List.take_append_drop])
        hs (by rw [hX1]; omega) (by rw [hX1]; omega)
      have hl1 : ys1.length = X.length / 2 := by rw [hp1.length_eq, hX1]
      obtain ⟨ys2, hr2, hp2, hs2⟩ := ih (P ++ ys1 ++ (X.drop (X.length / 2) ++ Q)) (P ++ ys1)
        (X.drop (X.length / 2)) Q (s + X.length / 2) e (by simp)
        (by simp [hl1, hs]) (by simp [hl1]; omega) (by rw [hX2]; omega)
      have hl2 : ys2.length = X.length - X.length / 2 := by rw [hp2.length_eq, hX2]
      have hloops := merge_loops_spec cmp (P ++ ys1 ++ ys2 ++ Q) s (s + X.length / 2) e
        (X.length) (X.length) P ys1 [] ys2 Q []
        (by simp) (by omega) (by omega) (by simp; omega) (by simp; omega) (by omega)
      simp only [List.length_nil, Nat.add_zero, List.nil_append] at hloops
      rw [← hs] at hloops
      have hperm : (mergeLists cmp ys1 ys2).Perm X := by
        refine (mergeLists_perm cmp _ ys1 ys2 rfl).trans ?_
        rw [hsplit]
        exact List.Perm.append hp1 hp2
      have hlen : (mergeLists cmp ys1 ys2).length = X.length := hperm.length_eq
      refine ⟨mergeLists cmp ys1 ys2, ?_, hperm, ?_⟩
      · simp only [merge_sort_rng, hn, if_false, hnX, hr1, bind, Except.bind, hr2, hloops, hlen,
          true_and]
        have hle : e ≤ (P ++ ys1 ++ ys2 ++ Q).length := by
          simp only [List.length_append]; omega
        rw [if_pos hle]
        have t1 : (P ++ ys1 ++ ys2 ++ Q).take s = P := by
          rw [hs]; simp [List.take_append_eq_append_take]
        have t2 : (P ++ ys1 ++ ys2 ++ Q).drop e = Q := by
          have : e = (P ++ ys1 ++ ys2).length := by simp only [List.length_append]; omega
          rw [this, List.drop_left]
        rw [t1, t2]
        rw [if_neg (by omega)]
      · intro hc
        exact mergeLists_sorted hc _ ys1 ys2 rfl (hs1 hc) (hs2 hc)

/-- What `merge_sort` returns, for any comparator. -/
theorem merge_sort_spec (cmp : α → α → Int) (xs : List α) :
    ∃ ys, merge_sort cmp xs = .ok ys ∧ ys.Perm xs ∧
      (IsTotalPreorder cmp → NonDecreasing cmp ys) := by
  obtain ⟨ys, h1, h2, h3⟩ := merge_sort_rng_spec cmp xs.length xs [] xs [] 0 xs.length
    (by simp) rfl (by simp) le_rfl
  refine ⟨ys, ?_, h2, h3⟩
  simpa [merge_sort] using h1

/-! ## heap_sort: integer conversions -/

theorem toInt32_of_lt {x : Nat} (h : x < 2 ^ 31) : toInt32 (x : Int) = x := by
  unfold toInt32
  omega

theorem toInt32_pred {x : Nat} (h : x < 2 ^ 31) : toInt32 ((x : Int) - 1) = (x : Int) - 1 := by
  unfold toInt32
  omega

theorem toSizeT_of_nat {x : Nat} (h : x < 2 ^ 64) : toSizeT (x : Int) = x := by
  unfold toSizeT
  omega

/-- For an index `c < 2 ^ 32`, the test `c < size` made after the conversions
`int` and `size_t` agrees with the test on the index, when `size < 2 ^ 31`. -/
theorem child_test_iff {c size : Nat} (hc : c < 2 ^ 32) (hs : size < 2 ^ 31) :
    toSizeT (toInt32 (c : Int)) < size ↔ c < size := by
  unfold toSizeT toInt32
  omega

theorem loadP_nat (m : List α) (p : Nat) : loadP m (p : Int) = load m p := by
  simp [loadP]

theorem swapP_nat (m : List α) (a b : Nat) : swapP m (a : Int) (b : Int) = swap m a b := by
  simp [swapP]

theorem heap_pick_eq (cmp : α → α → Int) (m : List α) (size c largest : Nat)
    (hsz : size ≤ m.length) (hs : size < 2 ^ 31) (hl : largest < m.length) (hc : c < 2 ^ 32) :
    heap_pick cmp m size (toInt32 (c : Int)) (largest : Int) =
      .ok ((pickN cmp m size c largest : Nat) : Int) := by
  unfold heap_pick pickN
  by_cases h : c < size
  · have h1 : toSizeT (toInt32 (c : Int)) < size := (child_test_iff hc hs).2 h
    have h2 : toInt32 (c : Int) = c := toInt32_of_lt (by omega)
    have hcl : c < m.length := by omega
    rw [if_pos h1, if_pos h, h2, loadP_nat, loadP_nat, load_of_lt hcl, load_of_lt hl,
      List.getElem?_eq_getElem hcl, List.getElem?_eq_getElem hl]
    simp only [bind, Except.bind, pure, Except.pure]
    split_ifs <;> rfl
  · have h1 : ¬ toSizeT (toInt32 (c : Int)) < size := fun h' => h ((child_test_iff hc hs).1 h')
    rw [if_neg h1, if_neg h]
    rfl

theorem pickN_cases (cmp : α → α → Int) (m : List α) (size c largest : Nat) :
    pickN cmp m size c largest = largest ∨
      (pickN cmp m size c largest = c ∧ c < size ∧
        ∀ a b, m[c]? = some a → m[largest]? = some b → cmp a b > 0) := by
  unfold pickN
  by_cases h : c < size
  · simp only [h, if_true]
    cases h1 : m[c]? with
    | none => left; rfl
    | some a =>
      cases h2 : m[largest]? with
      | none => left; rfl
      | some b =>
        simp only
        by_cases h3 : cmp a b > 0
        · right
          simp only [h3, if_true, true_and]
          intro a' b' e1 e2
          cases e1; cases e2; exact h3
        · left; simp [h3]
  · left; simp [h]

theorem pickN_keep (cmp : α → α → Int) (m : List α) {size c largest : Nat}
    (h : pickN cmp m size c largest = largest) (hne : c ≠ largest) (hc : c < size) :
    ∀ a b, m[c]? = some a → m[largest]? = some b → ¬ cmp a b > 0 := by
  intro a b h1 h2 h3
  unfold pickN at h
  simp only [hc, if_true, h1, h2, h3] at h
  exact hne h

theorem largestN_range (cmp : α → α → Int) (m : List α) (size i : Nat) :
    largestN cmp m size i = i ∨
      ((largestN cmp m size i = 2 * i + 1 ∨ largestN cmp m size i = 2 * i + 2) ∧
        largestN cmp m size i < size) := by
  unfold largestN
  rcases pickN_cases cmp m size (2 * i + 2) (pickN cmp m size (2 * i + 1) i) with h | ⟨h, h1, -⟩
  · rw [h]
    rcases pickN_cases cmp m size (2 * i + 1) i with h' | ⟨h', h1', -⟩
    · left; exact h'
    · right; rw [h']; exact ⟨Or.inl rfl, h1'⟩
  · right; rw [h]; exact ⟨Or.inr rfl, h1⟩

/-- One unfolding of `_heap_ify` on a node `i` given as a natural number. -/
theorem heap_ify_step (cmp : α → α → Int) (fuel : Nat) (m : List α) {size i : Nat}
    (hsz : size ≤ m.length) (hs : size < 2 ^ 31) (hi : i + 1 < 2 ^ 31) (him : i < m.length) :
    _heap_ify cmp (fuel + 1) m size (i : Int) =
      if largestN cmp m size i ≠ i then
        (swap m i (largestN cmp m size i)) >>= fun m1 =>
          _heap_ify cmp fuel m1 size ((largestN cmp m size i : Nat) : Int)
      else .ok m := by
  have e1 : (2 * (i : Int) + 1) = ((2 * i + 1 : Nat) : Int) := by push_cast; rfl
  have e2 : (2 * (i : Int) + 2) = ((2 * i + 2 : Nat) : Int) := by push_cast; rfl
  have hp1 := heap_pick_eq cmp m size (2 * i + 1) i hsz hs him (by omega)
  have hl1 : pickN cmp m size (2 * i + 1) i < m.length := by
    rcases pickN_cases cmp m size (2 * i + 1) i with h | ⟨h, h1, -⟩
    · rw [h]; exact him
    · rw [h]; omega
  have hp2 := heap_pick_eq cmp m size (2 * i + 2) (pickN cmp m size (2 * i + 1) i)
    hsz hs hl1 (by omega)
  rw [_heap_ify]
  simp only [e1, e2, hp1, hp2, bind, Except.bind]
  have : (((pickN cmp m size (2 * i + 2) (pickN cmp m size (2 * i + 1) i) : Nat) : Int) ≠ (i : Int))
      ↔ largestN cmp m size i ≠ i := by
    unfold largestN
    simp
  simp only [this, swapP_nat]
  rfl

/-! ## heap_sort: sifting -/

theorem swap_spec {m m1 : List α} {a b : Nat} (ha : a < m.length) (hb : b < m.length)
    (h : swap m a b = .ok m1) :
    m1.length = m.length ∧ m1.Perm m ∧ ∀ t, m1[t]? = m[tr a b t]? := by
  rw [swap_of_lt ha hb] at h
  cases h
  refine ⟨by simp, exchange_perm m ha hb, ?_⟩
  intro t
  rw [exchange_getElem? m ha hb]
  unfold tr
  split_ifs <;> rfl

theorem leAt_refl {cmp : α → α → Int} (hc : IsTotalPreorder cmp) (m : List α) (a : Nat) :
    leAt cmp m a a := by
  intro x y hx hy
  rw [hx] at hy
  cases hy
  exact hc.refl x

theorem leAt_trans {cmp : α → α → Int} (hc : IsTotalPreorder cmp) {m : List α} {a b c : Nat}
    (hb : b < m.length) (h1 : leAt cmp m a b) (h2 : leAt cmp m b c) : leAt cmp m a c := by
  intro x z hx hz
  exact hc.trans _ _ _ (h1 x m[b] hx (List.getElem?_eq_getElem hb))
    (h2 m[b] z (List.getElem?_eq_getElem hb) hz)

theorem leAt_of_getElem? {cmp : α → α → Int} {m m1 : List α} {f : Nat → Nat}
    (h : ∀ t, m1[t]? = m[f t]?) {a b : Nat} (hab : leAt cmp m (f a) (f b)) :
    leAt cmp m1 a b := by
  intro x y hx hy
  rw [h] at hx hy
  exact hab x y hx hy

theorem pickN_max {cmp : α → α → Int} (hc : IsTotalPreorder cmp) (m : List α)
    (size c largest : Nat) :
    leAt cmp m largest (pickN cmp m size c largest) ∧
      (c < size → leAt cmp m c (pickN cmp m size c largest)) := by
  rcases pickN_cases cmp m size c largest with h | ⟨h, h1, h2⟩
  · rw [h]
    refine ⟨leAt_refl hc m _, ?_⟩
    intro hcs
    by_cases hne : c = largest
    · rw [hne]; exact leAt_refl hc m _
    · intro a b ha hb
      have := pickN_keep cmp m h hne hcs a b ha hb
      omega
  · rw [h]
    refine ⟨?_, fun _ => leAt_refl hc m _⟩
    intro b a hb ha
    have := h2 a b ha hb
    have := (hc.flip b a).2 this
    omega

theorem pickN_lt (cmp : α → α → Int) (m : List α) {size largest : Nat} (c : Nat)
    (hs : size ≤ m.length) (hl : largest < m.length) : pickN cmp m size c largest < m.length := by
  rcases pickN_cases cmp m size c largest with h | ⟨h, h1, -⟩
  · rw [h]; exact hl
  · rw [h]; omega

/-- The node chosen by `_heap_ify` dominates the node and its children. -/
theorem largestN_max {cmp : α → α → Int} (hc : IsTotalPreorder cmp) (m : List α) {size i : Nat}
    (hs : size ≤ m.length) (hi : i < m.length) :
    ∀ d, (d = i ∨ d = 2 * i + 1 ∨ d = 2 * i + 2) → d < size →
      leAt cmp m d (largestN cmp m size i) := by
  intro d hd hds
  have h1 := pickN_max hc m size (2 * i + 1) i
  have h2 := pickN_max hc m size (2 * i + 2) (pickN cmp m size (2 * i + 1) i)
  have hl := pickN_lt cmp m (2 * i + 1) hs hi
  unfold largestN
  rcases hd with h | h | h
  · subst h; exact leAt_trans hc hl h1.1 h2.1
  · subst h; exact leAt_trans hc hl (h1.2 hds) h2.1
  · subst h; exact h2.2 hds

/-- The run of `_heap_ify` returns, keeps the slots before `i` and from `size` on, and
only rearranges the slots below `size`; this holds for any comparator. -/
theorem heap_ify_ok (cmp : α → α → Int) :
    ∀ (fuel : Nat) (m : List α) (size i : Nat), size ≤ m.length → size < 2 ^ 31 →
      i + 1 < 2 ^ 31 → i < m.length → size - i + 1 ≤ fuel →
      ∃ m1, _heap_ify cmp fuel m size (i : Int) = .ok m1 ∧ m1.length = m.length ∧ m1.Perm m ∧
        (∀ t, t < i ∨ size ≤ t → m1[t]? = m[t]?) ∧
        (∀ t x, t < size → m1[t]? = some x → ∃ u, u < size ∧ m[u]? = some x) := by
  intro fuel
  induction fuel with
  | zero => intro m size i _ _ _ _ hf; omega
  | succ fuel ih =>
    intro m size i hsz hs hi him hf
    rw [heap_ify_step cmp fuel m hsz hs hi him]
    by_cases hL : largestN cmp m size i = i
    · simp only [hL, ne_eq, not_true_eq_false, if_false]
      exact ⟨m, rfl, rfl, List.Perm.refl _, fun _ _ => rfl, fun t x ht hx => ⟨t, ht, hx⟩⟩
    · rcases largestN_range cmp m size i with h | ⟨hch, hlt⟩
      · exact absurd h hL
      · have hLm : largestN cmp m size i < m.length := by omega
        have hsw := swap_of_lt him hLm
        obtain ⟨sl, sp, sg⟩ := swap_spec him hLm hsw
        obtain ⟨m2, hrun, hlen, hperm, hframe, horig⟩ := ih _ size (largestN cmp m size i)
          (by rw [sl]; exact hsz) hs (by omega) (by rw [sl]; exact hLm) (by omega)
        refine ⟨m2, ?_, by rw [hlen, sl], hperm.trans sp, ?_, ?_⟩
        · simp only [hL, ne_eq, not_false_eq_true, if_true, hsw, bind, Except.bind]
          exact hrun
        · intro t ht
          rw [hframe t (by omega), sg t]
          unfold tr
          have h1 : ¬ t = largestN cmp m size i := by omega
          have h2 : ¬ t = i := by omega
          simp [h1, h2]
        · intro t x ht hx
          obtain ⟨u, hu, hux⟩ := horig t x ht hx
          rw [sg u] at hux
          refine ⟨tr i (largestN cmp m size i) u, ?_, hux⟩
          unfold tr
          split_ifs <;> omega

/-- Sifting the node `i` down restores the heap property from `k` on, when
every other node from `k` on has it and the parent of `i` dominates the
children of `i`. -/
theorem heap_ify_heap {cmp : α → α → Int} (hc : IsTotalPreorder cmp) :
    ∀ (fuel : Nat) (m : List α) (size k i : Nat) (m1 : List α), size ≤ m.length →
      size < 2 ^ 31 → k ≤ i → i < size →
      (∀ j, k ≤ j → j ≠ i → HeapAt cmp m size j) →
      (∀ p c, k ≤ p → (i = 2 * p + 1 ∨ i = 2 * p + 2) → (c = 2 * i + 1 ∨ c = 2 * i + 2) →
        c < size → leAt cmp m c p) →
      _heap_ify cmp fuel m size (i : Int) = .ok m1 → HeapFrom cmp m1 size k := by
  intro fuel
  induction fuel with
  | zero =>
    intro m size k i m1 _ _ _ _ _ _ h
    simp [_heap_ify] at h
  | succ fuel ih =>
    intro m size k i m1 hsz hs hki hi hothers hparent h
    have him : i < m.length := by omega
    rw [heap_ify_step cmp fuel m hsz hs (by omega) him] at h
    have hmax := largestN_max hc m hsz him
    by_cases hL : largestN cmp m size i = i
    · simp only [hL, ne_eq, not_true_eq_false, if_false] at h
      cases h
      intro j hj
      by_cases hji : j = i
      · subst hji
        intro c hcc hcs
        have := hmax c (by omega) hcs
        rw [hL] at this
        exact this
      · exact hothers j hj hji
    · rcases largestN_range cmp m size i with h' | ⟨hch, hlt⟩
      · exact absurd h' hL
      · have hLm : largestN cmp m size i < m.length := by omega
        have hsw := swap_of_lt him hLm
        obtain ⟨sl, sp, sg⟩ := swap_spec him hLm hsw
        simp only [hL, ne_eq, not_false_eq_true, if_true, hsw, bind, Except.bind] at h
        generalize hLdef : largestN cmp m size i = L at *
        refine ih _ size k L m1 (by rw [sl]; exact hsz) hs (by omega) hlt ?_ ?_ h
        · intro j hj hjL c hcc hcs
          apply leAt_of_getElem? sg
          by_cases hji : j = i
          · subst hji
            have e1 : tr j L j = L := by unfold tr; simp [hjL]
            rw [e1]
            by_cases hcL : c = L
            · subst hcL
              have e2 : tr j c c = j := by unfold tr; simp
              rw [e2]
              exact hmax j (Or.inl rfl) hi
            · have e2 : tr j L c = c := by
                unfold tr
                have : ¬ c = j := by omega
                simp [hcL, this]
              rw [e2]
              exact hmax c (by omega) hcs
          · have e1 : tr i L j = j := by unfold tr; simp [hjL, hji]
            rw [e1]
            have hcL : ¬ c = L := by omega
            by_cases hci : c = i
            · subst hci
              have e2 : tr c L c = L := by unfold tr; simp [hcL]
              rw [e2]
              exact hparent j L hj hcc hch hlt
            · have e2 : tr i L c = c := by unfold tr; simp [hcL, hci]
              rw [e2]
              exact hothers j hj hji c hcc hcs
        · intro p c hp hLp hcc hcs
          apply leAt_of_getElem? sg
          have hpi : p = i := by omega
          subst hpi
          have e1 : tr p L p = L := by
            unfold tr
            have : ¬ p = L := by omega
            simp [this]
          have e2 : tr p L c = c := by
            unfold tr
            have h1 : ¬ c = L := by omega
            have h2 : ¬ c = p := by omega
            simp [h1, h2]
          rw [e1, e2]
          exact hothers L (by omega) (by omega) c hcc hcs

/-! ## heap_sort: the two loops -/

theorem heap_root_max {cmp : α → α → Int} (hc : IsTotalPreorder cmp) {m : List α} {size : Nat}
    (hs : size ≤ m.length) (hh : HeapFrom cmp m size 0) :
    ∀ t, t < size → leAt cmp m t 0 := by
  intro t
  induction t using Nat.strong_induction_on with
  | _ t ih =>
    intro ht
    by_cases h0 : t = 0
    · subst h0; exact leAt_refl hc m 0
    · have h1 : t = 2 * ((t - 1) / 2) + 1 ∨ t = 2 * ((t - 1) / 2) + 2 := by omega
      have h2 := hh ((t - 1) / 2) (Nat.zero_le _) t h1 ht
      have h3 := ih ((t - 1) / 2) (by omega) (by omega)
      exact leAt_trans hc (by omega) h2 h3

theorem heap_build_ok (cmp : α → α → Int) (size : Nat) :
    ∀ (k : Nat) (m : List α), size ≤ m.length → size < 2 ^ 31 → k ≤ size →
      ∃ m1, heap_build cmp size k m = .ok m1 ∧ m1.length = m.length ∧ m1.Perm m := by
  intro k
  induction k with
  | zero =>
    intro m _ _ _
    exact ⟨m, rfl, rfl, List.Perm.refl _⟩
  | succ k ih =>
    intro m hsz hs hk
    obtain ⟨m1, hrun, hlen, hperm, -, -⟩ := heap_ify_ok cmp (size + 1) m size k hsz hs
      (by omega) (by omega) (by omega)
    obtain ⟨m2, hrun2, hlen2, hperm2⟩ := ih m1 (by rw [hlen]; exact hsz) hs (by omega)
    refine ⟨m2, ?_, by rw [hlen2, hlen], hperm2.trans hperm⟩
    simp only [heap_build, hrun, bind, Except.bind]
    exact hrun2

theorem heap_build_heap {cmp : α → α → Int} (hc : IsTotalPreorder cmp) (size : Nat) :
    ∀ (k : Nat) (m m1 : List α), size ≤ m.length → size < 2 ^ 31 → k ≤ size →
      HeapFrom cmp m size k → heap_build cmp size k m = .ok m1 → HeapFrom cmp m1 size 0 := by
  intro k
  induction k with
  | zero =>
    intro m m1 _ _ _ hh h
    simp only [heap_build] at h
    cases h
    exact hh
  | succ k ih =>
    intro m m1 hsz hs hk hh h
    obtain ⟨m2, hrun, hlen, -, -, -⟩ := heap_ify_ok cmp (size + 1) m size k hsz hs
      (by omega) (by omega) (by omega)
    simp only [heap_build, hrun, bind, Except.bind] at h
    have hh2 : HeapFrom cmp m2 size k := by
      refine heap_ify_heap hc (size + 1) m size k k m2 hsz hs le_rfl (by omega) ?_ ?_ hrun
      · intro j hj hjk
        exact hh j (by omega)
      · intro p c hp hkp
        omega
    exact ih m2 m1 (by rw [hlen]; exact hsz) hs (by omega) hh2 h

theorem heap_extract_step_eq (cmp : α → α → Int) (k : Nat) (m : List α) (hk : k < 2 ^ 31) :
    heap_extract cmp (k + 1) m =
      (swap m 0 k) >>= fun m1 => (_heap_ify cmp (k + 1) m1 k ((0 : Nat) : Int)) >>=
        fun m2 => heap_extract cmp k m2 := by
  rw [heap_extract]
  have e1 : swapP m 0 (k : Int) = swap m 0 k := by
    have := swapP_nat m 0 k
    simpa using this
  have e2 : toSizeT (k : Int) = k := toSizeT_of_nat (by omega)
  rw [e1, e2]
  rfl

theorem heap_extract_ok (cmp : α → α → Int) :
    ∀ (k : Nat) (m : List α), k ≤ m.length → k < 2 ^ 31 →
      ∃ m1, heap_extract cmp k m = .ok m1 ∧ m1.length = m.length ∧ m1.Perm m := by
  intro k
  induction k with
  | zero =>
    intro m _ _
    exact ⟨m, rfl, rfl, List.Perm.refl _⟩
  | succ k ih =>
    intro m hk hs
    have h0 : 0 < m.length := by omega
    have hkm : k < m.length := by omega
    have hsw := swap_of_lt h0 hkm
    obtain ⟨sl, sp, -⟩ := swap_spec h0 hkm hsw
    obtain ⟨m2, hrun, hlen, hperm, -, -⟩ := heap_ify_ok cmp (k + 1) _ k 0
      (by rw [sl]; omega) (by omega) (by omega) (by rw [sl]; omega) (by omega)
    obtain ⟨m3, hrun3, hlen3, hperm3⟩ := ih m2 (by rw [hlen, sl]; omega) (by omega)
    refine ⟨m3, ?_, by rw [hlen3, hlen, sl], hperm3.trans (hperm.trans sp)⟩
    rw [heap_extract_step_eq cmp k m (by omega)]
    simp only [hsw, bind, Except.bind, hrun]
    exact hrun3

theorem extractInv_step {cmp : α → α → Int} (hc : IsTotalPreorder cmp) {k : Nat}
    {m m2 : List α} (hk : k + 1 ≤ m.length) (hs : k + 1 < 2 ^ 31)
    (hinv : extractInv cmp (k + 1) m)
    (hrun : _heap_ify cmp (k + 1) ((m.set 0 m[k]).set k m[0]) k ((0 : Nat) : Int) = .ok m2) :
    extractInv cmp k m2 := by
  have h0 : 0 < m.length := by omega
  have hkm : k < m.length := by omega
  obtain ⟨sl, sp, sg⟩ := swap_spec h0 hkm (swap_of_lt h0 hkm)
  obtain ⟨m2', hrun', hlen, -, hframe, horig⟩ := heap_ify_ok cmp (k + 1) _ k 0
    (by rw [sl]; omega) (by omega) (by omega) (by rw [sl]; omega) (by omega)
  rw [hrun] at hrun'
  cases hrun'
  obtain ⟨hheap, htail⟩ := hinv
  have hroot := heap_root_max hc hk hheap
  constructor
  · by_cases hk0 : k = 0
    · subst hk0
      intro j _ c _ hc0
      omega
    · refine heap_ify_heap hc (k + 1) _ k 0 0 m2 (by rw [sl]; omega) (by omega) le_rfl
        (by omega) ?_ ?_ hrun
      · intro j _ hj0 c hcc hck
        apply leAt_of_getElem? sg
        have e1 : tr 0 k c = c := by
          unfold tr
          have h1 : ¬ c = k := by omega
          have h2 : ¬ c = 0 := by omega
          simp [h1, h2]
        have e2 : tr 0 k j = j := by
          unfold tr
          have h1 : ¬ j = k := by omega
          simp [h1, hj0]
        rw [e1, e2]
        exact hheap j (Nat.zero_le _) c hcc (by omega)
      · intro p c _ h0p
        omega
  · intro a b hab hkb x y hx hy
    rw [hframe b (Or.inr hkb), sg b] at hy
    by_cases hak : k ≤ a
    · rw [hframe a (Or.inr hak), sg a] at hx
      have hbk : ¬ b = k := by omega
      have hb0 : ¬ b = 0 := by omega
      have eb : tr 0 k b = b := by unfold tr; simp [hbk, hb0]
      rw [eb] at hy
      by_cases hak' : a = k
      · have ea : tr 0 k a = 0 := by unfold tr; simp [hak']
        rw [ea] at hx
        exact htail 0 b (by omega) (by omega) x y hx hy
      · have ea : tr 0 k a = a := by
          unfold tr
          have : ¬ a = 0 := by omega
          simp [hak', this]
        rw [ea] at hx
        exact htail a b hab (by omega) x y hx hy
    · obtain ⟨u, huk, hux⟩ := horig a x (by omega) hx
      rw [sg u] at hux
      have hu' : tr 0 k u < k + 1 := by unfold tr; split_ifs <;> omega
      by_cases hbk : b = k
      · have eb : tr 0 k b = 0 := by unfold tr; simp [hbk]
        rw [eb] at hy
        exact hroot _ hu' x y hux hy
      · have hb0 : ¬ b = 0 := by omega
        have eb : tr 0 k b = b := by unfold tr; simp [hbk, hb0]
        rw [eb] at hy
        exact htail _ b (by omega) (by omega) x y hux hy

theorem heap_extract_sorted {cmp : α → α → Int} (hc : IsTotalPreorder cmp) :
    ∀ (k : Nat) (m m1 : List α), k ≤ m.length → k < 2 ^ 31 → extractInv cmp k m →
      heap_extract cmp k m = .ok m1 → NonDecreasing cmp m1 := by
  intro k
  induction k with
  | zero =>
    intro m m1 _ _ hinv h
    simp only [heap_extract] at h
    cases h
    apply nonDecreasing_of_index
    intro a b x y hab hx hy
    exact hinv.2 a b hab (Nat.zero_le _) x y hx hy
  | succ k ih =>
    intro m m1 hk hs hinv h
    have h0 : 0 < m.length := by omega
    have hkm : k < m.length := by omega
    have hsw := swap_of_lt h0 hkm
    obtain ⟨sl, -, -⟩ := swap_spec h0 hkm hsw
    obtain ⟨m2, hrun, hlen, -, -, -⟩ := heap_ify_ok cmp (k + 1) _ k 0
      (by rw [sl]; omega) (by omega) (by omega) (by rw [sl]; omega) (by omega)
    rw [heap_extract_step_eq cmp k m (by omega)] at h
    simp only [hsw, bind, Except.bind, hrun] at h
    exact ih m2 m1 (by rw [hlen, sl]; omega) (by omega) (extractInv_step hc hk hs hinv hrun) h

theorem heap_sort_eq (cmp : α → α → Int) (xs : List α) (hn : xs.length < 2 ^ 31) :
    heap_sort cmp xs =
      (heap_build cmp xs.length (xs.length / 2) xs) >>= fun m1 =>
        heap_extract cmp xs.length m1 := by
  unfold heap_sort
  have e1 : toInt32 (((xs.length / 2 : Nat) : Int) - 1) = ((xs.length / 2 : Nat) : Int) - 1 :=
    toInt32_pred (by omega)
  have e2 : toInt32 ((xs.length : Int) - 1) = (xs.length : Int) - 1 := toInt32_pred hn
  simp only [e1, e2, Int.sub_add_cancel, Int.toNat_ofNat]

/-- What `heap_sort` returns on a range of fewer than `2 ^ 31` slots, for any
comparator. -/
theorem heap_sort_spec (cmp : α → α → Int) (xs : List α) (hn : xs.length < 2 ^ 31) :
    ∃ ys, heap_sort cmp xs = .ok ys ∧ ys.Perm xs ∧
      (IsTotalPreorder cmp → NonDecreasing cmp ys) := by
  obtain ⟨m1, h1, hl1, hp1⟩ := heap_build_ok cmp xs.length (xs.length / 2) xs le_rfl hn
    (by omega)
  obtain ⟨m2, h2, -, hp2⟩ := heap_extract_ok cmp xs.length m1 (by omega) hn
  refine ⟨m2, ?_, hp2.trans hp1, ?_⟩
  · rw [heap_sort_eq cmp xs hn]
    simp only [h1, bind, Except.bind]
    exact h2
  · intro hc
    have hh0 : HeapFrom cmp xs xs.length (xs.length / 2) := by
      intro j hj c hcc hcs
      omega
    have hh := heap_build_heap hc xs.length (xs.length / 2) xs m1 le_rfl hn (by omega) hh0 h1
    refine heap_extract_sorted hc xs.length m1 m2 (by omega) hn ⟨hh, ?_⟩ h2
    intro a b _ hb x y _ hy
    rw [List.getElem?_eq_none (by omega)] at hy
    cases hy

/-! ## Concrete comparators -/

theorem diff_cmp_total : IsTotalPreorder diff_cmp := by
  constructor
  · intro a b; unfold diff_cmp; omega
  · intro a b c; unfold diff_cmp; omega

theorem key_cmp_total : IsTotalPreorder key_cmp := by
  constructor
  · intro a b; unfold key_cmp; omega
  · intro a b c; unfold key_cmp; omega

/-- A range with a descent `x, y`, `cmp x y > 0`, at two consecutive slots is
not adjacent-ordered. -/
theorem not_adjacentOrdered_of_descent (cmp : α → α → Int) (A B : List α) (x y : α)
    (hxy : 0 < cmp x y) : ¬ AdjacentOrdered cmp (A ++ x :: y :: B) := by
  intro hs
  have h2 : List.Chain' (fun a b => cmp a b ≤ 0) (x :: y :: B) := List.Chain'.right_of_append hs
  have h3 : cmp x y ≤ 0 := (List.chain'_cons.1 h2).1
  omega

/-! ## heap_sort beyond the range of `int` -/

/-- On a range of `2 ^ 32 + 2 ^ 31 + 1` slots both loop variables of
`heap_sort` start negative and the range is returned as it is. -/
theorem heap_sort_skip (cmp : α → α → Int) (xs : List α)
    (hlen : xs.length = 2 ^ 32 + 2 ^ 31 + 1) : heap_sort cmp xs = .ok xs := by
  unfold heap_sort
  have e1 : (toInt32 (((xs.length / 2 : Nat) : Int) - 1) + 1).toNat = 0 := by
    unfold toInt32; omega
  have e2 : (toInt32 ((xs.length : Int) - 1) + 1).toNat = 0 := by
    unfold toInt32; omega
  simp only [e1, e2, heap_build, heap_extract, bind, Except.bind]

/-! ## The claims -/

/-- C1 (code at the failing input): on a full vector of capacity 1,
`vec_insert` at the first slot passes its argument checks, moves the tail
past the end of the buffer and leaves size 2 with capacity 1; on an empty
vector of capacity 2, `vec_insert` at the position one slot past the buffer
passes the checks and leaves size 3 with capacity 2. -/
theorem vec_insert_size_exceeds_capacity :
    (do let v ← vec_init 1 4
        let v ← vec_push_back v [1, 0, 0, 0]
        vec_insert v 0 (.outside [2, 0, 0, 0]))
      = .ok { size := 2, element_size := 4, capacity := 1, data := [2, 0, 0, 0],
              destroyer := false, destroyed := [], overrun := true, reallocs := [] } ∧
    (do let v ← vec_init 2 4
        vec_insert v 8 (.outside [2, 0, 0, 0]))
      = .ok { size := 3, element_size := 4, capacity := 2, data := [0, 0, 0, 0, 0, 0, 0, 0],
              destroyer := false, destroyed := [], overrun := true, reallocs := [] } := by
  constructor <;> decide

/-- C2 (code at the failing input): on 101 four-byte elements `sort`
dispatches to `quick_sort` and, under the total order of the integers,
returns a range with the adjacent pair `50, 49`. -/
theorem sort_unsorted_on_101 :
    IsTotalPreorder diff_cmp ∧
    sort 4 diff_cmp
        ((List.range 48).map Int.ofNat ++ [50, 50, 48, 49] ++ (List.range' 51 49).map Int.ofNat)
      = .ok ((List.range 48).map Int.ofNat ++ [48, 50, 49, 50] ++
          (List.range' 51 49).map Int.ofNat) ∧
    ¬ AdjacentOrdered diff_cmp
        ((List.range 48).map Int.ofNat ++ [48, 50, 49, 50] ++ (List.range' 51 49).map Int.ofNat) := by
  refine ⟨diff_cmp_total, by decide!, ?_⟩
  have h := not_adjacentOrdered_of_descent diff_cmp
    ((List.range 48).map Int.ofNat ++ [48]) ([50] ++ (List.range' 51 49).map Int.ofNat) 50 49
    (by decide)
  simpa using h

/-- C3 (code at the failing input): `quick_sort` on `2, 2, 0, 1` under the
total order of the integers returns `0, 2, 1, 2`, which is not in order. -/
theorem quick_sort_unsorted :
    IsTotalPreorder diff_cmp ∧ quick_sort diff_cmp [2, 2, 0, 1] = .ok [0, 2, 1, 2] ∧
      ¬ AdjacentOrdered diff_cmp [0, 2, 1, 2] := by
  refine ⟨diff_cmp_total, by decide, ?_⟩
  exact not_adjacentOrdered_of_descent diff_cmp [0] [2] 2 1 (by decide)

/-- C4: for a total-preorder comparator `insertion_sort` returns, inside the
range, a permutation of the input in non-decreasing order in which the
elements that compare equal keep their input order. -/
theorem insertion_sort_stable (cmp : α → α → Int) (xs : List α) (hc : IsTotalPreorder cmp) :
    ∃ ys, insertion_sort cmp xs = .ok ys ∧ ys.Perm xs ∧ NonDecreasing cmp ys ∧
      SameOrderOfEquals cmp xs ys := by
  obtain ⟨ys, h1, h2, h3⟩ := insertion_sort_spec cmp xs
  exact ⟨ys, h1, h2, (h3 hc).1, (h3 hc).2⟩

theorem insertion_sort_stable_witness :
    IsTotalPreorder key_cmp ∧
    ∃ ys, insertion_sort key_cmp [(1, 0), (0, 1), (1, 2), (0, 3)] = .ok ys ∧
      ys.Perm [(1, 0), (0, 1), (1, 2), (0, 3)] ∧ NonDecreasing key_cmp ys ∧
      SameOrderOfEquals key_cmp [(1, 0), (0, 1), (1, 2), (0, 3)] ys :=
  ⟨key_cmp_total, insertion_sort_stable key_cmp [(1, 0), (0, 1), (1, 2), (0, 3)] key_cmp_total⟩

/-- C5 (code at the failing input): on two elements that compare equal the
merge takes the element of the right half first, so `merge_sort` returns them
in the opposite order. -/
theorem merge_sort_not_stable :
    IsTotalPreorder key_cmp ∧ merge_sort key_cmp [(0, 0), (0, 1)] = .ok [(0, 1), (0, 0)] ∧
      ¬ SameOrderOfEquals key_cmp [(0, 0), (0, 1)] [(0, 1), (0, 0)] := by
  refine ⟨key_cmp_total, by decide, ?_⟩
  intro h
  have := h (0, 0)
  revert this
  decide

/-- C6: for a total-preorder comparator `merge_sort` returns (it terminates,
inside the range) a permutation of the input in non-decreasing order. -/
theorem merge_sort_sorts (cmp : α → α → Int) (xs : List α) (hc : IsTotalPreorder cmp) :
    ∃ ys, merge_sort cmp xs = .ok ys ∧ ys.Perm xs ∧ NonDecreasing cmp ys := by
  obtain ⟨ys, h1, h2, h3⟩ := merge_sort_spec cmp xs
  exact ⟨ys, h1, h2, h3 hc⟩

theorem merge_sort_sorts_witness :
    IsTotalPreorder diff_cmp ∧
    ∃ ys, merge_sort diff_cmp [3, 1, 2, 1, 0] = .ok ys ∧ ys.Perm [3, 1, 2, 1, 0] ∧
      NonDecreasing diff_cmp ys :=
  ⟨diff_cmp_total, merge_sort_sorts diff_cmp [3, 1, 2, 1, 0] diff_cmp_total⟩

/-- C7 (the claim fails): on a range of `2 ^ 32 + 2 ^ 31 + 1` slots that
starts with `1, 0`, `heap_sort` returns the range unchanged, which is not in
order under the total order of the integers. -/
theorem heap_sort_int_index_counterexample :
    IsTotalPreorder diff_cmp ∧
    heap_sort diff_cmp (1 :: 0 :: List.replicate (2 ^ 32 + 2 ^ 31 - 1) 0)
      = .ok (1 :: 0 :: List.replicate (2 ^ 32 + 2 ^ 31 - 1) 0) ∧
    ¬ AdjacentOrdered diff_cmp (1 :: 0 :: List.replicate (2 ^ 32 + 2 ^ 31 - 1) 0) := by
  refine ⟨diff_cmp_total, ?_, ?_⟩
  · apply heap_sort_skip
    rw [List.length_cons, List.length_cons, List.length_replicate]
    norm_num
  · exact not_adjacentOrdered_of_descent diff_cmp [] (List.replicate (2 ^ 32 + 2 ^ 31 - 1) 0) 1 0
      (by decide)

/-- C7 (amended): for a range of fewer than `2 ^ 31` slots (the range of the
`int` index; `n = 0` and `n = 1` included) and a total-preorder comparator,
`heap_sort` returns, inside the range, a permutation of the input in
non-decreasing order. -/
theorem heap_sort_sorts (cmp : α → α → Int) (xs : List α) (hn : xs.length < 2 ^ 31)
    (hc : IsTotalPreorder cmp) :
    ∃ ys, heap_sort cmp xs = .ok ys ∧ ys.Perm xs ∧ NonDecreasing cmp ys := by
  obtain ⟨ys, h1, h2, h3⟩ := heap_sort_spec cmp xs hn
  exact ⟨ys, h1, h2, h3 hc⟩

theorem heap_sort_sorts_witness :
    ([3, 1, 2, 1, 0] : List Int).length < 2 ^ 31 ∧ IsTotalPreorder diff_cmp ∧
    ∃ ys, heap_sort diff_cmp [3, 1, 2, 1, 0] = .ok ys ∧ ys.Perm [3, 1, 2, 1, 0] ∧
      NonDecreasing diff_cmp ys :=
  ⟨by decide, diff_cmp_total,
    heap_sort_sorts diff_cmp [3, 1, 2, 1, 0] (by decide) diff_cmp_total⟩

/-- C8: for a total-preorder comparator `selection_sort` returns, inside the
range, a permutation of the input in non-decreasing order, and the exchange
block runs at most once per outer position, at most `n - 1` times in all. -/
theorem selection_sort_sorts (cmp : α → α → Int) (xs : List α) (hc : IsTotalPreorder cmp) :
    ∃ ys k, selection_sort cmp xs = .ok ys ∧ selection_sort_exchanges cmp xs = .ok k ∧
      ys.Perm xs ∧ NonDecreasing cmp ys ∧ k ≤ xs.length - 1 := by
  obtain ⟨ys, k, h1, h2, h3⟩ := selection_sort_outer_ok cmp xs.length 0 xs 0 (by omega)
  refine ⟨ys, k, ?_, ?_, h2, ?_, by omega⟩
  · simp [selection_sort, h1, Except.map]
  · simp [selection_sort_exchanges, h1, Except.map]
  · refine selection_sort_outer_sorted hc xs.length 0 xs 0 ys k h1 ?_
    intro a b x y _ ha
    omega

theorem selection_sort_sorts_witness :
    IsTotalPreorder diff_cmp ∧
    ∃ ys k, selection_sort diff_cmp [3, 1, 2, 1, 0] = .ok ys ∧
      selection_sort_exchanges diff_cmp [3, 1, 2, 1, 0] = .ok k ∧
      ys.Perm [3, 1, 2, 1, 0] ∧ NonDecreasing diff_cmp ys ∧
      k ≤ ([3, 1, 2, 1, 0] : List Int).length - 1 :=
  ⟨diff_cmp_total, selection_sort_sorts diff_cmp [3, 1, 2, 1, 0] diff_cmp_total⟩

/-- C9: `sort` runs the algorithm that the table gives for the element size
and the element count, on the same range: for `element_size ≤ 8`
`insertion_sort` when `n ≤ 50`, `selection_sort` when `50 < n ≤ 100`,
`quick_sort` when `n > 100`; for `element_size > 8` `insertion_sort` when
`n ≤ 100` and `heap_sort` when `n > 100`. -/
theorem sort_dispatch (element_size : Nat) (cmp : α → α → Int) (xs : List α) :
    (element_size ≤ 8 → xs.length ≤ 50 → sort element_size cmp xs = insertion_sort cmp xs) ∧
    (element_size ≤ 8 → 50 < xs.length → xs.length ≤ 100 →
      sort element_size cmp xs = selection_sort cmp xs) ∧
    (element_size ≤ 8 → 100 < xs.length → sort element_size cmp xs = quick_sort cmp xs) ∧
    (8 < element_size → xs.length ≤ 100 → sort element_size cmp xs = insertion_sort cmp xs) ∧
    (8 < element_size → 100 < xs.length → sort element_size cmp xs = heap_sort cmp xs) := by
  refine ⟨?_, ?_, ?_, ?_, ?_⟩
  · intro h1 h2
    simp [sort, h1, h2]
  · intro h1 h2 h3
    have : ¬ xs.length ≤ 50 := by omega
    simp [sort, h1, this, h3]
  · intro h1 h2
    have h3 : ¬ xs.length ≤ 50 := by omega
    have h4 : ¬ xs.length ≤ 100 := by omega
    simp [sort, h1, h3, h4]
  · intro h1 h2
    have : ¬ element_size ≤ 8 := by omega
    simp [sort, this, h2]
  · intro h1 h2
    have h3 : ¬ element_size ≤ 8 := by omega
    have h4 : ¬ xs.length ≤ 100 := by omega
    simp [sort, h3, h4]

theorem sort_dispatch_witness :
    sort 8 diff_cmp (List.replicate 51 0) = selection_sort diff_cmp (List.replicate 51 0) ∧
    sort 9 diff_cmp (List.replicate 101 0) = heap_sort diff_cmp (List.replicate 101 0) :=
  ⟨(sort_dispatch 8 diff_cmp (List.replicate 51 0)).2.1 (by decide) (by decide) (by decide),
   (sort_dispatch 9 diff_cmp (List.replicate 101 0)).2.2.2.2 (by decide) (by decide)⟩

/-- C10 (the claim fails): under a comparator that always returns a negative
value, or always a positive value, `quick_sort` reads a slot outside the
range of two elements, and so does `sort` on 101 four-byte elements. -/
theorem quick_sort_out_of_bounds :
    quick_sort (fun _ _ => (-1 : Int)) [(0 : Int), 0] = .error .bounds ∧
    quick_sort (fun _ _ => (1 : Int)) [(0 : Int), 0] = .error .bounds ∧
    sort 4 (fun _ _ => (-1 : Int)) (List.replicate 101 (0 : Int)) = .error .bounds := by
  refine ⟨by decide, by decide, by decide!⟩

/-- C10 (amended): for every comparator, total preorder or not,
`selection_sort`, `insertion_sort` and `merge_sort` return inside the range;
so does `heap_sort` on fewer than `2 ^ 31` slots, and so does `sort` on fewer
than `2 ^ 31` slots whenever it does not dispatch to `quick_sort`. -/
theorem sorts_stay_in_range (cmp : α → α → Int) (xs : List α) :
    (∃ ys, selection_sort cmp xs = .ok ys) ∧
    (∃ ys, insertion_sort cmp xs = .ok ys) ∧
    (∃ ys, merge_sort cmp xs = .ok ys) ∧
    (xs.length < 2 ^ 31 → ∃ ys, heap_sort cmp xs = .ok ys) ∧
    (∀ element_size, xs.length < 2 ^ 31 → (element_size ≤ 8 → xs.length ≤ 100) →
      ∃ ys, sort element_size cmp xs = .ok ys) := by
  have hsel : ∃ ys, selection_sort cmp xs = .ok ys := by
    obtain ⟨ys, k, h1, -, -⟩ := selection_sort_outer_ok cmp xs.length 0 xs 0 (by omega)
    exact ⟨ys, by simp [selection_sort, h1, Except.map]⟩
  have hins : ∃ ys, insertion_sort cmp xs = .ok ys := by
    obtain ⟨ys, h1, -⟩ := insertion_sort_spec cmp xs
    exact ⟨ys, h1⟩
  have hmer : ∃ ys, merge_sort cmp xs = .ok ys := by
    obtain ⟨ys, h1, -⟩ := merge_sort_spec cmp xs
    exact ⟨ys, h1⟩
  have hheap : xs.length < 2 ^ 31 → ∃ ys, heap_sort cmp xs = .ok ys := by
    intro hn
    obtain ⟨ys, h1, -⟩ := heap_sort_spec cmp xs hn
    exact ⟨ys, h1⟩
  refine ⟨hsel, hins, hmer, hheap, ?_⟩
  intro element_size hn hq
  unfold sort
  simp only
  split_ifs with h1 h2 h3 h4
  · exact hins
  · exact hsel
  · exact absurd (hq h1) h3
  · exact hins
  · exact hheap hn

theorem sorts_stay_in_range_witness :
    (∃ ys, heap_sort (fun _ _ => (-1 : Int)) [(3 : Int), 1, 2] = .ok ys) ∧
    (∃ ys, sort 16 (fun _ _ => (-1 : Int)) [(3 : Int), 1, 2] = .ok ys) :=
  ⟨(sorts_stay_in_range (fun _ _ => (-1 : Int)) [(3 : Int), 1, 2]).2.2.2.1 (by decide),
   (sorts_stay_in_range (fun _ _ => (-1 : Int)) [(3 : Int), 1, 2]).2.2.2.2 16 (by decide)
     (by decide)⟩

/-! # Theorems about the vector -/

/-! ## Byte blocks -/

theorem getElem?_blk (D : List Nat) (off len t : Nat) :
    (blk D off len)[t]? = if t < len then D[off + t]? else none := by
  unfold blk
  rw [List.getElem?_take]
  split_ifs with h
  · rw [List.getElem?_drop]
  · rfl

theorem length_blk {D : List Nat} {off len : Nat} (h : off + len ≤ D.length) :
    (blk D off len).length = len := by
  unfold blk
  rw [List.length_take, List.length_drop]
  omega

/-- Bytes of a block after writing `bs` at the offset `a`. -/
theorem getElem?_write {D bs : List Nat} {a : Nat} (h : a + bs.length ≤ D.length) (t : Nat) :
    (D.take a ++ bs ++ D.drop (a + bs.length))[t]? =
      if t < a then D[t]? else if t < a + bs.length then bs[t - a]? else D[t]? := by
  have hl : (D.take a).length = a := by rw [List.length_take]; omega
  by_cases h1 : t < a
  · rw [if_pos h1, List.append_assoc, List.getElem?_append_left (by omega), List.getElem?_take,
      if_pos h1]
  · rw [if_neg h1, List.append_assoc, List.getElem?_append_right (by omega), hl]
    by_cases h2 : t < a + bs.length
    · rw [if_pos h2, List.getElem?_append_left (by omega)]
    · rw [if_neg h2, List.getElem?_append_right (by omega), List.getElem?_drop]
      congr 1
      omega

theorem length_write {D bs : List Nat} {a : Nat} (h : a + bs.length ≤ D.length) :
    (D.take a ++ bs ++ D.drop (a + bs.length)).length = D.length := by
  simp only [List.length_append, List.length_take, List.length_drop]
  omega

/-- A block disjoint from the written bytes is unchanged. -/
theorem blk_write_disjoint {D bs : List Nat} {a off len : Nat} (h : a + bs.length ≤ D.length)
    (hd : off + len ≤ a ∨ a + bs.length ≤ off) :
    blk (D.take a ++ bs ++ D.drop (a + bs.length)) off len = blk D off len := by
  apply List.ext_getElem?
  intro t
  rw [getElem?_blk, getElem?_blk]
  split_ifs with h1
  · rw [getElem?_write h]
    rcases hd with hd | hd
    · rw [if_pos (by omega)]
    · rw [if_neg (by omega), if_neg (by omega)]
  · rfl

/-- A block inside the written bytes holds the corresponding bytes of `bs`. -/
theorem blk_write_inside (D bs : List Nat) (a o len : Nat) (h : a + bs.length ≤ D.length)
    (hi : o + len ≤ bs.length) :
    blk (D.take a ++ bs ++ D.drop (a + bs.length)) (a + o) len = blk bs o len := by
  apply List.ext_getElem?
  intro t
  rw [getElem?_blk, getElem?_blk]
  split_ifs with h1
  · rw [getElem?_write h, if_neg (by omega), if_pos (by omega)]
    congr 1
    omega
  · rfl

theorem blk_write_disjoint_len {D bs : List Nat} {a off len n : Nat} (hn : bs.length = n)
    (h : a + n ≤ D.length) (hd : off + len ≤ a ∨ a + n ≤ off) :
    blk (D.take a ++ bs ++ D.drop (a + n)) off len = blk D off len := by
  subst hn
  exact blk_write_disjoint h hd

theorem blk_write_inside_len (D bs : List Nat) (a o len n : Nat) (hn : bs.length = n)
    (h : a + n ≤ D.length) (hi : o + len ≤ n) :
    blk (D.take a ++ bs ++ D.drop (a + n)) (a + o) len = blk bs o len := by
  subst hn
  exact blk_write_inside D bs a o len h hi

theorem length_write_len {D bs : List Nat} {a n : Nat} (hn : bs.length = n)
    (h : a + n ≤ D.length) : (D.take a ++ bs ++ D.drop (a + n)).length = D.length := by
  subst hn
  exact length_write h

theorem blk_self (bs : List Nat) : blk bs 0 bs.length = bs := by
  unfold blk
  simp

theorem blk_blk {D : List Nat} {src n o len : Nat} (h : o + len ≤ n) :
    blk (blk D src n) o len = blk D (src + o) len := by
  apply List.ext_getElem?
  intro t
  rw [getElem?_blk, getElem?_blk, getElem?_blk]
  by_cases h1 : t < len
  · rw [if_pos h1, if_pos h1, if_pos (by omega)]
    congr 1
    omega
  · rw [if_neg h1, if_neg h1]

theorem blk_realloc {D : List Nat} {n off len : Nat} (h1 : off + len ≤ D.length)
    (h2 : off + len ≤ n) : blk (realloc D n) off len = blk D off len := by
  apply List.ext_getElem?
  intro t
  rw [getElem?_blk, getElem?_blk]
  split_ifs with h3
  · unfold realloc
    rw [List.getElem?_append_left (by rw [List.length_take]; omega), List.getElem?_take,
      if_pos (by omega)]
  · rfl

theorem length_realloc (D : List Nat) (n : Nat) : (realloc D n).length = n := by
  unfold realloc
  simp only [List.length_append, List.length_take, List.length_replicate]
  omega

theorem length_bytes_of (value : List Nat) (n : Nat) : (bytes_of value n).length = n := by
  unfold bytes_of
  simp only [List.length_append, List.length_take, List.length_replicate]
  omega

theorem bytes_of_eq {value : List Nat} {n : Nat} (h : value.length = n) :
    bytes_of value n = value := by
  unfold bytes_of
  rw [← h]
  simp

/-! ## Effect of `memcpy` and `memmove` inside the block -/

theorem vec_memcpy_in (vec : vector) (a : Nat) (bs : List Nat)
    (h : a + bs.length ≤ vec.data.length) :
    vec_memcpy vec (a : Int) bs =
      { vec with data := vec.data.take a ++ bs ++ vec.data.drop (a + bs.length) } := by
  unfold vec_memcpy
  rw [if_pos ⟨by omega, by omega⟩]
  simp

theorem vec_memmove_in (vec : vector) (dst src n : Nat) (hs : src + n ≤ vec.data.length)
    (hd : dst + n ≤ vec.data.length) :
    vec_memmove vec (dst : Int) (src : Int) n =
      { vec with data := vec.data.take dst ++ blk vec.data src n ++ vec.data.drop (dst + n) } := by
  unfold vec_memmove
  rw [if_pos ⟨by omega, by omega⟩]
  have hl : (blk vec.data src n).length = n := length_blk hs
  have := vec_memcpy_in vec dst (blk vec.data src n) (by rw [hl]; exact hd)
  rw [hl] at this
  simpa [blk] using this

theorem getElem?_vec_elems (vec : vector) (k : Nat) :
    (vec_elems vec)[k]? = if k < vec.size then some (vec_slot vec k) else none := by
  unfold vec_elems
  by_cases h : k < vec.size
  · rw [if_pos h, List.getElem?_map, List.getElem?_range h]
    rfl
  · rw [if_neg h, List.getElem?_eq_none (by simp; omega)]

theorem length_vec_elems (vec : vector) : (vec_elems vec).length = vec.size := by
  unfold vec_elems
  simp

/-! ## vec_push_back -/

theorem succ_mul_le {k n es : Nat} (h : k < n) : k * es + es ≤ n * es := by
  have := Nat.mul_le_mul_right es (Nat.succ_le_of_lt h)
  rw [Nat.succ_mul] at this
  exact this

/-- What `__vec_double_if_full` does to a well-formed vector. -/
theorem vec_double_if_full_spec (vec : vector) (hwf : vec_wf vec) :
    (__vec_double_if_full vec).size = vec.size ∧
    (__vec_double_if_full vec).element_size = vec.element_size ∧
    vec.size < (__vec_double_if_full vec).capacity ∧
    (__vec_double_if_full vec).data.length =
      (__vec_double_if_full vec).capacity * vec.element_size ∧
    (∀ off len, off + len ≤ vec.size * vec.element_size →
      blk (__vec_double_if_full vec).data off len = blk vec.data off len) ∧
    (__vec_double_if_full vec).capacity =
      (if vec.size < vec.capacity then vec.capacity
       else if vec.capacity = 0 then 1 else 2 * vec.capacity) ∧
    (__vec_double_if_full vec).reallocs =
      vec.reallocs ++ (if vec.size < vec.capacity then [] else [vec.size]) ∧
    (__vec_double_if_full vec).destroyer = vec.destroyer ∧
    (__vec_double_if_full vec).destroyed = vec.destroyed ∧
    (__vec_double_if_full vec).overrun = vec.overrun := by
  obtain ⟨hes, hsc, hlen⟩ := hwf
  have hlive : vec.size * vec.element_size ≤ vec.data.length := by
    rw [hlen]; exact Nat.mul_le_mul_right _ hsc
  unfold __vec_double_if_full
  by_cases h : vec.size = vec.capacity
  · rw [if_pos h]
    have hnlt : ¬ vec.size < vec.capacity := by omega
    rw [if_neg hnlt, if_neg hnlt]
    by_cases h0 : vec.size = 0
    · rw [if_pos h0]
      have hc0 : vec.capacity = 0 := by omega
      rw [if_pos hc0]
      refine ⟨rfl, rfl, ?_, ?_, ?_, rfl, rfl, rfl, rfl, rfl⟩
      · show vec.size < 1
        omega
      · show (realloc vec.data (1 * vec.element_size)).length = 1 * vec.element_size
        exact length_realloc _ _
      · intro off len hol
        show blk (realloc vec.data (1 * vec.element_size)) off len = blk vec.data off len
        exact blk_realloc (by omega) (by rw [h0] at hol; omega)
    · rw [if_neg h0]
      have hc0 : ¬ vec.capacity = 0 := by omega
      rw [if_neg hc0]
      refine ⟨rfl, rfl, ?_, ?_, ?_, ?_, rfl, rfl, rfl, rfl⟩
      · show vec.size < vec.capacity * 2
        omega
      · show (realloc vec.data (vec.capacity * 2 * vec.element_size)).length =
          vec.capacity * 2 * vec.element_size
        exact length_realloc _ _
      · intro off len hol
        show blk (realloc vec.data (vec.capacity * 2 * vec.element_size)) off len =
          blk vec.data off len
        refine blk_realloc (by omega) ?_
        have : vec.size * vec.element_size ≤ vec.capacity * 2 * vec.element_size :=
          Nat.mul_le_mul_right _ (by omega)
        omega
      · show vec.capacity * 2 = 2 * vec.capacity
        omega
  · rw [if_neg h]
    have hlt : vec.size < vec.capacity := by omega
    rw [if_pos hlt, if_pos hlt]
    exact ⟨rfl, rfl, hlt, hlen, fun _ _ _ => rfl, rfl, (List.append_nil _).symm, rfl, rfl, rfl⟩

/-- What `vec_push_back` does to a well-formed vector. -/
theorem vec_push_back_spec (vec : vector) (data : List Nat) (hwf : vec_wf vec) :
    ∃ v1, vec_push_back vec data = .ok v1 ∧ v1.size = vec.size + 1 ∧
      v1.element_size = vec.element_size ∧
      vec_slot v1 vec.size = bytes_of data vec.element_size ∧
      (∀ k, k < vec.size → vec_slot v1 k = vec_slot vec k) ∧
      v1.capacity =
        (if vec.size < vec.capacity then vec.capacity
         else if vec.capacity = 0 then 1 else 2 * vec.capacity) ∧
      v1.reallocs = vec.reallocs ++ (if vec.size < vec.capacity then [] else [vec.size]) ∧
      v1.destroyer = vec.destroyer ∧ v1.destroyed = vec.destroyed ∧
      v1.overrun = vec.overrun ∧ vec_wf v1 := by
  obtain ⟨h1, h2, h3, h4, h5, h6, h7, h8, h9, h10⟩ := vec_double_if_full_spec vec hwf
  have hes := hwf.1
  generalize hw : __vec_double_if_full vec = w at h1 h2 h3 h4 h5 h6 h7 h8 h9 h10
  have hb : (bytes_of data vec.element_size).length = vec.element_size := length_bytes_of _ _
  have hin : vec.size * vec.element_size + (bytes_of data vec.element_size).length
      ≤ w.data.length := by
    rw [hb, h4]; exact succ_mul_le h3
  have hrun : vec_push_back vec data = .ok
      { w with size := w.size + 1,
               data := w.data.take (vec.size * vec.element_size) ++
                 bytes_of data vec.element_size ++
                 w.data.drop (vec.size * vec.element_size +
                   (bytes_of data vec.element_size).length) } := by
    unfold vec_push_back
    simp only [hw, h1, h2]
    rw [vec_memcpy_in _ _ _ (by simpa using hin)]
  refine ⟨_, hrun, ?_, h2, ?_, ?_, h6, h7, h8, h9, h10, ?_⟩
  · show w.size + 1 = vec.size + 1
    rw [h1]
  · show blk _ (vec.size * w.element_size) w.element_size = _
    rw [h2]
    have := blk_write_inside w.data (bytes_of data vec.element_size)
      (vec.size * vec.element_size) 0 vec.element_size hin (by rw [hb]; omega)
    rw [Nat.add_zero] at this
    rw [this]
    have e := blk_self (bytes_of data vec.element_size)
    rw [hb] at e
    exact e
  · intro k hk
    show blk _ (k * w.element_size) w.element_size = _
    rw [h2, blk_write_disjoint hin (Or.inl (succ_mul_le hk))]
    exact h5 _ _ (succ_mul_le hk)
  · refine ⟨?_, ?_, ?_⟩
    · show 0 < w.element_size
      rw [h2]; exact hes
    · show w.size + 1 ≤ w.capacity
      omega
    · show (_ : List Nat).length = w.capacity * w.element_size
      rw [length_write hin, h2]
      exact h4

/-! ## Consecutive vec_push_back calls -/

theorem pushInv_first (vec : vector) (x : List Nat) (hwf : vec_wf vec) (hs : vec.size = 0)
    (hc : vec.capacity = 0) :
    ∃ v1, vec_push_back vec x = .ok v1 ∧ pushInv vec.reallocs 1 v1 := by
  obtain ⟨v1, hrun, h1, -, -, -, h5, h6, -, -, -, hwf1⟩ := vec_push_back_spec vec x hwf
  refine ⟨v1, hrun, by rw [h1, hs], hwf1, 0, ?_, by norm_num, Or.inl rfl, ?_⟩
  · rw [h5, hs, hc]; rfl
  · rw [h6, hs, hc]; rfl

theorem pushInv_step (r0 : List Nat) (n : Nat) (v : vector) (x : List Nat)
    (hinv : pushInv r0 n v) (hn : 1 ≤ n) :
    ∃ v1, vec_push_back v x = .ok v1 ∧ pushInv r0 (n + 1) v1 := by
  obtain ⟨hs, hwf, k, hc, hle, hk, hr⟩ := hinv
  obtain ⟨v1, hrun, h1, -, -, -, h5, h6, -, -, -, hwf1⟩ := vec_push_back_spec v x hwf
  have hpos : 0 < 2 ^ k := Nat.pos_pow_of_pos k (by norm_num)
  refine ⟨v1, hrun, by rw [h1, hs], hwf1, ?_⟩
  by_cases hlt : n < 2 ^ k
  · refine ⟨k, ?_, by omega, ?_, ?_⟩
    · rw [h5, hs, hc, if_pos hlt]
    · rcases hk with hk | hk
      · left; exact hk
      · right; omega
    · rw [h6, hs, hc, if_pos hlt, List.append_nil, hr]
  · have hnk : n = 2 ^ k := by omega
    have hne : ¬ (2 : Nat) ^ k = 0 := by omega
    refine ⟨k + 1, ?_, ?_, ?_, ?_⟩
    · rw [h5, hs, hc, if_neg hlt, if_neg hne, pow_succ]
      omega
    · rw [pow_succ]; omega
    · right
      simp only [Nat.add_sub_cancel]
      omega
    · rw [h6, hs, hc, if_neg hlt, hr, List.range_succ, List.map_append, List.append_assoc]
      simp [hnk]

theorem pushInv_all (r0 : List Nat) :
    ∀ (xs : List (List Nat)) (n : Nat) (v : vector), pushInv r0 n v → 1 ≤ n →
      ∃ v1, vec_push_back_all v xs = .ok v1 ∧ pushInv r0 (n + xs.length) v1 := by
  intro xs
  induction xs with
  | nil =>
    intro n v hinv _
    exact ⟨v, rfl, by simpa using hinv⟩
  | cons x xs ih =>
    intro n v hinv hn
    obtain ⟨v1, hrun, hinv1⟩ := pushInv_step r0 n v x hinv hn
    obtain ⟨v2, hrun2, hinv2⟩ := ih (n + 1) v1 hinv1 (by omega)
    refine ⟨v2, ?_, ?_⟩
    · simp only [vec_push_back_all, hrun, bind, Except.bind]
      exact hrun2
    · have : n + (x :: xs).length = n + 1 + xs.length := by simp; omega
      rw [this]
      exact hinv2

theorem sum_pow_two (k : Nat) : ((List.range k).map (fun j => 2 ^ j)).sum + 1 = 2 ^ k := by
  induction k with
  | zero => simp
  | succ k ih =>
    rw [List.range_succ, List.map_append, List.sum_append, pow_succ]
    simp only [List.map_cons, List.map_nil, List.sum_cons, List.sum_nil]
    omega

/-! ## vec_pop_back and vec_insert at or beyond the live end -/

theorem toNat_mul_cast (a b : Nat) : ((a : Int) * (b : Int)).toNat = a * b := by
  rw [← Int.natCast_mul]
  exact Int.toNat_ofNat _

theorem vec_destroy_at_eq (vec : vector) (pos : Int) :
    vec_destroy_at vec pos =
      { vec with destroyed := vec.destroyed ++ (if vec.destroyer then [pos] else []),
                 destroyed_bytes := vec.destroyed_bytes ++
                   (if vec.destroyer then [blk vec.data pos.toNat vec.element_size] else []),
                 destroyed_size := vec.destroyed_size ++
                   (if vec.destroyer then [vec.size] else []) } := by
  unfold vec_destroy_at blk
  cases vec with
  | mk s es c d ds dd o r db dz =>
    cases ds <;> simp

theorem vec_pop_back_spec (vec : vector) :
    (vec_pop_back vec = .error .assertion ↔ vec.size = 0) ∧
    (0 < vec.size → vec_pop_back vec = .ok
      { vec with size := vec.size - 1,
                 destroyed := vec.destroyed ++
                   (if vec.destroyer then
                     [(((vec.size - 1) * vec.element_size : Nat) : Int)] else []),
                 destroyed_bytes := vec.destroyed_bytes ++
                   (if vec.destroyer then [vec_slot vec (vec.size - 1)] else []),
                 destroyed_size := vec.destroyed_size ++
                   (if vec.destroyer then [vec.size] else []) }) := by
  constructor
  · unfold vec_pop_back
    by_cases h : 0 < vec.size
    · rw [if_pos h]
      constructor
      · intro h1; cases h1
      · intro h1; omega
    · rw [if_neg h]
      constructor
      · intro _; omega
      · intro _; rfl
  · intro h
    unfold vec_pop_back vec_destroy_at
    rw [if_pos h]
    by_cases hd : vec.destroyer = true
    · simp [hd, vec_slot, blk, toNat_mul_cast]
    · simp [hd]

theorem mul_lt_mul_es {k n es : Nat} (hes : 0 < es) (h : k < n) : k * es < n * es :=
  Nat.mul_lt_mul_of_pos_right h hes

theorem vec_insert_at_end (vec : vector) (data : value_ptr) (h : vec.size ≤ vec.capacity) :
    vec_insert vec ((vec.size * vec.element_size : Nat) : Int) data =
      vec_push_back vec (read_value vec data) := by
  have h1 : vec.size * vec.element_size ≤ vec.capacity * vec.element_size :=
    Nat.mul_le_mul_right _ h
  unfold vec_insert
  simp only
  rw [if_pos (by omega), if_pos (by omega), if_pos trivial]

theorem vec_insert_beyond_spec (vec : vector) (p : Nat) (data : List Nat) (hwf : vec_wf vec)
    (hnp : vec.size < p) (hpc : p < vec.capacity) :
    ∃ v1, vec_insert vec ((p * vec.element_size : Nat) : Int) (.outside data) = .ok v1 ∧
      v1.size = p + 1 ∧ v1.capacity = vec.capacity ∧ v1.element_size = vec.element_size ∧
      vec_slot v1 p = bytes_of data vec.element_size ∧
      (∀ k, k ≠ p → vec_slot v1 k = vec_slot vec k) ∧
      v1.overrun = vec.overrun ∧ v1.destroyed = vec.destroyed ∧ v1.reallocs = vec.reallocs := by
  obtain ⟨hes, hsc, hlen⟩ := hwf
  have h1 : vec.size * vec.element_size < p * vec.element_size := mul_lt_mul_es hes hnp
  have h2 : p * vec.element_size + vec.element_size ≤ vec.capacity * vec.element_size :=
    succ_mul_le hpc
  have hb : (bytes_of data vec.element_size).length = vec.element_size := length_bytes_of _ _
  have hin : p * vec.element_size + (bytes_of data vec.element_size).length ≤ vec.data.length := by
    rw [hb, hlen]; exact h2
  have hdiv : (((p * vec.element_size : Nat) : Int) -
      ((vec.size * vec.element_size : Nat) : Int)).toNat / vec.element_size = p - vec.size := by
    have : (((p * vec.element_size : Nat) : Int) -
        ((vec.size * vec.element_size : Nat) : Int)).toNat = (p - vec.size) * vec.element_size := by
      rw [Nat.sub_mul]; omega
    rw [this, Nat.mul_div_cancel _ hes]
  have hrun : vec_insert vec ((p * vec.element_size : Nat) : Int) (.outside data) = .ok
      { vec with size := vec.size + (p - vec.size + 1),
                 data := vec.data.take (p * vec.element_size) ++
                   bytes_of data vec.element_size ++
                   vec.data.drop (p * vec.element_size +
                     (bytes_of data vec.element_size).length) } := by
    unfold vec_insert
    simp only [read_value]
    rw [if_pos (by omega), if_pos (by omega), if_neg (by omega), if_pos (by omega),
      vec_memcpy_in _ _ _ hin]
    simp only [hdiv]
  refine ⟨_, hrun, ?_, rfl, rfl, ?_, ?_, rfl, rfl, rfl⟩
  · show vec.size + (p - vec.size + 1) = p + 1
    omega
  · show blk _ (p * vec.element_size) vec.element_size = _
    have := blk_write_inside vec.data (bytes_of data vec.element_size)
      (p * vec.element_size) 0 vec.element_size hin (by rw [hb]; omega)
    rw [Nat.add_zero] at this
    rw [this]
    have e := blk_self (bytes_of data vec.element_size)
    rw [hb] at e
    exact e
  · intro k hk
    show blk _ (k * vec.element_size) vec.element_size = blk _ _ _
    refine blk_write_disjoint hin ?_
    rw [hb]
    rcases Nat.lt_or_gt_of_ne hk with h | h
    · left; exact succ_mul_le h
    · right; exact succ_mul_le h

/-! ## vec_erase and vec_insert inside the live range -/

theorem valid_pos_ok (vec : vector) (a : Nat) (h : a < vec.size * vec.element_size) :
    __valid_pos vec (a : Int) = .ok () := by
  unfold __valid_pos
  simp only
  rw [if_pos (by omega), if_pos (by omega)]

theorem vec_erase_run (vec : vector) (i : Nat) (hwf : vec_wf vec)
    (hfit : vec.capacity * vec.element_size < 2 ^ 64) (hi : i < vec.size) :
    vec_erase vec ((i * vec.element_size : Nat) : Int) = .ok
      { vec with
        size := vec.size - 1,
        destroyed := vec.destroyed ++
          (if vec.destroyer then [((i * vec.element_size : Nat) : Int)] else []),
        destroyed_bytes := vec.destroyed_bytes ++
          (if vec.destroyer then [vec_slot vec i] else []),
        destroyed_size := vec.destroyed_size ++ (if vec.destroyer then [vec.size] else []),
        data := vec.data.take (i * vec.element_size) ++
          blk vec.data (i * vec.element_size + vec.element_size)
            (vec.size * vec.element_size - i * vec.element_size - vec.element_size) ++
          vec.data.drop (i * vec.element_size +
            (vec.size * vec.element_size - i * vec.element_size - vec.element_size)) } := by
  obtain ⟨hes, hsc, hlen⟩ := hwf
  have h1 : i * vec.element_size + vec.element_size ≤ vec.size * vec.element_size :=
    succ_mul_le hi
  have h2 : vec.size * vec.element_size ≤ vec.capacity * vec.element_size :=
    Nat.mul_le_mul_right _ hsc
  have hsz : toSizeT (((vec.size * vec.element_size : Nat) : Int) -
      ((i * vec.element_size : Nat) : Int) - (vec.element_size : Int)) =
      vec.size * vec.element_size - i * vec.element_size - vec.element_size := by
    unfold toSizeT; omega
  have hcast : ((i * vec.element_size : Nat) : Int) + (vec.element_size : Int) =
      ((i * vec.element_size + vec.element_size : Nat) : Int) := by push_cast; rfl
  unfold vec_erase
  rw [valid_pos_ok vec _ (by omega)]
  simp only [bind, Except.bind, vec_destroy_at_eq, hsz, hcast, Int.toNat_ofNat]
  rw [vec_memmove_in _ _ _ _ (by simp only []; omega) (by simp only []; omega)]
  rfl

theorem vec_erase_spec (vec : vector) (i : Nat) (hwf : vec_wf vec)
    (hfit : vec.capacity * vec.element_size < 2 ^ 64) (hi : i < vec.size) :
    ∃ v1, vec_erase vec ((i * vec.element_size : Nat) : Int) = .ok v1 ∧
      vec_elems v1 = (vec_elems vec).eraseIdx i ∧ v1.size = vec.size - 1 ∧
      v1.capacity = vec.capacity ∧ v1.element_size = vec.element_size ∧
      v1.destroyed = vec.destroyed ++
        (if vec.destroyer then [((i * vec.element_size : Nat) : Int)] else []) ∧
      v1.destroyed_bytes = vec.destroyed_bytes ++
        (if vec.destroyer then [vec_slot vec i] else []) ∧
      v1.destroyed_size = vec.destroyed_size ++ (if vec.destroyer then [vec.size] else []) ∧
      v1.overrun = vec.overrun ∧ v1.reallocs = vec.reallocs := by
  refine ⟨_, vec_erase_run vec i hwf hfit hi, ?_, rfl, rfl, rfl, rfl, rfl, rfl, rfl, rfl⟩
  obtain ⟨hes, hsc, hlen⟩ := hwf
  have h1 : i * vec.element_size + vec.element_size ≤ vec.size * vec.element_size :=
    succ_mul_le hi
  have h2 : vec.size * vec.element_size ≤ vec.capacity * vec.element_size :=
    Nat.mul_le_mul_right _ hsc
  apply List.ext_getElem?
  intro k
  rw [getElem?_vec_elems, List.getElem?_eraseIdx, getElem?_vec_elems, getElem?_vec_elems]
  simp only
  have hbl : (blk vec.data (i * vec.element_size + vec.element_size)
      (vec.size * vec.element_size - i * vec.element_size - vec.element_size)).length =
      vec.size * vec.element_size - i * vec.element_size - vec.element_size :=
    length_blk (by omega)
  have hw : i * vec.element_size +
      (vec.size * vec.element_size - i * vec.element_size - vec.element_size) ≤
      vec.data.length := by
    omega
  by_cases hk : k < vec.size - 1
  · rw [if_pos hk]
    by_cases hki : k < i
    · rw [if_pos hki, if_pos (show k < vec.size by omega)]
      congr 1
      show blk _ (k * vec.element_size) vec.element_size = blk _ _ _
      exact blk_write_disjoint_len hbl hw (Or.inl (succ_mul_le hki))
    · rw [if_neg hki, if_pos (show k + 1 < vec.size by omega)]
      congr 1
      show blk _ (k * vec.element_size) vec.element_size =
        blk _ ((k + 1) * vec.element_size) vec.element_size
      obtain ⟨d, rfl⟩ := Nat.exists_eq_add_of_le (Nat.le_of_not_lt hki)
      have e1 : (i + d) * vec.element_size = i * vec.element_size + d * vec.element_size :=
        Nat.add_mul _ _ _
      have e2 : (i + d + 1) * vec.element_size =
          i * vec.element_size + vec.element_size + d * vec.element_size := by
        rw [Nat.add_mul, Nat.add_mul]; omega
      have e3 : (i + d + 1) * vec.element_size + vec.element_size ≤
          vec.size * vec.element_size :=
        succ_mul_le (by omega)
      have := blk_write_inside_len vec.data
        (blk vec.data (i * vec.element_size + vec.element_size)
          (vec.size * vec.element_size - i * vec.element_size - vec.element_size))
        (i * vec.element_size) (d * vec.element_size) vec.element_size _ hbl hw (by omega)
      rw [e1]
      refine this.trans ?_
      rw [blk_blk (by omega), e2]
  · rw [if_neg hk]
    by_cases hki : k < i
    · omega
    · rw [if_neg hki, if_neg (show ¬ k + 1 < vec.size by omega)]

theorem getElem?_insert_list {β : Type} (L : List β) (b : β) (i k : Nat) (hi : i ≤ L.length) :
    (L.take i ++ [b] ++ L.drop i)[k]? =
      if k < i then L[k]? else if k = i then some b else L[k - 1]? := by
  have hl : (L.take i).length = i := by rw [List.length_take]; omega
  by_cases h1 : k < i
  · rw [if_pos h1, List.append_assoc, List.getElem?_append_left (by omega), List.getElem?_take,
      if_pos h1]
  · rw [if_neg h1, List.append_assoc, List.getElem?_append_right (by omega), hl]
    by_cases h2 : k = i
    · rw [if_pos h2, h2]
      simp
    · rw [if_neg h2]
      obtain ⟨d, hd⟩ : ∃ d, k - i = d + 1 := ⟨k - i - 1, by omega⟩
      rw [hd]
      simp only [List.singleton_append, List.getElem?_cons_succ, List.getElem?_drop]
      congr 1
      omega

theorem vec_insert_run (vec : vector) (i : Nat) (data : value_ptr) (b : List Nat)
    (hwf : vec_wf vec) (hn : vec.size < vec.capacity) (hi : i < vec.size)
    (hread : bytes_of (read_value
        { vec with data := (vec.data.take (i * vec.element_size + vec.element_size) ++
            blk vec.data (i * vec.element_size)
              (vec.size * vec.element_size - i * vec.element_size) ++
            vec.data.drop (i * vec.element_size + vec.element_size +
              (vec.size * vec.element_size - i * vec.element_size))) } data)
      vec.element_size = b) :
    vec_insert vec ((i * vec.element_size : Nat) : Int) data = .ok
      { vec with
        size := vec.size + 1,
        data :=
          (vec.data.take (i * vec.element_size + vec.element_size) ++
            blk vec.data (i * vec.element_size)
              (vec.size * vec.element_size - i * vec.element_size) ++
            vec.data.drop (i * vec.element_size + vec.element_size +
              (vec.size * vec.element_size - i * vec.element_size))).take
              (i * vec.element_size) ++
          b ++
          (vec.data.take (i * vec.element_size + vec.element_size) ++
            blk vec.data (i * vec.element_size)
              (vec.size * vec.element_size - i * vec.element_size) ++
            vec.data.drop (i * vec.element_size + vec.element_size +
              (vec.size * vec.element_size - i * vec.element_size))).drop
              (i * vec.element_size + b.length) } := by
  subst hread
  obtain ⟨hes, hsc, hlen⟩ := hwf
  have h1 : i * vec.element_size < vec.size * vec.element_size := mul_lt_mul_es hes hi
  have h2 : vec.size * vec.element_size + vec.element_size ≤ vec.capacity * vec.element_size :=
    succ_mul_le hn
  have hsz : (((vec.size * vec.element_size : Nat) : Int) -
      ((i * vec.element_size : Nat) : Int)).toNat =
      vec.size * vec.element_size - i * vec.element_size := by omega
  have hcast : ((i * vec.element_size : Nat) : Int) + (vec.element_size : Int) =
      ((i * vec.element_size + vec.element_size : Nat) : Int) := by push_cast; rfl
  have hb : ∀ x : List Nat, (bytes_of x vec.element_size).length = vec.element_size :=
    fun x => length_bytes_of _ _
  unfold vec_insert
  simp only
  rw [if_pos (show (0 : Int) ≤ ((i * vec.element_size : Nat) : Int) by omega),
    if_pos (show ((i * vec.element_size : Nat) : Int) ≤
      ((vec.capacity * vec.element_size : Nat) : Int) by omega),
    if_neg (show ¬ ((i * vec.element_size : Nat) : Int) =
      ((vec.size * vec.element_size : Nat) : Int) by omega),
    if_neg (show ¬ ((i * vec.element_size : Nat) : Int) >
      ((vec.size * vec.element_size : Nat) : Int) by omega)]
  simp only [hsz, hcast]
  rw [vec_memmove_in _ _ _ _ (by omega) (by omega)]
  simp only
  rw [vec_memcpy_in _ _ _ (by
    simp only
    rw [length_write_len (length_blk (by omega)) (by omega), hb]
    omega)]

/-- The bytes `vec_insert` reads, after the tail has been moved, at a pointer that
is unmoved: those at the pointer before the call. -/
theorem read_value_unmoved (vec : vector) (i : Nat) (data : value_ptr) (hwf : vec_wf vec)
    (hn : vec.size < vec.capacity) (hi : i < vec.size)
    (hdata : value_unmoved vec ((i * vec.element_size : Nat) : Int) data) :
    bytes_of (read_value
        { vec with data := (vec.data.take (i * vec.element_size + vec.element_size) ++
            blk vec.data (i * vec.element_size)
              (vec.size * vec.element_size - i * vec.element_size) ++
            vec.data.drop (i * vec.element_size + vec.element_size +
              (vec.size * vec.element_size - i * vec.element_size))) } data)
      vec.element_size = bytes_of (read_value vec data) vec.element_size := by
  obtain ⟨hes, hsc, hlen⟩ := hwf
  have h1 : i * vec.element_size < vec.size * vec.element_size := mul_lt_mul_es hes hi
  have h2 : vec.size * vec.element_size + vec.element_size ≤ vec.capacity * vec.element_size :=
    succ_mul_le hn
  cases data with
  | outside bytes => rfl
  | inside offset =>
    obtain ⟨h0, hd⟩ := hdata
    obtain ⟨a, rfl⟩ : ∃ a : Nat, offset = (a : Int) := ⟨offset.toNat, by omega⟩
    show bytes_of (blk _ (a : Int).toNat vec.element_size) vec.element_size =
      bytes_of (blk vec.data (a : Int).toNat vec.element_size) vec.element_size
    rw [Int.toNat_ofNat, blk_write_disjoint_len (length_blk (by omega)) (by omega)
      (by rcases hd with hd | ⟨hd, -⟩
          · left; omega
          · right; omega)]

theorem vec_insert_middle_spec (vec : vector) (i : Nat) (data : value_ptr) (b : List Nat)
    (hwf : vec_wf vec) (hn : vec.size < vec.capacity) (hi : i < vec.size)
    (hread : bytes_of (read_value
        { vec with data := (vec.data.take (i * vec.element_size + vec.element_size) ++
            blk vec.data (i * vec.element_size)
              (vec.size * vec.element_size - i * vec.element_size) ++
            vec.data.drop (i * vec.element_size + vec.element_size +
              (vec.size * vec.element_size - i * vec.element_size))) } data)
      vec.element_size = b) :
    ∃ v1, vec_insert vec ((i * vec.element_size : Nat) : Int) data = .ok v1 ∧
      vec_elems v1 = (vec_elems vec).take i ++ [b] ++
        (vec_elems vec).drop i ∧
      v1.size = vec.size + 1 ∧ v1.capacity = vec.capacity ∧
      v1.element_size = vec.element_size ∧ v1.overrun = vec.overrun ∧
      v1.destroyed = vec.destroyed ∧ v1.reallocs = vec.reallocs := by
  refine ⟨_, vec_insert_run vec i data b hwf hn hi hread, ?_, rfl, rfl, rfl, rfl, rfl, rfl⟩
  obtain ⟨hes, hsc, hlen⟩ := hwf
  have h1 : i * vec.element_size + vec.element_size ≤ vec.size * vec.element_size :=
    succ_mul_le hi
  have h2 : vec.size * vec.element_size + vec.element_size ≤ vec.capacity * vec.element_size :=
    succ_mul_le hn
  have hb : b.length = vec.element_size := by rw [← hread]; exact length_bytes_of _ _
  have hbl : (blk vec.data (i * vec.element_size)
      (vec.size * vec.element_size - i * vec.element_size)).length =
      vec.size * vec.element_size - i * vec.element_size := length_blk (by omega)
  have hw1 : i * vec.element_size + vec.element_size +
      (vec.size * vec.element_size - i * vec.element_size) ≤ vec.data.length := by omega
  have hl1 := length_write_len hbl hw1
  have hw2 : i * vec.element_size + b.length ≤
      (vec.data.take (i * vec.element_size + vec.element_size) ++
        blk vec.data (i * vec.element_size)
          (vec.size * vec.element_size - i * vec.element_size) ++
        vec.data.drop (i * vec.element_size + vec.element_size +
          (vec.size * vec.element_size - i * vec.element_size))).length := by
    rw [hl1, hb]; omega
  apply List.ext_getElem?
  intro k
  rw [getElem?_vec_elems, getElem?_insert_list _ _ _ _ (by rw [length_vec_elems]; omega),
    getElem?_vec_elems, getElem?_vec_elems]
  simp only
  by_cases hk : k < vec.size + 1
  · rw [if_pos hk]
    by_cases hki : k < i
    · rw [if_pos hki, if_pos (show k < vec.size by omega)]
      congr 1
      show blk _ (k * vec.element_size) vec.element_size = blk _ _ _
      rw [blk_write_disjoint hw2 (Or.inl (succ_mul_le hki))]
      have hk2 : k * vec.element_size + vec.element_size ≤ i * vec.element_size :=
        succ_mul_le hki
      exact blk_write_disjoint_len hbl hw1 (Or.inl (by omega))
    · rw [if_neg hki]
      by_cases hke : k = i
      · rw [if_pos hke]
        congr 1
        show blk _ (k * vec.element_size) vec.element_size = _
        rw [hke]
        have := blk_write_inside _ b (i * vec.element_size) 0
          vec.element_size hw2 (by rw [hb]; omega)
        rw [Nat.add_zero] at this
        rw [this]
        have e := blk_self b
        rw [hb] at e
        exact e
      · rw [if_neg hke, if_pos (show k - 1 < vec.size by omega)]
        congr 1
        show blk _ (k * vec.element_size) vec.element_size =
          blk _ ((k - 1) * vec.element_size) vec.element_size
        obtain ⟨d, rfl⟩ : ∃ d, k = i + 1 + d := ⟨k - i - 1, by omega⟩
        have e1 : (i + 1 + d) * vec.element_size =
            i * vec.element_size + vec.element_size + d * vec.element_size := by
          rw [Nat.add_mul, Nat.add_mul]; omega
        have e2 : (i + 1 + d - 1) * vec.element_size =
            i * vec.element_size + d * vec.element_size := by
          have : i + 1 + d - 1 = i + d := by omega
          rw [this, Nat.add_mul]
        have e3 : (i + d) * vec.element_size + vec.element_size ≤
            vec.size * vec.element_size := succ_mul_le (by omega)
        rw [Nat.add_mul] at e3
        rw [blk_write_disjoint hw2 (Or.inr (by rw [hb, e1]; omega)), e1,
          blk_write_inside_len _ _ _ _ _ _ hbl hw1 (by omega), blk_blk (by omega), e2]
  · rw [if_neg hk, if_neg (show ¬ k < i by omega), if_neg (show ¬ k = i by omega),
      if_neg (show ¬ k - 1 < vec.size by omega)]

/-! ## vec_erase_rng -/

/-- The ranges `__check_erase_bounds` lets through: both pointers strictly
before the live end. -/
theorem check_erase_bounds_ok_iff (vec : vector) (s e : Int) :
    __check_erase_bounds vec s e = .ok () ↔
      0 ≤ s ∧ s ≤ e ∧ e < ((vec.size * vec.element_size : Nat) : Int) ∧
        (e - s) % (vec.element_size : Int) = 0 := by
  unfold __check_erase_bounds __valid_pos
  simp only [bind, Except.bind]
  generalize ((vec.size * vec.element_size : Nat) : Int) = L
  generalize (vec.element_size : Int) = m
  by_cases h1 : 0 ≤ s <;> by_cases h2 : s < L <;> by_cases h3 : 0 ≤ e <;>
    by_cases h4 : e < L <;> by_cases h5 : s = e <;> by_cases h6 : s ≤ e <;>
    by_cases h7 : (e - s) % m = 0 <;>
    simp only [h1, h2, h3, h4, h5, h6, h7, if_true, if_false, true_and, and_true, and_false,
      false_and, reduceCtorEq] <;>
    first
      | trivial
      | omega
      | simp

theorem check_erase_bounds_error (vec : vector) (s e : Int)
    (h : ¬ __check_erase_bounds vec s e = .ok ()) :
    __check_erase_bounds vec s e = .error .assertion := by
  revert h
  unfold __check_erase_bounds __valid_pos
  simp only [bind, Except.bind]
  split_ifs <;> simp

theorem vec_destroy_loop_spec (es : Nat) (hes : 0 < es) :
    ∀ (c fuel a b : Nat) (vec : vector), vec.element_size = es → b = a + c → c ≤ fuel →
      __vec_destroy_loop ((b * es : Nat) : Int) fuel vec ((a * es : Nat) : Int) = .ok
        { vec with destroyed := vec.destroyed ++
            (if vec.destroyer then (List.range' a c).map (fun k => ((k * es : Nat) : Int))
             else []),
                   destroyed_bytes := vec.destroyed_bytes ++
            (if vec.destroyer then (List.range' a c).map (fun k => blk vec.data (k * es) es)
             else []),
                   destroyed_size := vec.destroyed_size ++
            (if vec.destroyer then List.replicate c vec.size else []) } := by
  intro c
  induction c with
  | zero =>
    intro fuel a b vec _ hb _
    have : b = a := by omega
    subst this
    cases fuel <;> cases vec <;> simp [__vec_destroy_loop]
  | succ c ih =>
    intro fuel a b vec hv hb hf
    obtain ⟨fuel, rfl⟩ : ∃ f, fuel = f + 1 := ⟨fuel - 1, by omega⟩
    have hne : ((a * es : Nat) : Int) ≠ ((b * es : Nat) : Int) := by
      have : a * es < b * es := mul_lt_mul_es hes (by omega)
      omega
    have hcast : ((a * es : Nat) : Int) + (es : Int) = (((a + 1) * es : Nat) : Int) := by
      push_cast; ring
    rw [__vec_destroy_loop, if_pos hne, hv, hcast]
    rw [ih fuel (a + 1) b (vec_destroy_at vec ((a * es : Nat) : Int))
      (by rw [vec_destroy_at_eq]; exact hv) (by omega) (by omega)]
    rw [vec_destroy_at_eq]
    cases vec with
    | mk s e1 cp d ds dd o r db dz =>
      simp only at hv
      subst hv
      cases ds <;> simp [List.range'_succ, toNat_mul_cast, List.replicate_succ]

theorem vec_destroy_rng_spec (vec : vector) (a b : Nat) (hes : 0 < vec.element_size)
    (hab : a ≤ b) :
    __vec_destroy_rng vec ((a * vec.element_size : Nat) : Int)
        ((b * vec.element_size : Nat) : Int) = .ok
      { vec with destroyed := vec.destroyed ++
          (if vec.destroyer then
            (List.range' a (b - a)).map (fun k => ((k * vec.element_size : Nat) : Int))
           else []),
                 destroyed_bytes := vec.destroyed_bytes ++
          (if vec.destroyer then (List.range' a (b - a)).map (fun k => vec_slot vec k)
           else []),
                 destroyed_size := vec.destroyed_size ++
          (if vec.destroyer then List.replicate (b - a) vec.size else []) } := by
  unfold __vec_destroy_rng
  by_cases hd : vec.destroyer = true
  · rw [if_pos hd]
    have hfuel : b - a ≤ (((b * vec.element_size : Nat) : Int) -
        ((a * vec.element_size : Nat) : Int)).toNat := by
      have h1 : b - a ≤ (b - a) * vec.element_size := Nat.le_mul_of_pos_right _ hes
      rw [Nat.sub_mul] at h1
      have h2 : a * vec.element_size ≤ b * vec.element_size := Nat.mul_le_mul_right _ hab
      generalize b * vec.element_size = X at h1 h2 ⊢
      generalize a * vec.element_size = Y at h1 h2 ⊢
      omega
    exact vec_destroy_loop_spec vec.element_size hes (b - a) _ a b vec rfl (by omega) hfuel
  · rw [if_neg hd]
    cases vec with
    | mk s e1 cp d ds dd o r db dz =>
      simp at hd
      subst hd
      simp

theorem getElem?_remove_list {β : Type} (L : List β) (i j k : Nat) (hij : i ≤ j)
    (hj : j ≤ L.length) :
    (L.take i ++ L.drop j)[k]? = if k < i then L[k]? else L[j + (k - i)]? := by
  have hl : (L.take i).length = i := by rw [List.length_take]; omega
  by_cases h1 : k < i
  · rw [if_pos h1, List.getElem?_append_left (by omega), List.getElem?_take, if_pos h1]
  · rw [if_neg h1, List.getElem?_append_right (by omega), hl, List.getElem?_drop]

theorem vec_erase_rng_run (vec : vector) (i j : Nat) (hwf : vec_wf vec)
    (hfit : vec.capacity * vec.element_size < 2 ^ 64) (hij : i ≤ j) (hjn : j < vec.size) :
    vec_erase_rng vec ((i * vec.element_size : Nat) : Int)
        ((j * vec.element_size : Nat) : Int) = .ok
      { vec with
        size := vec.size - (j - i),
        destroyed := vec.destroyed ++
          (if vec.destroyer then
            (List.range' i (j - i)).map (fun k => ((k * vec.element_size : Nat) : Int))
           else []),
        destroyed_bytes := vec.destroyed_bytes ++
          (if vec.destroyer then (List.range' i (j - i)).map (fun k => vec_slot vec k)
           else []),
        destroyed_size := vec.destroyed_size ++
          (if vec.destroyer then List.replicate (j - i) vec.size else []),
        data := vec.data.take (i * vec.element_size) ++
          blk vec.data (j * vec.element_size)
            (vec.size * vec.element_size - j * vec.element_size) ++
          vec.data.drop (i * vec.element_size +
            (vec.size * vec.element_size - j * vec.element_size)) } := by
  obtain ⟨hes, hsc, hlen⟩ := hwf
  have h1 : i * vec.element_size ≤ j * vec.element_size := Nat.mul_le_mul_right _ hij
  have h2 : j * vec.element_size < vec.size * vec.element_size := mul_lt_mul_es hes hjn
  have h3 : vec.size * vec.element_size ≤ vec.capacity * vec.element_size :=
    Nat.mul_le_mul_right _ hsc
  have hdiff : j * vec.element_size - i * vec.element_size = (j - i) * vec.element_size := by
    rw [Nat.sub_mul]
  have hmod : (((j * vec.element_size : Nat) : Int) - ((i * vec.element_size : Nat) : Int)) %
      (vec.element_size : Int) = 0 := by
    have : ((j * vec.element_size : Nat) : Int) - ((i * vec.element_size : Nat) : Int) =
        ((j - i : Nat) : Int) * (vec.element_size : Int) := by
      rw [← Int.natCast_mul, ← hdiff]; omega
    rw [this]
    exact Int.mul_emod_left _ _
  have hchk := (check_erase_bounds_ok_iff vec ((i * vec.element_size : Nat) : Int)
    ((j * vec.element_size : Nat) : Int)).2 ⟨by omega, by omega, by omega, hmod⟩
  have hsz : toSizeT (((vec.size * vec.element_size : Nat) : Int) -
      ((j * vec.element_size : Nat) : Int)) =
      vec.size * vec.element_size - j * vec.element_size := by
    unfold toSizeT; omega
  have hcnt : (((j * vec.element_size : Nat) : Int) -
      ((i * vec.element_size : Nat) : Int)).toNat / vec.element_size = j - i := by
    have : (((j * vec.element_size : Nat) : Int) -
        ((i * vec.element_size : Nat) : Int)).toNat = (j - i) * vec.element_size := by
      rw [← hdiff]; omega
    rw [this, Nat.mul_div_cancel _ hes]
  unfold vec_erase_rng
  rw [hchk, vec_destroy_rng_spec vec i j hes hij]
  simp only [bind, Except.bind, hsz, hcnt]
  rw [vec_memmove_in _ _ _ _ (by simp only []; omega) (by simp only []; omega)]
  simp only [hcnt]

theorem vec_erase_rng_spec (vec : vector) (i j : Nat) (hwf : vec_wf vec)
    (hfit : vec.capacity * vec.element_size < 2 ^ 64) (hij : i ≤ j) (hjn : j < vec.size) :
    ∃ v1, vec_erase_rng vec ((i * vec.element_size : Nat) : Int)
        ((j * vec.element_size : Nat) : Int) = .ok v1 ∧
      vec_elems v1 = (vec_elems vec).take i ++ (vec_elems vec).drop j ∧
      v1.size = vec.size - (j - i) ∧ v1.capacity = vec.capacity ∧
      v1.element_size = vec.element_size ∧
      v1.destroyed = vec.destroyed ++
        (if vec.destroyer then
          (List.range' i (j - i)).map (fun k => ((k * vec.element_size : Nat) : Int))
         else []) ∧
      v1.overrun = vec.overrun ∧ v1.reallocs = vec.reallocs := by
  refine ⟨_, vec_erase_rng_run vec i j hwf hfit hij hjn, ?_, rfl, rfl, rfl, rfl, rfl, rfl⟩
  obtain ⟨hes, hsc, hlen⟩ := hwf
  have h1 : i * vec.element_size ≤ j * vec.element_size := Nat.mul_le_mul_right _ hij
  have h2 : j * vec.element_size + vec.element_size ≤ vec.size * vec.element_size :=
    succ_mul_le hjn
  have h3 : vec.size * vec.element_size ≤ vec.capacity * vec.element_size :=
    Nat.mul_le_mul_right _ hsc
  have hbl : (blk vec.data (j * vec.element_size)
      (vec.size * vec.element_size - j * vec.element_size)).length =
      vec.size * vec.element_size - j * vec.element_size := length_blk (by omega)
  have hw : i * vec.element_size + (vec.size * vec.element_size - j * vec.element_size) ≤
      vec.data.length := by omega
  apply List.ext_getElem?
  intro k
  rw [getElem?_vec_elems, getElem?_remove_list _ _ _ _ hij (by rw [length_vec_elems]; omega),
    getElem?_vec_elems, getElem?_vec_elems]
  simp only
  by_cases hk : k < vec.size - (j - i)
  · rw [if_pos hk]
    by_cases hki : k < i
    · rw [if_pos hki, if_pos (show k < vec.size by omega)]
      congr 1
      show blk _ (k * vec.element_size) vec.element_size = blk _ _ _
      exact blk_write_disjoint_len hbl hw (Or.inl (succ_mul_le hki))
    · rw [if_neg hki, if_pos (show j + (k - i) < vec.size by omega)]
      congr 1
      show blk _ (k * vec.element_size) vec.element_size =
        blk _ ((j + (k - i)) * vec.element_size) vec.element_size
      obtain ⟨d, rfl⟩ := Nat.exists_eq_add_of_le (Nat.le_of_not_lt hki)
      have e0 : i + d - i = d := by omega
      have e1 : (i + d) * vec.element_size = i * vec.element_size + d * vec.element_size :=
        Nat.add_mul _ _ _
      have e2 : (j + d) * vec.element_size = j * vec.element_size + d * vec.element_size :=
        Nat.add_mul _ _ _
      have e3 : (j + d) * vec.element_size + vec.element_size ≤ vec.size * vec.element_size :=
        succ_mul_le (by omega)
      have := blk_write_inside_len vec.data
        (blk vec.data (j * vec.element_size)
          (vec.size * vec.element_size - j * vec.element_size))
        (i * vec.element_size) (d * vec.element_size) vec.element_size _ hbl hw (by omega)
      rw [e0, e1]
      refine this.trans ?_
      rw [blk_blk (by omega), e2]
  · rw [if_neg hk]
    by_cases hki : k < i
    · omega
    · rw [if_neg hki, if_neg (show ¬ j + (k - i) < vec.size by omega)]

/-! ## The claims about the vector -/

/-- C11: on a vector that satisfies the invariants of the data model,
`vec_push_back` returns with size increased by exactly 1, the bytes of the
value in the slot of index (old size), the slots below (old size) unchanged,
and capacity equal to the old capacity when old size < old capacity, to 1
when old size = old capacity = 0, and to twice the old capacity when
old size = old capacity > 0; no byte outside the block is touched. -/
theorem vec_push_back_correct (vec : vector) (data : List Nat) (hwf : vec_wf vec) :
    ∃ v1, vec_push_back vec data = .ok v1 ∧ v1.size = vec.size + 1 ∧
      vec_slot v1 vec.size = bytes_of data vec.element_size ∧
      (∀ k, k < vec.size → vec_slot v1 k = vec_slot vec k) ∧
      (vec.size < vec.capacity → v1.capacity = vec.capacity) ∧
      (vec.size = vec.capacity → vec.capacity = 0 → v1.capacity = 1) ∧
      (vec.size = vec.capacity → 0 < vec.capacity → v1.capacity = 2 * vec.capacity) ∧
      v1.element_size = vec.element_size ∧ v1.overrun = vec.overrun := by
  obtain ⟨v1, hrun, h1, h2, h3, h4, h5, -, -, -, h9, -⟩ := vec_push_back_spec vec data hwf
  refine ⟨v1, hrun, h1, h3, h4, ?_, ?_, ?_, h2, h9⟩
  · intro h; rw [h5, if_pos h]
  · intro h h0; rw [h5, if_neg (by omega), if_pos h0]
  · intro h h0; rw [h5, if_neg (by omega), if_neg (by omega)]

theorem vec_push_back_correct_witness :
    ∃ v1, vec_push_back
        { size := 1, element_size := 2, capacity := 1, data := [7, 7], destroyer := false,
          destroyed := [], overrun := false, reallocs := [0] } [8, 9] = .ok v1 ∧
      v1.size = 2 ∧ vec_slot v1 1 = [8, 9] ∧ v1.capacity = 2 :=
  match vec_push_back_correct
      { size := 1, element_size := 2, capacity := 1, data := [7, 7], destroyer := false,
        destroyed := [], overrun := false, reallocs := [0] } [8, 9]
      ⟨by decide, by decide, by decide⟩ with
  | ⟨v1, h, h1, h2, _, _, _, h6, _, _⟩ => ⟨v1, h, h1, h2, h6 rfl (by decide)⟩

/-- C12: `N ≥ 1` consecutive `vec_push_back` calls on an empty vector of
capacity 0 return with size `N` and capacity the least power of two that is
at least `N`; every reallocation they make takes place at a size that is 0
or a power of two, and the sizes at the reallocations add up to less than
`2 N`. -/
theorem vec_push_back_all_amortized (vec : vector) (values : List (List Nat))
    (hwf : vec_wf vec) (hs : vec.size = 0) (hc : vec.capacity = 0) (hN : 1 ≤ values.length) :
    ∃ v k g, vec_push_back_all vec values = .ok v ∧ v.size = values.length ∧
      v.capacity = 2 ^ k ∧ values.length ≤ 2 ^ k ∧
      (∀ j, values.length ≤ 2 ^ j → 2 ^ k ≤ 2 ^ j) ∧
      v.reallocs = vec.reallocs ++ g ∧ (∀ s ∈ g, s = 0 ∨ ∃ j, s = 2 ^ j) ∧
      g.sum < 2 * values.length := by
  cases values with
  | nil => simp at hN
  | cons x xs =>
    obtain ⟨v1, hrun1, hinv1⟩ := pushInv_first vec x hwf hs hc
    obtain ⟨v2, hrun2, hsz, -, k, hcap, hle, hk, hr⟩ :=
      pushInv_all vec.reallocs xs 1 v1 hinv1 le_rfl
    have hlen : (x :: xs).length = 1 + xs.length := by simp; omega
    refine ⟨v2, k, 0 :: (List.range k).map (fun j => 2 ^ j), ?_, ?_, hcap, ?_, ?_, hr, ?_, ?_⟩
    · simp only [vec_push_back_all, hrun1, bind, Except.bind]
      exact hrun2
    · rw [hsz, hlen]
    · rw [hlen]; exact hle
    · intro j hj
      rw [hlen] at hj
      rcases hk with hk | hk
      · rw [hk]; exact Nat.one_le_two_pow
      · have h1 : 2 ^ (k - 1) < 2 ^ j := lt_of_lt_of_le hk hj
        have h2 : k - 1 < j := (Nat.pow_lt_pow_iff_right (by norm_num)).1 h1
        exact Nat.pow_le_pow_right (by norm_num) (by omega)
    · intro s hs
      rcases List.mem_cons.1 hs with h | h
      · left; exact h
      · right
        obtain ⟨j, -, hj⟩ := List.mem_map.1 h
        exact ⟨j, hj.symm⟩
    · rw [hlen, List.sum_cons]
      have hsum := sum_pow_two k
      by_cases hk0 : k = 0
      · subst hk0
        simp
      · have hk1 : 2 ^ (k - 1) < 1 + xs.length := by
          rcases hk with hk | hk
          · exact absurd hk hk0
          · exact hk
        have : 2 ^ k = 2 * 2 ^ (k - 1) := by
          obtain ⟨d, rfl⟩ : ∃ d, k = d + 1 := ⟨k - 1, by omega⟩
          rw [pow_succ]; simp; ring
        generalize ((List.range k).map (fun j => 2 ^ j)).sum = S at hsum ⊢
        generalize 2 ^ k = P at hsum this
        generalize 2 ^ (k - 1) = Q at this hk1
        omega

theorem vec_push_back_all_amortized_witness :
    ∃ v k g, vec_push_back_all
        { size := 0, element_size := 4, capacity := 0, data := [], destroyer := false,
          destroyed := [], overrun := false, reallocs := [] }
        [[1, 0, 0, 0], [2, 0, 0, 0], [3, 0, 0, 0], [4, 0, 0, 0], [5, 0, 0, 0]] = .ok v ∧
      v.size = 5 ∧ v.capacity = 2 ^ k ∧ 5 ≤ 2 ^ k ∧ (∀ j, 5 ≤ 2 ^ j → 2 ^ k ≤ 2 ^ j) ∧
      v.reallocs = [] ++ g ∧ (∀ s ∈ g, s = 0 ∨ ∃ j, s = 2 ^ j) ∧ g.sum < 2 * 5 :=
  vec_push_back_all_amortized
    { size := 0, element_size := 4, capacity := 0, data := [], destroyer := false,
      destroyed := [], overrun := false, reallocs := [] }
    [[1, 0, 0, 0], [2, 0, 0, 0], [3, 0, 0, 0], [4, 0, 0, 0], [5, 0, 0, 0]]
    ⟨by decide, by decide, by decide⟩ rfl rfl (by decide)

/-- C13: `vec_pop_back` fails on its assertion, before any change, exactly
when size = 0; otherwise it returns with the destroyer, when configured,
called once, on the last live slot, size decreased by exactly 1, and
capacity, element size and every byte of the buffer unchanged. -/
theorem vec_pop_back_correct (vec : vector) :
    (vec_pop_back vec = .error .assertion ↔ vec.size = 0) ∧
    (0 < vec.size → ∃ v1, vec_pop_back vec = .ok v1 ∧ v1.size = vec.size - 1 ∧
      v1.capacity = vec.capacity ∧ v1.element_size = vec.element_size ∧
      v1.data = vec.data ∧
      v1.destroyed = vec.destroyed ++
        (if vec.destroyer then [(((vec.size - 1) * vec.element_size : Nat) : Int)] else []) ∧
      v1.overrun = vec.overrun ∧ v1.reallocs = vec.reallocs) := by
  refine ⟨(vec_pop_back_spec vec).1, ?_⟩
  intro h
  exact ⟨_, (vec_pop_back_spec vec).2 h, rfl, rfl, rfl, rfl, rfl, rfl, rfl⟩

theorem vec_pop_back_correct_witness :
    ∃ v1, vec_pop_back
        { size := 2, element_size := 2, capacity := 2, data := [7, 7, 8, 9], destroyer := true,
          destroyed := [], overrun := false, reallocs := [] } = .ok v1 ∧
      v1.size = 1 ∧ v1.destroyed = [2] :=
  match (vec_pop_back_correct
      { size := 2, element_size := 2, capacity := 2, data := [7, 7, 8, 9], destroyer := true,
        destroyed := [], overrun := false, reallocs := [] }).2 (by decide) with
  | ⟨v1, h, h1, _, _, _, h5, _, _⟩ => ⟨v1, h, h1, h5⟩

/-- C14: on a vector that satisfies the invariants of the data model (its
block fitting the address space), `vec_erase` at the slot of a logical index
`i < n` returns with the live sequence equal to the old one without its
`i`-th element, size `n - 1`, capacity unchanged, and the destroyer, when
configured, called exactly once, at the slot `i` while that slot holds the
removed element and the size is still `n`: the bytes it is called on are the
`i`-th element of the old sequence. -/
theorem vec_erase_correct (vec : vector) (i : Nat) (hwf : vec_wf vec)
    (hfit : vec.capacity * vec.element_size < 2 ^ 64) (hi : i < vec.size) :
    ∃ v1, vec_erase vec ((i * vec.element_size : Nat) : Int) = .ok v1 ∧
      vec_elems v1 = (vec_elems vec).eraseIdx i ∧ v1.size = vec.size - 1 ∧
      v1.capacity = vec.capacity ∧
      v1.destroyed = vec.destroyed ++
        (if vec.destroyer then [((i * vec.element_size : Nat) : Int)] else []) ∧
      v1.destroyed_bytes = vec.destroyed_bytes ++
        (if vec.destroyer then ((vec_elems vec)[i]?).toList else []) ∧
      v1.destroyed_size = vec.destroyed_size ++ (if vec.destroyer then [vec.size] else []) ∧
      v1.overrun = vec.overrun := by
  obtain ⟨v1, h, h1, h2, h3, -, h5, h6, h6s, h7, -⟩ := vec_erase_spec vec i hwf hfit hi
  refine ⟨v1, h, h1, h2, h3, h5, ?_, h6s, h7⟩
  rw [h6, getElem?_vec_elems, if_pos hi]
  rfl

theorem vec_erase_correct_witness :
    ∃ v1, vec_erase
        { size := 5, element_size := 4, capacity := 8,
          data := [1, 0, 0, 0, 2, 0, 0, 0, 3, 0, 0, 0, 4, 0, 0, 0, 5, 0, 0, 0,
                   0, 0, 0, 0, 0, 0, 0, 0, 0, 0, 0, 0],
          destroyer := true, destroyed := [], overrun := false, reallocs := [0, 1, 2, 4] }
        8 = .ok v1 ∧
      vec_elems v1 = [[1, 0, 0, 0], [2, 0, 0, 0], [4, 0, 0, 0], [5, 0, 0, 0]] ∧ v1.size = 4 ∧
      v1.capacity = 8 ∧ v1.destroyed = [8] ∧ v1.destroyed_bytes = [[3, 0, 0, 0]] ∧
      v1.destroyed_size = [5] :=
  match vec_erase_correct
      { size := 5, element_size := 4, capacity := 8,
        data := [1, 0, 0, 0, 2, 0, 0, 0, 3, 0, 0, 0, 4, 0, 0, 0, 5, 0, 0, 0,
                 0, 0, 0, 0, 0, 0, 0, 0, 0, 0, 0, 0],
        destroyer := true, destroyed := [], overrun := false, reallocs := [0, 1, 2, 4] }
      2 ⟨by decide, by decide, by decide⟩ (by decide) (by decide) with
  | ⟨v1, h, h1, h2, h3, h4, h5, h6, _⟩ => ⟨v1, h, h1, h2, h3, h4, h5, h6⟩

theorem vec_erase_rng_ok_bounds (vec : vector) (s e : Int) (v1 : vector)
    (h : vec_erase_rng vec s e = .ok v1) :
    0 ≤ s ∧ s ≤ e ∧ e < ((vec.size * vec.element_size : Nat) : Int) := by
  by_cases hc : __check_erase_bounds vec s e = .ok ()
  · have := (check_erase_bounds_ok_iff vec s e).1 hc
    exact ⟨this.1, this.2.1, this.2.2.1⟩
  · have he := check_erase_bounds_error vec s e hc
    unfold vec_erase_rng at h
    rw [he] at h
    cases h

/-- C15: on a vector that satisfies the invariants of the data model (its
block fitting the address space), whenever `vec_erase_rng` returns on the
range of the logical indices `[i, j)`, the live sequence is the first `i`
elements followed by the elements from index `j` on, size is `n - (j - i)`,
capacity is unchanged, and the destroyer, when configured, was called once on
each of the slots `i .. j - 1`, in order, and on no other slot. -/
theorem vec_erase_rng_correct (vec : vector) (i j : Nat) (v1 : vector) (hwf : vec_wf vec)
    (hfit : vec.capacity * vec.element_size < 2 ^ 64)
    (hrun : vec_erase_rng vec ((i * vec.element_size : Nat) : Int)
      ((j * vec.element_size : Nat) : Int) = .ok v1) :
    vec_elems v1 = (vec_elems vec).take i ++ (vec_elems vec).drop j ∧
      v1.size = vec.size - (j - i) ∧ v1.capacity = vec.capacity ∧
      v1.destroyed = vec.destroyed ++
        (if vec.destroyer then
          (List.range' i (j - i)).map (fun k => ((k * vec.element_size : Nat) : Int))
         else []) ∧
      v1.overrun = vec.overrun := by
  obtain ⟨-, h2, h3⟩ := vec_erase_rng_ok_bounds vec _ _ v1 hrun
  have hes := hwf.1
  have hij : i ≤ j := by
    by_contra hc
    have : j * vec.element_size < i * vec.element_size := mul_lt_mul_es hes (by omega)
    omega
  have hjn : j < vec.size := by
    by_contra hc
    have : vec.size * vec.element_size ≤ j * vec.element_size :=
      Nat.mul_le_mul_right _ (by omega)
    omega
  obtain ⟨v2, hrun2, e1, e2, e3, -, e5, e6, -⟩ := vec_erase_rng_spec vec i j hwf hfit hij hjn
  rw [hrun] at hrun2
  cases hrun2
  exact ⟨e1, e2, e3, e5, e6⟩

theorem vec_erase_rng_correct_witness :
    vec_erase_rng
        { size := 5, element_size := 4, capacity := 8,
          data := [1, 0, 0, 0, 2, 0, 0, 0, 3, 0, 0, 0, 4, 0, 0, 0, 5, 0, 0, 0,
                   0, 0, 0, 0, 0, 0, 0, 0, 0, 0, 0, 0],
          destroyer := true, destroyed := [], overrun := false, reallocs := [0, 1, 2, 4] }
        4 12 = .ok
        { size := 3, element_size := 4, capacity := 8,
          data := [1, 0, 0, 0, 4, 0, 0, 0, 5, 0, 0, 0, 4, 0, 0, 0, 5, 0, 0, 0,
                   0, 0, 0, 0, 0, 0, 0, 0, 0, 0, 0, 0],
          destroyer := true, destroyed := [4, 8], overrun := false, reallocs := [0, 1, 2, 4],
          destroyed_bytes := [[2, 0, 0, 0], [3, 0, 0, 0]], destroyed_size := [5, 5] } ∧
    vec_elems
        { size := 3, element_size := 4, capacity := 8,
          data := [1, 0, 0, 0, 4, 0, 0, 0, 5, 0, 0, 0, 4, 0, 0, 0, 5, 0, 0, 0,
                   0, 0, 0, 0, 0, 0, 0, 0, 0, 0, 0, 0],
          destroyer := true, destroyed := [4, 8], overrun := false, reallocs := [0, 1, 2, 4],
          destroyed_bytes := [[2, 0, 0, 0], [3, 0, 0, 0]], destroyed_size := [5, 5] }
      = [[1, 0, 0, 0], [4, 0, 0, 0], [5, 0, 0, 0]] :=
  ⟨by decide,
   (vec_erase_rng_correct
      { size := 5, element_size := 4, capacity := 8,
        data := [1, 0, 0, 0, 2, 0, 0, 0, 3, 0, 0, 0, 4, 0, 0, 0, 5, 0, 0, 0,
                 0, 0, 0, 0, 0, 0, 0, 0, 0, 0, 0, 0],
        destroyer := true, destroyed := [], overrun := false, reallocs := [0, 1, 2, 4] }
      1 3 _ ⟨by decide, by decide, by decide⟩ (by decide) (by decide)).1⟩

/-- C16 (code at the failing input): `vec_erase_rng` sends its end pointer
through `__valid_pos`, which asserts `pos < end`; so every range that ends at
the live end fails the assertion, for instance the tail `[3, 5)` and the
whole range `[0, 5)` of a vector of five 4-byte elements. -/
theorem vec_erase_rng_rejects_live_end :
    (∀ (vec : vector) (s : Int),
      vec_erase_rng vec s ((vec.size * vec.element_size : Nat) : Int) = .error .assertion) ∧
    vec_erase_rng
        { size := 5, element_size := 4, capacity := 8,
          data := [1, 0, 0, 0, 2, 0, 0, 0, 3, 0, 0, 0, 4, 0, 0, 0, 5, 0, 0, 0,
                   0, 0, 0, 0, 0, 0, 0, 0, 0, 0, 0, 0],
          destroyer := false, destroyed := [], overrun := false, reallocs := [0, 1, 2, 4] }
        12 20 = .error .assertion ∧
    vec_erase_rng
        { size := 5, element_size := 4, capacity := 8,
          data := [1, 0, 0, 0, 2, 0, 0, 0, 3, 0, 0, 0, 4, 0, 0, 0, 5, 0, 0, 0,
                   0, 0, 0, 0, 0, 0, 0, 0, 0, 0, 0, 0],
          destroyer := false, destroyed := [], overrun := false, reallocs := [0, 1, 2, 4] }
        0 20 = .error .assertion := by
  refine ⟨?_, by decide, by decide⟩
  intro vec s
  have hc : ¬ __check_erase_bounds vec s ((vec.size * vec.element_size : Nat) : Int) = .ok () := by
    intro h
    have := (check_erase_bounds_ok_iff vec s _).1 h
    omega
  have he := check_erase_bounds_error vec s _ hc
  unfold vec_erase_rng
  rw [he]
  rfl

/-- C17 (the claim fails on the code): on the 4-byte elements 10, 20, 30 with
capacity 4, `vec_insert` at the first slot with the pointer to the second
element as the value returns with the live sequence 10, 10, 20, 30, not the
sequence 20, 10, 20, 30 of the value followed by the old elements: the value
is read after the tail has been moved over it. -/
theorem vec_insert_value_in_moved_tail :
    bytes_of (read_value
        { size := 3, element_size := 4, capacity := 4,
          data := [10, 0, 0, 0, 20, 0, 0, 0, 30, 0, 0, 0, 0, 0, 0, 0],
          destroyer := false, destroyed := [], overrun := false, reallocs := [] }
        (.inside 4)) 4 = [20, 0, 0, 0] ∧
    ∃ v1, vec_insert
        { size := 3, element_size := 4, capacity := 4,
          data := [10, 0, 0, 0, 20, 0, 0, 0, 30, 0, 0, 0, 0, 0, 0, 0],
          destroyer := false, destroyed := [], overrun := false, reallocs := [] }
        0 (.inside 4) = .ok v1 ∧
      vec_elems v1 = [[10, 0, 0, 0], [10, 0, 0, 0], [20, 0, 0, 0], [30, 0, 0, 0]] ∧
      vec_elems v1 ≠ [[20, 0, 0, 0], [10, 0, 0, 0], [20, 0, 0, 0], [30, 0, 0, 0]] ∧
      v1.size = 4 ∧ v1.capacity = 4 ∧ v1.overrun = false :=
  ⟨by decide, _, rfl, by decide, by decide, by decide, by decide, by decide⟩

/-- C17 (amended): on a vector that satisfies the invariants of the data model
and has size `n < capacity`, `vec_insert` at the slot of a logical index
`i < n`, with a value whose bytes are neither in the insertion slot nor among
those the tail is moved into (they lie outside the buffer, or in the block
wholly before the insertion slot or from the new live end on), returns with
the live sequence (first `i` elements) ++ [value] ++ (elements from index `i`
on), the value being the bytes at the pointer when the call is made, size
`n + 1` and capacity unchanged, touching no byte outside the block. -/
theorem vec_insert_middle_correct (vec : vector) (i : Nat) (data : value_ptr)
    (hwf : vec_wf vec) (hn : vec.size < vec.capacity) (hi : i < vec.size)
    (hdata : value_unmoved vec ((i * vec.element_size : Nat) : Int) data) :
    ∃ v1, vec_insert vec ((i * vec.element_size : Nat) : Int) data = .ok v1 ∧
      vec_elems v1 = (vec_elems vec).take i ++
        [bytes_of (read_value vec data) vec.element_size] ++ (vec_elems vec).drop i ∧
      v1.size = vec.size + 1 ∧ v1.capacity = vec.capacity ∧ v1.overrun = vec.overrun := by
  obtain ⟨v1, h, h1, h2, h3, -, h5, -, -⟩ := vec_insert_middle_spec vec i data _ hwf hn hi
    (read_value_unmoved vec i data hwf hn hi hdata)
  exact ⟨v1, h, h1, h2, h3, h5⟩

theorem vec_insert_middle_correct_witness :
    (∃ v1, vec_insert
        { size := 3, element_size := 2, capacity := 4, data := [1, 1, 2, 2, 3, 3, 0, 0],
          destroyer := false, destroyed := [], overrun := false, reallocs := [] }
        2 (.outside [9, 9]) = .ok v1 ∧
      vec_elems v1 = [[1, 1], [9, 9], [2, 2], [3, 3]] ∧ v1.size = 4 ∧ v1.capacity = 4 ∧
      v1.overrun = false) ∧
    ∃ v1, vec_insert
        { size := 3, element_size := 2, capacity := 4, data := [1, 1, 2, 2, 3, 3, 0, 0],
          destroyer := false, destroyed := [], overrun := false, reallocs := [] }
        2 (.inside 0) = .ok v1 ∧
      vec_elems v1 = [[1, 1], [1, 1], [2, 2], [3, 3]] ∧ v1.size = 4 ∧ v1.capacity = 4 ∧
      v1.overrun = false :=
  ⟨vec_insert_middle_correct
    { size := 3, element_size := 2, capacity := 4, data := [1, 1, 2, 2, 3, 3, 0, 0],
      destroyer := false, destroyed := [], overrun := false, reallocs := [] }
    1 (.outside [9, 9]) ⟨by decide, by decide, by decide⟩ (by decide) (by decide) trivial,
   vec_insert_middle_correct
    { size := 3, element_size := 2, capacity := 4, data := [1, 1, 2, 2, 3, 3, 0, 0],
      destroyer := false, destroyed := [], overrun := false, reallocs := [] }
    1 (.inside 0) ⟨by decide, by decide, by decide⟩ (by decide) (by decide)
    ⟨by decide, Or.inl (by decide)⟩⟩

/-- C18: on a vector with `size ≤ capacity`, `vec_insert` at the position of
the live end is `vec_push_back` with the same value: the same result state,
capacity growth included. -/
theorem vec_insert_at_end_is_push_back (vec : vector) (data : List Nat)
    (h : vec.size ≤ vec.capacity) :
    vec_insert vec ((vec.size * vec.element_size : Nat) : Int) (.outside data) =
      vec_push_back vec data :=
  vec_insert_at_end vec (.outside data) h

theorem vec_insert_at_end_is_push_back_witness :
    vec_insert
        { size := 2, element_size := 2, capacity := 2, data := [1, 1, 2, 2],
          destroyer := false, destroyed := [], overrun := false, reallocs := [] }
        4 (.outside [9, 9]) =
      vec_push_back
        { size := 2, element_size := 2, capacity := 2, data := [1, 1, 2, 2],
          destroyer := false, destroyed := [], overrun := false, reallocs := [] }
        [9, 9] :=
  vec_insert_at_end_is_push_back
    { size := 2, element_size := 2, capacity := 2, data := [1, 1, 2, 2],
      destroyer := false, destroyed := [], overrun := false, reallocs := [] }
    [9, 9] (by decide)

/-- C19: on a vector that satisfies the invariants of the data model,
`vec_insert` at a slot `p` with `n < p < capacity` returns with the value in
the slot `p`, size `p + 1`, every other slot (the slots below `n` and the
slots `n .. p - 1` that join the live range) and the capacity unchanged. -/
theorem vec_insert_beyond_correct (vec : vector) (p : Nat) (data : List Nat)
    (hwf : vec_wf vec) (hnp : vec.size < p) (hpc : p < vec.capacity) :
    ∃ v1, vec_insert vec ((p * vec.element_size : Nat) : Int) (.outside data) = .ok v1 ∧
      v1.size = p + 1 ∧ v1.capacity = vec.capacity ∧
      vec_slot v1 p = bytes_of data vec.element_size ∧
      (∀ k, k ≠ p → vec_slot v1 k = vec_slot vec k) ∧ v1.overrun = vec.overrun := by
  obtain ⟨v1, h, h1, h2, -, h4, h5, h6, -, -⟩ := vec_insert_beyond_spec vec p data hwf hnp hpc
  exact ⟨v1, h, h1, h2, h4, h5, h6⟩

theorem vec_insert_beyond_correct_witness :
    ∃ v1, vec_insert
        { size := 1, element_size := 2, capacity := 4, data := [1, 1, 5, 6, 7, 8, 0, 0],
          destroyer := false, destroyed := [], overrun := false, reallocs := [] }
        6 (.outside [9, 9]) = .ok v1 ∧
      v1.size = 4 ∧ v1.capacity = 4 ∧ vec_slot v1 3 = [9, 9] ∧
      (∀ k, k ≠ 3 → vec_slot v1 k = vec_slot
        { size := 1, element_size := 2, capacity := 4, data := [1, 1, 5, 6, 7, 8, 0, 0],
          destroyer := false, destroyed := [], overrun := false, reallocs := [] } k) ∧
      v1.overrun = false :=
  vec_insert_beyond_correct
    { size := 1, element_size := 2, capacity := 4, data := [1, 1, 5, 6, 7, 8, 0, 0],
      destroyer := false, destroyed := [], overrun := false, reallocs := [] }
    3 [9, 9] ⟨by decide, by decide, by decide⟩ (by decide) (by decide)

/-- C20 (code at the failing input): on a vector of size 1 and capacity 2 of
4-byte elements, `vec_insert` and `vec_insert_rng` at the position
`capacity * element_size`, one slot past the allocated block, pass their
assertions, write outside the block and leave size 3 with capacity 2. -/
theorem vec_insert_accepts_capacity_end :
    vec_insert
        { size := 1, element_size := 4, capacity := 2, data := [1, 0, 0, 0, 0, 0, 0, 0],
          destroyer := false, destroyed := [], overrun := false, reallocs := [] }
        8 (.outside [2, 0, 0, 0]) = .ok
        { size := 3, element_size := 4, capacity := 2, data := [1, 0, 0, 0, 0, 0, 0, 0],
          destroyer := false, destroyed := [], overrun := true, reallocs := [] } ∧
    vec_insert_rng
        { size := 1, element_size := 4, capacity := 2, data := [1, 0, 0, 0, 0, 0, 0, 0],
          destroyer := false, destroyed := [], overrun := false, reallocs := [] }
        8 [2, 0, 0, 0] = .ok
        { size := 3, element_size := 4, capacity := 2, data := [1, 0, 0, 0, 0, 0, 0, 0],
          destroyer := false, destroyed := [], overrun := true, reallocs := [] } := by
  constructor <;> decide

/-! # Theorems about release, capacity and assignment -/

/-- Two vectors with the same size whose live slots agree have the same live sequence. -/
theorem vec_elems_congr (v w : vector) (hs : w.size = v.size)
    (h : ∀ k, k < v.size → vec_slot w k = vec_slot v k) : vec_elems w = vec_elems v := by
  apply List.ext_getElem?
  intro k
  rw [getElem?_vec_elems, getElem?_vec_elems, hs]
  by_cases hk : k < v.size
  · rw [if_pos hk, if_pos hk, h k hk]
  · rw [if_neg hk, if_neg hk]

/-- The call `__force_reserve_to(vec, n)` with `n` at least the size keeps every live slot. -/
theorem force_reserve_slot (vec : vector) (n k : Nat) (hwf : vec_wf vec) (hn : vec.size ≤ n)
    (hk : k < vec.size) : vec_slot (__force_reserve_to vec n) k = vec_slot vec k := by
  obtain ⟨hes, hsc, hlen⟩ := hwf
  show blk (realloc vec.data (n * vec.element_size)) (k * vec.element_size) vec.element_size =
    blk vec.data (k * vec.element_size) vec.element_size
  apply blk_realloc
  · rw [hlen]; exact succ_mul_le (lt_of_lt_of_le hk hsc)
  · exact succ_mul_le (lt_of_lt_of_le hk hn)

/-- The call `__force_reserve_to(vec, n)` with `n` at least the size keeps the invariants. -/
theorem force_reserve_wf (vec : vector) (n : Nat) (hwf : vec_wf vec) (hn : vec.size ≤ n) :
    vec_wf (__force_reserve_to vec n) :=
  ⟨hwf.1, hn, length_realloc _ _⟩

/-- Reallocating a block to its own length returns the block. -/
theorem realloc_self (D : List Nat) (n : Nat) (h : D.length = n) : realloc D n = D := by
  unfold realloc
  rw [h, Nat.sub_self, List.replicate_zero, List.append_nil, ← h, List.take_length]

theorem vec_shrink_to_fit_spec (vec : vector) (hwf : vec_wf vec) :
    (vec_shrink_to_fit vec).capacity = vec.size ∧
    (vec_shrink_to_fit vec).size = vec.size ∧
    (vec_shrink_to_fit vec).element_size = vec.element_size ∧
    (vec_shrink_to_fit vec).destroyer = vec.destroyer ∧
    vec_elems (vec_shrink_to_fit vec) = vec_elems vec ∧
    (vec_shrink_to_fit vec).destroyed = vec.destroyed ∧
    (vec_shrink_to_fit vec).overrun = vec.overrun ∧
    vec_wf (vec_shrink_to_fit vec) :=
  ⟨rfl, rfl, rfl, rfl,
    vec_elems_congr vec _ rfl (fun k hk => force_reserve_slot vec vec.size k hwf (le_refl _) hk),
    rfl, rfl, force_reserve_wf vec vec.size hwf (le_refl _)⟩

theorem vec_shrink_to_fit_twice (vec : vector) :
    vec_shrink_to_fit (vec_shrink_to_fit vec) =
      { vec_shrink_to_fit vec with
        reallocs := (vec_shrink_to_fit vec).reallocs ++ [vec.size] } := by
  unfold vec_shrink_to_fit __force_reserve_to
  simp only
  rw [realloc_self _ _ (length_realloc _ _)]

/-- The call `__vec_destroy_each_item(vec)`: the destroyer, when configured, is
called on every live slot, in order. -/
theorem vec_destroy_each_item_spec (vec : vector) (hes : 0 < vec.element_size) :
    __vec_destroy_each_item vec = .ok
      { vec with destroyed := vec.destroyed ++
          (if vec.destroyer then
            (List.range vec.size).map (fun k => ((k * vec.element_size : Nat) : Int))
           else []),
                 destroyed_bytes := vec.destroyed_bytes ++
          (if vec.destroyer then (List.range vec.size).map (fun k => vec_slot vec k)
           else []),
                 destroyed_size := vec.destroyed_size ++
          (if vec.destroyer then List.replicate vec.size vec.size else []) } := by
  unfold __vec_destroy_each_item
  have h := vec_destroy_rng_spec vec 0 vec.size hes (Nat.zero_le _)
  rw [Nat.zero_mul, Nat.sub_zero, ← List.range_eq_range'] at h
  exact h

/-- Two adjacent writes are one write of the concatenation. -/
theorem write_write_adjacent (D A B : List Nat) (p : Nat)
    (h : p + A.length + B.length ≤ D.length) :
    (D.take p ++ A ++ D.drop (p + A.length)).take (p + A.length) ++ B ++
      (D.take p ++ A ++ D.drop (p + A.length)).drop (p + A.length + B.length) =
    D.take p ++ (A ++ B) ++ D.drop (p + (A ++ B).length) := by
  have h1 : p + A.length ≤ D.length := by omega
  have hl := length_write h1
  apply List.ext_getElem?
  intro t
  rw [getElem?_write (by rw [hl]; omega), getElem?_write h1,
    getElem?_write (by rw [List.length_append]; omega), List.length_append]
  by_cases c1 : t < p
  · rw [if_pos (by omega), if_pos c1, if_pos c1]
  · rw [if_neg c1]
    by_cases c2 : t < p + A.length
    · rw [if_pos c2, if_neg c1, if_pos c2, if_pos (by omega),
        List.getElem?_append_left (by omega)]
    · rw [if_neg c2, if_neg c1, if_neg c2]
      by_cases c3 : t < p + A.length + B.length
      · rw [if_pos c3, if_pos (by omega), List.getElem?_append_right (by omega)]
        congr 1
        omega
      · rw [if_neg c3, if_neg (by omega)]

/-- The copy loop of `vec_assign_rng` is one copy of the first `k` elements of
the source. -/
theorem vec_assign_rng_loop_spec (es : Nat) :
    ∀ (k a : Nat) (vec : vector) (src : List Nat), k * es ≤ src.length →
      a * es + k * es ≤ vec.data.length →
      vec_assign_rng_loop es k vec ((a * es : Nat) : Int) src =
        { vec with data := vec.data.take (a * es) ++ src.take (k * es) ++
            vec.data.drop (a * es + k * es) } := by
  intro k
  induction k with
  | zero =>
    intro a vec src _ _
    unfold vec_assign_rng_loop
    simp
  | succ k ih =>
    intro a vec src hs hd
    unfold vec_assign_rng_loop
    rw [Nat.succ_mul] at hs hd
    have hb : bytes_of src es = src.take es := by
      unfold bytes_of
      rw [show es - src.length = 0 by omega, List.replicate_zero, List.append_nil]
    have hbl : (src.take es).length = es := by rw [List.length_take]; omega
    rw [hb, vec_memcpy_in vec (a * es) (src.take es) (by rw [hbl]; omega)]
    have e1 : ((a * es : Nat) : Int) + (es : Int) = (((a + 1) * es : Nat) : Int) := by
      rw [Nat.add_mul, Nat.one_mul]; push_cast; rfl
    rw [e1, ih (a + 1) _ (src.drop es) (by rw [List.length_drop]; omega)
      (by show (a + 1) * es + k * es ≤ (_ : List Nat).length
          rw [length_write (by rw [hbl]; omega), Nat.add_mul, Nat.one_mul]; omega)]
    simp only
    have e2 : (a + 1) * es = a * es + (src.take es).length := by
      rw [hbl, Nat.add_mul, Nat.one_mul]
    have e3 : ((src.drop es).take (k * es)).length = k * es := by
      rw [List.length_take, List.length_drop]; omega
    have hw := write_write_adjacent vec.data (src.take es) ((src.drop es).take (k * es))
      (a * es) (by rw [hbl, e3]; omega)
    rw [e3] at hw
    rw [e2, hw]
    have e4 : src.take es ++ (src.drop es).take (k * es) = src.take (k * es + es) := by
      rw [Nat.add_comm (k * es) es, List.take_add]
    rw [e4, Nat.succ_mul]
    congr 3
    rw [List.length_take]
    omega

theorem getElem?_src_elems (src : List Nat) (es t : Nat) :
    (src_elems src es)[t]? =
      if t < src.length / es then some (blk src (t * es) es) else none := by
  unfold src_elems
  by_cases h : t < src.length / es
  · rw [if_pos h, List.getElem?_map, List.getElem?_range h]
    rfl
  · rw [if_neg h, List.getElem?_eq_none (by simp; omega)]

theorem length_src_elems (src : List Nat) (es : Nat) :
    (src_elems src es).length = src.length / es := by
  unfold src_elems
  simp

/-- What `vec_assign_rng` does to a well-formed vector, for a source range of `k` elements. -/
theorem vec_assign_rng_spec (vec : vector) (src : List Nat) (k : Nat) (hwf : vec_wf vec)
    (hsrc : src.length = k * vec.element_size) :
    ∃ v1, vec_assign_rng vec src = .ok v1 ∧ v1.size = k ∧
      v1.capacity = max vec.capacity k ∧ v1.element_size = vec.element_size ∧
      v1.data.take (k * vec.element_size) = src ∧
      vec_elems v1 = src_elems src vec.element_size ∧
      v1.destroyed = vec.destroyed ++
        (if vec.destroyer then
          (List.range vec.size).map (fun t => ((t * vec.element_size : Nat) : Int))
         else []) ∧
      v1.destroyer = vec.destroyer ∧ v1.overrun = vec.overrun ∧ vec_wf v1 := by
  obtain ⟨hes, hsc, hlen⟩ := id hwf
  have hk : src.length / vec.element_size = k := by
    rw [hsrc, Nat.mul_div_cancel _ hes]
  have htake : src.take (k * vec.element_size) = src := by
    rw [← hsrc, List.take_length]
  have h0 : (0 : Int) = ((0 * vec.element_size : Nat) : Int) := by simp
  -- the final state, for a block `D` of `c * element_size` bytes with `k ≤ c`
  have key : ∀ (w : vector), w.element_size = vec.element_size → w.size = k →
      k ≤ w.capacity → w.data.length = w.capacity * w.element_size →
      (vec_assign_rng_loop vec.element_size k w 0 src).size = k ∧
      (vec_assign_rng_loop vec.element_size k w 0 src).capacity = w.capacity ∧
      (vec_assign_rng_loop vec.element_size k w 0 src).element_size = vec.element_size ∧
      (vec_assign_rng_loop vec.element_size k w 0 src).data.take (k * vec.element_size) = src ∧
      vec_elems (vec_assign_rng_loop vec.element_size k w 0 src) =
        src_elems src vec.element_size ∧
      (vec_assign_rng_loop vec.element_size k w 0 src).destroyed = w.destroyed ∧
      (vec_assign_rng_loop vec.element_size k w 0 src).destroyer = w.destroyer ∧
      (vec_assign_rng_loop vec.element_size k w 0 src).overrun = w.overrun ∧
      vec_wf (vec_assign_rng_loop vec.element_size k w 0 src) := by
    intro w hwe hws hkc hwl
    have hfit : k * vec.element_size ≤ w.data.length := by
      rw [hwl, hwe]; exact Nat.mul_le_mul_right _ hkc
    rw [h0, vec_assign_rng_loop_spec vec.element_size k 0 w src (by omega) (by omega)]
    simp only [Nat.zero_mul, List.take_zero, List.nil_append, Nat.zero_add, htake]
    have hsl : src.length ≤ w.data.length := by omega
    refine ⟨hws, trivial, hwe, ?_, ?_, trivial, trivial, trivial, ?_⟩
    · rw [← hsrc, List.take_left']
      rfl
    · apply List.ext_getElem?
      intro t
      rw [getElem?_vec_elems, getElem?_src_elems, hk]
      simp only
      rw [hws]
      by_cases ht : t < k
      · rw [if_pos ht, if_pos ht]
        congr 1
        show blk (src ++ _) (t * w.element_size) w.element_size = _
        rw [hwe]
        have hb := blk_write_inside_len w.data src 0 (t * vec.element_size) vec.element_size
          (k * vec.element_size) hsrc (by omega) (succ_mul_le ht)
        simp only [List.take_zero, List.nil_append, Nat.zero_add] at hb
        exact hb
      · rw [if_neg ht, if_neg ht]
    · refine ⟨by show 0 < w.element_size; omega, by show w.size ≤ w.capacity; omega, ?_⟩
      show (src ++ _).length = w.capacity * w.element_size
      rw [List.length_append, List.length_drop]
      omega
  unfold vec_assign_rng
  rw [vec_destroy_each_item_spec vec hes]
  simp only [hk, bind, Except.bind]
  by_cases hc : k > vec.capacity
  · rw [if_pos hc]
    unfold __force_resize_to
    rw [if_neg (show ¬ k = 0 by omega)]
    simp only
    obtain ⟨a1, a2, a3, a4, a5, a6, a7, a8, a9⟩ := key
      { __force_reserve_to
          { vec with
            destroyed := vec.destroyed ++
              (if vec.destroyer then
                (List.range vec.size).map (fun k => ((k * vec.element_size : Nat) : Int))
               else []),
            destroyed_bytes := vec.destroyed_bytes ++
              (if vec.destroyer then (List.range vec.size).map (fun k => vec_slot vec k)
               else []),
            destroyed_size := vec.destroyed_size ++
              (if vec.destroyer then List.replicate vec.size vec.size else []) } k with
        size := k } rfl rfl (le_refl _) (length_realloc _ _)
    exact ⟨_, rfl, a1, by rw [a2]; show k = _; exact (max_eq_right (le_of_lt hc)).symm, a3, a4, a5, a6,
      a7, a8, a9⟩
  · rw [if_neg hc]
    obtain ⟨a1, a2, a3, a4, a5, a6, a7, a8, a9⟩ := key
      { vec with
            size := k,
            destroyed := vec.destroyed ++
              (if vec.destroyer then
                (List.range vec.size).map (fun k => ((k * vec.element_size : Nat) : Int))
               else []),
            destroyed_bytes := vec.destroyed_bytes ++
              (if vec.destroyer then (List.range vec.size).map (fun k => vec_slot vec k)
               else []),
            destroyed_size := vec.destroyed_size ++
              (if vec.destroyer then List.replicate vec.size vec.size else []) }
      rfl rfl (by show k ≤ vec.capacity; omega) hlen
    exact ⟨_, rfl, a1, by rw [a2]; show vec.capacity = _; exact (max_eq_left (not_lt.mp hc)).symm, a3, a4, a5, a6,
      a7, a8, a9⟩

/-- What `vec_free` does: the destroyer, when configured, is called on every
live slot, in order, and the descriptor is zeroed. -/
theorem vec_free_spec (vec : vector) (hes : 0 < vec.element_size) :
    vec_free vec = .ok
      { size := 0, element_size := 0, capacity := 0, data := [], destroyer := false,
        destroyed := vec.destroyed ++
          (if vec.destroyer then
            (List.range vec.size).map (fun k => ((k * vec.element_size : Nat) : Int))
           else []),
        overrun := vec.overrun, reallocs := vec.reallocs,
        destroyed_bytes := vec.destroyed_bytes ++
          (if vec.destroyer then (List.range vec.size).map (fun k => vec_slot vec k)
           else []),
        destroyed_size := vec.destroyed_size ++
          (if vec.destroyer then List.replicate vec.size vec.size else []) } := by
  unfold vec_free __vec_destroyer
  rw [vec_destroy_each_item_spec vec hes]
  rfl

/-- The slots `vec_free` calls the destroyer on are the live elements. -/
theorem destroyed_by_free (vec vf : vector) (hes : 0 < vec.element_size)
    (hd : vec.destroyer = true) (h : vec_free vec = .ok vf) :
    destroyed_by vec vf = vec_elems vec := by
  rw [vec_free_spec vec hes] at h
  cases h
  unfold destroyed_by vec_elems
  simp only [hd, if_true, List.drop_left, List.map_map]
  apply List.map_congr_left
  intro k _
  rfl

/-- The live sequence after a `vec_push_back`. -/
theorem vec_elems_push (vec v1 : vector) (b : List Nat) (h1 : v1.size = vec.size + 1)
    (h2 : vec_slot v1 vec.size = b) (h3 : ∀ k, k < vec.size → vec_slot v1 k = vec_slot vec k) :
    vec_elems v1 = vec_elems vec ++ [b] := by
  apply List.ext_getElem?
  intro k
  rw [getElem?_vec_elems, h1]
  by_cases hk : k < vec.size
  · rw [if_pos (by omega), List.getElem?_append_left (by rw [length_vec_elems]; exact hk),
      getElem?_vec_elems, if_pos hk, h3 k hk]
  · by_cases hk2 : k = vec.size
    · rw [if_pos (by omega), List.getElem?_append_right (by rw [length_vec_elems]; omega),
        length_vec_elems, hk2, h2]
      simp
    · rw [if_neg (by omega), List.getElem?_eq_none]
      rw [List.length_append, length_vec_elems]
      simp
      omega

/-- The live sequence before a `vec_pop_back`. -/
theorem vec_elems_pop (vec v1 : vector) (h0 : 0 < vec.size) (h1 : v1.size = vec.size - 1)
    (h2 : v1.element_size = vec.element_size) (h3 : v1.data = vec.data) :
    vec_elems vec = vec_elems v1 ++ [vec_slot vec (vec.size - 1)] := by
  apply vec_elems_push v1 vec _ (by omega) (by rw [h1])
  intro k _
  unfold vec_slot
  rw [h2, h3]

/-- A run of pushes and pops on a vector with a destroyer: the elements still
live and the elements the destroyer was called on are, together, the elements
live at the start and the pushed ones. -/
theorem vec_run_spec : ∀ (ops : List vec_op) (v0 : vector), vec_wf v0 →
    v0.destroyer = true → pops_on_nonempty v0.size ops = true →
    ∃ v ds, vec_run v0 ops = .ok (v, ds) ∧ vec_wf v ∧ v.destroyer = true ∧
      v.element_size = v0.element_size ∧
      v.destroyed.length = v0.destroyed.length + ds.length ∧
      (vec_elems v ++ ds).Perm (vec_elems v0 ++ pushed v0.element_size ops) := by
  intro ops
  induction ops with
  | nil =>
    intro v0 hwf hd _
    exact ⟨v0, [], rfl, hwf, hd, rfl, rfl, by simp [pushed]⟩
  | cons op ops ih =>
    intro v0 hwf hd hp
    cases op with
    | push_back data =>
      obtain ⟨v1, e1, p1, p2, p3, p4, -, -, p7, p8, -, p10⟩ := vec_push_back_spec v0 data hwf
      have hp1 : pops_on_nonempty v1.size ops = true := by rw [p1]; exact hp
      obtain ⟨v, ds, r1, r2, r3, r4, r5, r6⟩ := ih v1 p10 (by rw [p7, hd]) hp1
      refine ⟨v, ds, ?_, r2, r3, by rw [r4, p2], ?_, ?_⟩
      · rw [vec_run]
        simp only [vec_apply, e1, bind, Except.bind, r1]
        simp only [destroyed_by, p8, List.drop_length, List.map_nil, List.nil_append]
      · rw [r5, p8]
      · rw [vec_elems_push v0 v1 _ p1 p3 p4, p2] at r6
        simpa [pushed] using r6
    | pop_back =>
      have hp0 : 0 < v0.size ∧ pops_on_nonempty (v0.size - 1) ops = true := by
        simpa [pops_on_nonempty] using hp
      have e1 := (vec_pop_back_spec v0).2 hp0.1
      rw [if_pos hd, if_pos hd, if_pos hd] at e1
      obtain ⟨v, ds, r1, r2, r3, r4, r5, r6⟩ := ih
        { v0 with size := v0.size - 1,
                  destroyed := v0.destroyed ++ [((((v0.size - 1) * v0.element_size : Nat)) : Int)],
                  destroyed_bytes := v0.destroyed_bytes ++ [vec_slot v0 (v0.size - 1)],
                  destroyed_size := v0.destroyed_size ++ [v0.size] }
        ⟨hwf.1, by show v0.size - 1 ≤ v0.capacity; have := hwf.2.1; omega, hwf.2.2⟩ hd hp0.2
      refine ⟨v, vec_slot v0 (v0.size - 1) :: ds, ?_, r2, r3, r4, ?_, ?_⟩
      · rw [vec_run]
        simp only [vec_apply, e1, bind, Except.bind, r1]
        simp only [destroyed_by, List.drop_left, List.map_cons, List.map_nil,
          List.singleton_append, Int.toNat_ofNat]
        rfl
      · rw [r5]
        simp only [List.length_append, List.length_cons, List.length_nil]
        omega
      · rw [vec_elems_pop v0
          { v0 with size := v0.size - 1,
                    destroyed := v0.destroyed ++ [((((v0.size - 1) * v0.element_size : Nat)) : Int)],
                    destroyed_bytes := v0.destroyed_bytes ++ [vec_slot v0 (v0.size - 1)],
                    destroyed_size := v0.destroyed_size ++ [v0.size] }
          hp0.1 rfl rfl rfl]
        simp only [pushed]
        refine (List.perm_middle).trans ?_
        have : (vec_slot v0 (v0.size - 1) :: (vec_elems v ++ ds)).Perm
            (vec_slot v0 (v0.size - 1) :: (vec_elems
              { v0 with size := v0.size - 1,
                        destroyed := v0.destroyed ++ [((((v0.size - 1) * v0.element_size : Nat)) : Int)] } ++
              pushed v0.element_size ops)) := List.Perm.cons _ r6
        refine this.trans ?_
        simp only [List.append_assoc, List.singleton_append]
        exact (List.perm_middle).symm

/-! ## vec_insert_rng -/

theorem getElem?_insert_lists {β : Type} (L M : List β) (i t : Nat) (hi : i ≤ L.length) :
    (L.take i ++ M ++ L.drop i)[t]? =
      if t < i then L[t]? else if t < i + M.length then M[t - i]? else L[t - M.length]? := by
  have hl : (L.take i).length = i := by rw [List.length_take]; omega
  by_cases h1 : t < i
  · rw [if_pos h1, List.append_assoc, List.getElem?_append_left (by omega), List.getElem?_take,
      if_pos h1]
  · rw [if_neg h1, List.append_assoc, List.getElem?_append_right (by omega), hl]
    by_cases h2 : t < i + M.length
    · rw [if_pos h2, List.getElem?_append_left (by omega)]
    · rw [if_neg h2, List.getElem?_append_right (by omega), List.getElem?_drop]
      congr 1
      omega

/-- The live sequence of a vector whose slots are those of `vec` with the
elements of `src` inserted at the index `i`. -/
theorem vec_elems_insert_rng (vec v1 : vector) (src : List Nat) (i k : Nat)
    (hes : 0 < vec.element_size) (hi : i ≤ vec.size)
    (hsrc : src.length = k * vec.element_size) (hs : v1.size = vec.size + k)
    (ha : ∀ t, t < i → vec_slot v1 t = vec_slot vec t)
    (hb : ∀ t, t < k → vec_slot v1 (i + t) =
      blk src (t * vec.element_size) vec.element_size)
    (hc : ∀ t, i ≤ t → t < vec.size → vec_slot v1 (t + k) = vec_slot vec t) :
    vec_elems v1 = (vec_elems vec).take i ++ src_elems src vec.element_size ++
      (vec_elems vec).drop i := by
  have hk : src.length / vec.element_size = k := by rw [hsrc, Nat.mul_div_cancel _ hes]
  apply List.ext_getElem?
  intro t
  rw [getElem?_insert_lists _ _ _ _ (by rw [length_vec_elems]; exact hi), getElem?_vec_elems,
    getElem?_vec_elems, getElem?_vec_elems, getElem?_src_elems, length_src_elems, hk, hs]
  by_cases h1 : t < i
  · rw [if_pos h1, if_pos (by omega), if_pos (by omega), ha t h1]
  · rw [if_neg h1]
    by_cases h2 : t < i + k
    · rw [if_pos h2, if_pos (by omega), if_pos (by omega)]
      have := hb (t - i) (by omega)
      rw [show i + (t - i) = t by omega] at this
      rw [this]
    · rw [if_neg h2]
      by_cases h3 : t < vec.size + k
      · rw [if_pos h3, if_pos (by omega)]
        have := hc (t - k) (by omega) (by omega)
        rw [show t - k + k = t by omega] at this
        rw [this]
      · rw [if_neg h3, if_neg (by omega)]

theorem vec_insert_rng_reject (vec : vector) (i k : Nat) (src : List Nat) (hwf : vec_wf vec)
    (hi : i ≤ vec.size) (hsrc : src.length = k * vec.element_size)
    (hk : k > vec.capacity - vec.size) :
    vec_insert_rng vec ((i * vec.element_size : Nat) : Int) src = .error .assertion := by
  obtain ⟨hes, hsc, hlen⟩ := hwf
  have h1 : i * vec.element_size ≤ vec.size * vec.element_size := Nat.mul_le_mul_right _ hi
  have h2 : vec.size * vec.element_size ≤ vec.capacity * vec.element_size :=
    Nat.mul_le_mul_right _ hsc
  have h3 : vec.capacity * vec.element_size < (vec.size + k) * vec.element_size :=
    mul_lt_mul_es hes (by omega)
  rw [Nat.add_mul] at h3
  unfold vec_insert_rng
  simp only
  rw [if_pos (by omega), if_pos (by omega), if_pos (by rw [hsrc, Nat.mul_mod_left]),
    if_neg (by rw [hsrc]; omega)]

theorem vec_insert_rng_run (vec : vector) (i k : Nat) (src : List Nat) (hwf : vec_wf vec)
    (hi : i ≤ vec.size) (hsrc : src.length = k * vec.element_size)
    (hk : k ≤ vec.capacity - vec.size) :
    ∃ D, vec_insert_rng vec ((i * vec.element_size : Nat) : Int) src = .ok
        { vec with size := vec.size + k, data := D } ∧
      D.length = vec.data.length ∧
      (∀ t, t < i → blk D (t * vec.element_size) vec.element_size = vec_slot vec t) ∧
      (∀ t, t < k → blk D ((i + t) * vec.element_size) vec.element_size =
        blk src (t * vec.element_size) vec.element_size) ∧
      (∀ t, i ≤ t → t < vec.size →
        blk D ((t + k) * vec.element_size) vec.element_size = vec_slot vec t) := by
  obtain ⟨hes, hsc, hlen⟩ := hwf
  have h1 : i * vec.element_size ≤ vec.size * vec.element_size := Nat.mul_le_mul_right _ hi
  have h2 : vec.size * vec.element_size ≤ vec.capacity * vec.element_size :=
    Nat.mul_le_mul_right _ hsc
  have h3 : (vec.size + k) * vec.element_size ≤ vec.capacity * vec.element_size :=
    Nat.mul_le_mul_right _ (by omega)
  rw [Nat.add_mul] at h3
  have hdiv : src.length / vec.element_size = k := by rw [hsrc, Nat.mul_div_cancel _ hes]
  have hin : i * vec.element_size + src.length ≤ vec.data.length := by rw [hsrc, hlen]; omega
  have hmul : ∀ a b : Nat, (a + b) * vec.element_size =
      a * vec.element_size + b * vec.element_size := fun a b => Nat.add_mul _ _ _
  by_cases hc : i = vec.size
  · refine ⟨vec.data.take (i * vec.element_size) ++ src ++
      vec.data.drop (i * vec.element_size + src.length), ?_, length_write hin, ?_, ?_, ?_⟩
    · unfold vec_insert_rng
      simp only
      rw [if_pos (by omega), if_pos (by omega), if_pos (by rw [hsrc, Nat.mul_mod_left]),
        if_pos (by rw [hsrc]; omega), if_pos (by rw [hc]),
        vec_memcpy_in _ _ _ hin]
      simp only [hdiv, hc, sub_self, Int.toNat_zero, Nat.zero_div, Nat.zero_add]
    · intro t ht
      exact blk_write_disjoint hin (Or.inl (succ_mul_le ht))
    · intro t ht
      rw [hmul]
      exact blk_write_inside _ _ _ _ _ hin (by rw [hsrc]; exact succ_mul_le ht)
    · intro t h4 h5
      omega
  · have hlt : i < vec.size := by omega
    have hsz : (((vec.size * vec.element_size : Nat) : Int) -
        ((i * vec.element_size : Nat) : Int)).toNat =
        vec.size * vec.element_size - i * vec.element_size := by omega
    have hcast : ((i * vec.element_size : Nat) : Int) + ((src.length : Nat) : Int) =
        ((i * vec.element_size + src.length : Nat) : Int) := by push_cast; rfl
    have hbl : (blk vec.data (i * vec.element_size)
        (vec.size * vec.element_size - i * vec.element_size)).length =
        vec.size * vec.element_size - i * vec.element_size := length_blk (by omega)
    have hw1 : i * vec.element_size + src.length +
        (vec.size * vec.element_size - i * vec.element_size) ≤ vec.data.length := by
      rw [hsrc, hlen]; omega
    have hl1 := length_write_len hbl hw1
    have hw2 : i * vec.element_size + src.length ≤
        (vec.data.take (i * vec.element_size + src.length) ++
          blk vec.data (i * vec.element_size)
            (vec.size * vec.element_size - i * vec.element_size) ++
          vec.data.drop (i * vec.element_size + src.length +
            (vec.size * vec.element_size - i * vec.element_size))).length := by
      rw [hl1]; omega
    refine ⟨(vec.data.take (i * vec.element_size + src.length) ++
          blk vec.data (i * vec.element_size)
            (vec.size * vec.element_size - i * vec.element_size) ++
          vec.data.drop (i * vec.element_size + src.length +
            (vec.size * vec.element_size - i * vec.element_size))).take (i * vec.element_size) ++ src ++
        (vec.data.take (i * vec.element_size + src.length) ++
          blk vec.data (i * vec.element_size)
            (vec.size * vec.element_size - i * vec.element_size) ++
          vec.data.drop (i * vec.element_size + src.length +
            (vec.size * vec.element_size - i * vec.element_size))).drop (i * vec.element_size + src.length), ?_, ?_, ?_, ?_, ?_⟩
    · unfold vec_insert_rng
      simp only
      rw [if_pos (by omega), if_pos (by omega), if_pos (by rw [hsrc, Nat.mul_mod_left]),
        if_pos (by rw [hsrc]; omega),
        if_neg (show ¬ ((i * vec.element_size : Nat) : Int) ≥
          ((vec.size * vec.element_size : Nat) : Int) by
            have := mul_lt_mul_es hes hlt; omega)]
      simp only [hsz, hcast]
      rw [vec_memmove_in _ _ _ _ (by omega) hw1]
      rw [vec_memcpy_in _ _ _ hw2]
      simp only [hdiv]
    · rw [length_write hw2, hl1]
    · intro t ht
      rw [blk_write_disjoint hw2 (Or.inl (succ_mul_le ht))]
      have := @succ_mul_le _ _ vec.element_size ht
      exact blk_write_disjoint_len hbl hw1 (Or.inl (by omega))
    · intro t ht
      rw [hmul]
      exact blk_write_inside _ _ _ _ _ hw2 (by rw [hsrc]; exact succ_mul_le ht)
    · intro t h4 h5
      obtain ⟨d, rfl⟩ : ∃ d, t = i + d := ⟨t - i, by omega⟩
      have e3 := @succ_mul_le _ _ vec.element_size h5
      rw [hmul] at e3
      have e1 : (i + d + k) * vec.element_size =
          i * vec.element_size + src.length + d * vec.element_size := by
        rw [hmul, hmul, hsrc]; omega
      rw [blk_write_disjoint hw2 (Or.inr (by rw [e1]; omega)), e1,
        blk_write_inside_len _ _ _ _ _ _ hbl hw1 (by omega), blk_blk (by omega)]
      show _ = blk _ _ _
      rw [hmul]

theorem vec_insert_rng_spec (vec : vector) (i k : Nat) (src : List Nat) (hwf : vec_wf vec)
    (hi : i ≤ vec.size) (hsrc : src.length = k * vec.element_size)
    (hk : k ≤ vec.capacity - vec.size) :
    ∃ v1, vec_insert_rng vec ((i * vec.element_size : Nat) : Int) src = .ok v1 ∧
      vec_elems v1 = (vec_elems vec).take i ++ src_elems src vec.element_size ++
        (vec_elems vec).drop i ∧
      v1.size = vec.size + k ∧ v1.size ≤ v1.capacity ∧ v1.capacity = vec.capacity ∧
      v1.element_size = vec.element_size ∧ v1.overrun = vec.overrun ∧
      v1.destroyed = vec.destroyed ∧ v1.reallocs = vec.reallocs ∧ vec_wf v1 := by
  obtain ⟨D, hrun, hl, ha, hb, hc⟩ := vec_insert_rng_run vec i k src hwf hi hsrc hk
  have hsc := hwf.2.1
  refine ⟨_, hrun, ?_, rfl, by show vec.size + k ≤ vec.capacity; omega, rfl, rfl, rfl, rfl, rfl,
    ⟨hwf.1, by show vec.size + k ≤ vec.capacity; omega, by show D.length = _; rw [hl]; exact hwf.2.2⟩⟩
  exact vec_elems_insert_rng vec _ src i k hwf.1 hi hsrc rfl ha hb hc

/-! ## No assertion in the range algorithms -/

theorem toSizeT_pred_pos {n : Nat} (h0 : 0 < n) (h : n < 2 ^ 64) :
    toSizeT ((n : Int) - 1) = n - 1 := by
  unfold toSizeT
  norm_num at h ⊢
  omega

theorem toPtrdiff_of_nat {x : Nat} (h : x < 2 ^ 63) : toPtrdiff (x : Int) = x := by
  unfold toPtrdiff
  norm_num at h ⊢
  omega

theorem vec_back_nonempty (vec : vector) (hes : 0 < vec.element_size) (h0 : 0 < vec.size)
    (hfit : vec.size * vec.element_size < 2 ^ 63) :
    vec_back vec = .ok (((vec.size - 1) * vec.element_size : Nat) : Int) := by
  have h1 : vec.size ≤ vec.size * vec.element_size := Nat.le_mul_of_pos_right _ hes
  have h2 : (vec.size - 1) * vec.element_size ≤ vec.size * vec.element_size :=
    Nat.mul_le_mul_right _ (Nat.sub_le _ _)
  have h3 : (2 : Nat) ^ 63 < 2 ^ 64 := by norm_num
  unfold vec_back
  rw [toSizeT_pred_pos h0 (by omega), toSizeT_of_nat (by omega), toPtrdiff_of_nat (by omega)]

theorem vec_back_empty (vec : vector) (hes : 0 < vec.element_size)
    (hfit : vec.element_size < 2 ^ 63) (h0 : vec.size = 0) :
    vec_back vec = .ok (-(vec.element_size : Int)) := by
  unfold vec_back toSizeT toPtrdiff
  rw [h0]
  norm_num at hfit ⊢
  omega

/-! ## The loops of the range algorithms return -/

/-- C21: on a vector that satisfies the invariants of the data model, with
`n` live elements, for a logical index `i ≤ n` and a source range of `k`
elements outside the buffer, `vec_insert_rng` fails on its assertion, before
any change, when `k > capacity - n`; otherwise it returns with the live
sequence (first `i` elements) ++ (the `k` source elements in order) ++
(elements from index `i` on), size `n + k ≤ capacity`, capacity unchanged
and no call of `realloc`. -/
theorem vec_insert_rng_correct (vec : vector) (i k : Nat) (src : List Nat) (hwf : vec_wf vec)
    (hi : i ≤ vec.size) (hsrc : src.length = k * vec.element_size) :
    (k > vec.capacity - vec.size →
      vec_insert_rng vec ((i * vec.element_size : Nat) : Int) src = .error .assertion) ∧
    (k ≤ vec.capacity - vec.size →
      ∃ v1, vec_insert_rng vec ((i * vec.element_size : Nat) : Int) src = .ok v1 ∧
        vec_elems v1 = (vec_elems vec).take i ++ src_elems src vec.element_size ++
          (vec_elems vec).drop i ∧
        v1.size = vec.size + k ∧ v1.size ≤ v1.capacity ∧ v1.capacity = vec.capacity ∧
        v1.overrun = vec.overrun ∧ v1.reallocs = vec.reallocs) := by
  refine ⟨vec_insert_rng_reject vec i k src hwf hi hsrc, ?_⟩
  intro hk
  obtain ⟨v1, h, h1, h2, h3, h4, -, h6, -, h8, -⟩ := vec_insert_rng_spec vec i k src hwf hi hsrc hk
  exact ⟨v1, h, h1, h2, h3, h4, h6, h8⟩

theorem vec_insert_rng_correct_witness :
    ∃ v1, vec_insert_rng
        { size := 3, element_size := 4, capacity := 8,
          data := [3, 0, 0, 0, 1, 0, 0, 0, 2, 0, 0, 0, 0, 0, 0, 0, 0, 0, 0, 0,
                   0, 0, 0, 0, 0, 0, 0, 0, 0, 0, 0, 0],
          destroyer := false, destroyed := [], overrun := false, reallocs := [] }
        4 [7, 0, 0, 0, 8, 0, 0, 0] = .ok v1 ∧
      vec_elems v1 = [[3, 0, 0, 0], [7, 0, 0, 0], [8, 0, 0, 0], [1, 0, 0, 0], [2, 0, 0, 0]] ∧
      v1.size = 5 ∧ v1.capacity = 8 :=
  match (vec_insert_rng_correct
      { size := 3, element_size := 4, capacity := 8,
        data := [3, 0, 0, 0, 1, 0, 0, 0, 2, 0, 0, 0, 0, 0, 0, 0, 0, 0, 0, 0,
                 0, 0, 0, 0, 0, 0, 0, 0, 0, 0, 0, 0],
        destroyer := false, destroyed := [], overrun := false, reallocs := [] }
      1 2 [7, 0, 0, 0, 8, 0, 0, 0] ⟨by decide, by decide, by decide⟩ (by decide)
      (by decide)).2 (by decide) with
  | ⟨v1, h, h1, h2, _, h4, _, _⟩ => ⟨v1, h, h1.trans (by decide), h2, h4⟩

/-- C24: on a vector that satisfies the invariants of the data model,
`vec_shrink_to_fit` reallocates the block to the `size * element_size` bytes
of the live elements, once, and leaves capacity equal to size, with size,
element size, destroyer and every live element unchanged; it calls the
destroyer on no slot. -/
theorem vec_shrink_to_fit_correct (vec : vector) (hwf : vec_wf vec) :
    (vec_shrink_to_fit vec).capacity = vec.size ∧
    (vec_shrink_to_fit vec).size = vec.size ∧
    (vec_shrink_to_fit vec).element_size = vec.element_size ∧
    (vec_shrink_to_fit vec).destroyer = vec.destroyer ∧
    vec_elems (vec_shrink_to_fit vec) = vec_elems vec ∧
    (vec_shrink_to_fit vec).destroyed = vec.destroyed ∧
    (vec_shrink_to_fit vec).overrun = vec.overrun ∧
    (vec_shrink_to_fit vec).data = vec.data.take (vec.size * vec.element_size) ∧
    (vec_shrink_to_fit vec).data.length =
      (vec_shrink_to_fit vec).capacity * (vec_shrink_to_fit vec).element_size ∧
    (vec_shrink_to_fit vec).reallocs = vec.reallocs ++ [vec.size] := by
  obtain ⟨h1, h2, h3, h4, h5, h6, h7, hw⟩ := vec_shrink_to_fit_spec vec hwf
  refine ⟨h1, h2, h3, h4, h5, h6, h7, ?_, hw.2.2, rfl⟩
  obtain ⟨hes, hsc, hlen⟩ := hwf
  have hle : vec.size * vec.element_size ≤ vec.data.length := by
    rw [hlen]; exact Nat.mul_le_mul_right _ hsc
  show vec.data.take (vec.size * vec.element_size) ++
    List.replicate (vec.size * vec.element_size - vec.data.length) 0 = _
  rw [Nat.sub_eq_zero_of_le hle, List.replicate_zero, List.append_nil]

theorem vec_shrink_to_fit_correct_witness :
    (vec_shrink_to_fit
        { size := 3, element_size := 2, capacity := 4, data := [3, 0, 1, 0, 2, 0, 0, 0],
          destroyer := true, destroyed := [], overrun := false, reallocs := [0, 1, 2] }).capacity
      = 3 ∧
    vec_elems (vec_shrink_to_fit
        { size := 3, element_size := 2, capacity := 4, data := [3, 0, 1, 0, 2, 0, 0, 0],
          destroyer := true, destroyed := [], overrun := false, reallocs := [0, 1, 2] })
      = [[3, 0], [1, 0], [2, 0]] ∧
    (vec_shrink_to_fit
        { size := 3, element_size := 2, capacity := 4, data := [3, 0, 1, 0, 2, 0, 0, 0],
          destroyer := true, destroyed := [], overrun := false, reallocs := [0, 1, 2] }).data
      = [3, 0, 1, 0, 2, 0] :=
  match vec_shrink_to_fit_correct
      { size := 3, element_size := 2, capacity := 4, data := [3, 0, 1, 0, 2, 0, 0, 0],
        destroyer := true, destroyed := [], overrun := false, reallocs := [0, 1, 2] }
      ⟨by decide, by decide, by decide⟩ with
  | ⟨h1, _, _, _, h5, _, _, h8, _, _⟩ => ⟨h1, h5.trans (by decide), h8.trans (by decide)⟩

/-- C25, counterexample: on a vector of three elements and capacity 4, the
second of two consecutive `vec_shrink_to_fit` calls calls `realloc` again
(the log of the `realloc` calls grows from `[3]` to `[3, 3]`), although
capacity already equals size after the first call. -/
theorem vec_shrink_to_fit_second_call_reallocates :
    (vec_shrink_to_fit
        { size := 3, element_size := 2, capacity := 4, data := [3, 0, 1, 0, 2, 0, 0, 0],
          destroyer := false, destroyed := [], overrun := false, reallocs := [] }).capacity = 3 ∧
    (vec_shrink_to_fit
        { size := 3, element_size := 2, capacity := 4, data := [3, 0, 1, 0, 2, 0, 0, 0],
          destroyer := false, destroyed := [], overrun := false, reallocs := [] }).reallocs = [3] ∧
    (vec_shrink_to_fit (vec_shrink_to_fit
        { size := 3, element_size := 2, capacity := 4, data := [3, 0, 1, 0, 2, 0, 0, 0],
          destroyer := false, destroyed := [], overrun := false, reallocs := [] })).reallocs
      = [3, 3] ∧
    vec_shrink_to_fit (vec_shrink_to_fit
        { size := 3, element_size := 2, capacity := 4, data := [3, 0, 1, 0, 2, 0, 0, 0],
          destroyer := false, destroyed := [], overrun := false, reallocs := [] }) ≠
      vec_shrink_to_fit
        { size := 3, element_size := 2, capacity := 4, data := [3, 0, 1, 0, 2, 0, 0, 0],
          destroyer := false, destroyed := [], overrun := false, reallocs := [] } := by
  decide

/-- C25, amended: for every vector, the second of two consecutive
`vec_shrink_to_fit` calls calls `realloc` once more, with the byte count the
block already has, and leaves size, capacity, element size, destroyer, every
byte of the buffer and the record of the destroyer calls unchanged. -/
theorem vec_shrink_to_fit_twice_same_descriptor (vec : vector) :
    (vec_shrink_to_fit (vec_shrink_to_fit vec)).reallocs =
      (vec_shrink_to_fit vec).reallocs ++ [vec.size] ∧
    (vec_shrink_to_fit (vec_shrink_to_fit vec)).size = (vec_shrink_to_fit vec).size ∧
    (vec_shrink_to_fit (vec_shrink_to_fit vec)).capacity = (vec_shrink_to_fit vec).capacity ∧
    (vec_shrink_to_fit (vec_shrink_to_fit vec)).element_size =
      (vec_shrink_to_fit vec).element_size ∧
    (vec_shrink_to_fit (vec_shrink_to_fit vec)).data = (vec_shrink_to_fit vec).data ∧
    (vec_shrink_to_fit (vec_shrink_to_fit vec)).destroyer = (vec_shrink_to_fit vec).destroyer ∧
    (vec_shrink_to_fit (vec_shrink_to_fit vec)).destroyed = (vec_shrink_to_fit vec).destroyed ∧
    (vec_shrink_to_fit (vec_shrink_to_fit vec)).overrun = (vec_shrink_to_fit vec).overrun := by
  rw [vec_shrink_to_fit_twice vec]
  exact ⟨rfl, rfl, rfl, rfl, rfl, rfl, rfl, rfl⟩

/-- C26: on a vector that satisfies the invariants of the data model, for a
source range of `k` elements outside the buffer, `vec_assign_rng` returns
with size `k`, capacity `max (old capacity) k`, and the bytes from
`vec_begin` to `vec_end` equal to the bytes of the source, slot for slot the
source elements, whatever the vector held before. -/
theorem vec_assign_rng_correct (vec : vector) (src : List Nat) (k : Nat) (hwf : vec_wf vec)
    (hsrc : src.length = k * vec.element_size) :
    ∃ v1, vec_assign_rng vec src = .ok v1 ∧ v1.size = k ∧
      v1.capacity = max vec.capacity k ∧ v1.element_size = vec.element_size ∧
      v1.data.take (v1.size * v1.element_size) = src ∧
      vec_elems v1 = src_elems src vec.element_size ∧
      v1.overrun = vec.overrun := by
  obtain ⟨v1, h, h1, h2, h3, h4, h5, -, -, h8, -⟩ := vec_assign_rng_spec vec src k hwf hsrc
  exact ⟨v1, h, h1, h2, h3, by rw [h1, h3]; exact h4, h5, h8⟩

theorem vec_assign_rng_correct_witness :
    ∃ v1, vec_assign_rng
        { size := 0, element_size := 4, capacity := 5,
          data := [0, 0, 0, 0, 0, 0, 0, 0, 0, 0, 0, 0, 0, 0, 0, 0, 0, 0, 0, 0],
          destroyer := false, destroyed := [], overrun := false, reallocs := [] }
        [1, 0, 0, 0, 2, 0, 0, 0, 3, 0, 0, 0, 4, 0, 0, 0, 5, 0, 0, 0,
         6, 0, 0, 0, 7, 0, 0, 0, 8, 0, 0, 0, 9, 0, 0, 0, 10, 0, 0, 0] = .ok v1 ∧
      v1.size = 10 ∧ v1.capacity = 10 ∧
      v1.data.take (v1.size * v1.element_size) =
        [1, 0, 0, 0, 2, 0, 0, 0, 3, 0, 0, 0, 4, 0, 0, 0, 5, 0, 0, 0,
         6, 0, 0, 0, 7, 0, 0, 0, 8, 0, 0, 0, 9, 0, 0, 0, 10, 0, 0, 0] :=
  match vec_assign_rng_correct
      { size := 0, element_size := 4, capacity := 5,
        data := [0, 0, 0, 0, 0, 0, 0, 0, 0, 0, 0, 0, 0, 0, 0, 0, 0, 0, 0, 0],
        destroyer := false, destroyed := [], overrun := false, reallocs := [] }
      [1, 0, 0, 0, 2, 0, 0, 0, 3, 0, 0, 0, 4, 0, 0, 0, 5, 0, 0, 0,
       6, 0, 0, 0, 7, 0, 0, 0, 8, 0, 0, 0, 9, 0, 0, 0, 10, 0, 0, 0] 10
      ⟨by decide, by decide, by decide⟩ (by decide) with
  | ⟨v1, h, h1, h2, _, h4, _, _⟩ => ⟨v1, h, h1, h2.trans (by decide), h4⟩

/-- C27: on an empty vector with a destroyer that satisfies the invariants of
the data model, every run of `vec_push_back` and `vec_pop_back` calls in
which each pop meets a non-empty vector returns, and `vec_free` after it
returns with the destroyer called, over the run and the release together,
exactly as many times as there were pushes; the elements it was called on
are, with multiplicity, the pushed elements; and the descriptor is zeroed
(size 0, capacity 0, no buffer, element size 0, no destroyer). -/
theorem destroyer_once_per_pushed_element (v0 : vector) (ops : List vec_op) (hwf : vec_wf v0)
    (hd : v0.destroyer = true) (h0 : v0.size = 0) (hp : pops_on_nonempty 0 ops = true) :
    ∃ v ds vf, vec_run v0 ops = .ok (v, ds) ∧ vec_free v = .ok vf ∧
      vf.destroyed.length = v0.destroyed.length + (pushed v0.element_size ops).length ∧
      (ds ++ destroyed_by v vf).Perm (pushed v0.element_size ops) ∧
      vf.size = 0 ∧ vf.capacity = 0 ∧ vf.data = [] ∧ vf.element_size = 0 ∧
      vf.destroyer = false := by
  obtain ⟨v, ds, r1, r2, r3, r4, r5, r6⟩ := vec_run_spec ops v0 hwf hd (by rw [h0]; exact hp)
  have he : vec_elems v0 = [] := by unfold vec_elems; rw [h0]; rfl
  rw [he, List.nil_append] at r6
  have hf := vec_free_spec v r2.1
  refine ⟨v, ds, _, r1, hf, ?_, ?_, rfl, rfl, rfl, rfl, rfl⟩
  · have hl := r6.length_eq
    rw [List.length_append, length_vec_elems] at hl
    show (v.destroyed ++ _).length = _
    rw [if_pos r3, List.length_append, List.length_map, List.length_range, r5]
    omega
  · rw [destroyed_by_free v _ r2.1 r3 hf]
    exact List.perm_append_comm.trans r6

theorem destroyer_once_per_pushed_element_witness :
    ∃ v ds vf, vec_run
        { size := 0, element_size := 4, capacity := 2, data := [0, 0, 0, 0, 0, 0, 0, 0],
          destroyer := true, destroyed := [], overrun := false, reallocs := [] }
        [.push_back [1, 0, 0, 0], .push_back [2, 0, 0, 0], .push_back [3, 0, 0, 0], .pop_back]
        = .ok (v, ds) ∧
      vec_free v = .ok vf ∧ vf.destroyed.length = 3 ∧ vf.size = 0 ∧ vf.capacity = 0 ∧
      vf.data = [] :=
  match destroyer_once_per_pushed_element
      { size := 0, element_size := 4, capacity := 2, data := [0, 0, 0, 0, 0, 0, 0, 0],
        destroyer := true, destroyed := [], overrun := false, reallocs := [] }
      [.push_back [1, 0, 0, 0], .push_back [2, 0, 0, 0], .push_back [3, 0, 0, 0], .pop_back]
      ⟨by decide, by decide, by decide⟩ rfl rfl rfl with
  | ⟨v, ds, vf, h1, h2, h3, _, h5, h6, h7, _, _⟩ => ⟨v, ds, vf, h1, h2, h3, h5, h6, h7⟩

/-! ## Statements about the operations on a range and the accessors -/

/-- C28, failing input: on a vector with a destroyer and the two live
elements `[1, 0]`, `[2, 0]`, the calls `vec_fill`, `vec_fill_rng` over the whole
vector and `vec_fill_n` of two elements overwrite both live slots with
`[9, 0]` and return with the destroyer called on no slot, whereas `vec_assign`
of two elements calls it on the slots at the offsets 0 and 2 before it
writes. -/
theorem vec_fill_skips_destroyer :
    vec_fill
        { size := 2, element_size := 2, capacity := 2, data := [1, 0, 2, 0], destroyer := true,
          destroyed := [], overrun := false, reallocs := [] } [9, 0] =
      .ok { size := 2, element_size := 2, capacity := 2, data := [9, 0, 9, 0], destroyer := true,
            destroyed := [], overrun := false, reallocs := [] } ∧
    vec_fill_rng
        { size := 2, element_size := 2, capacity := 2, data := [1, 0, 2, 0], destroyer := true,
          destroyed := [], overrun := false, reallocs := [] } 0 4 [9, 0] =
      .ok { size := 2, element_size := 2, capacity := 2, data := [9, 0, 9, 0], destroyer := true,
            destroyed := [], overrun := false, reallocs := [] } ∧
    vec_fill_n
        { size := 2, element_size := 2, capacity := 2, data := [1, 0, 2, 0], destroyer := true,
          destroyed := [], overrun := false, reallocs := [] } 0 2 [9, 0] =
      .ok { size := 2, element_size := 2, capacity := 2, data := [9, 0, 9, 0], destroyer := true,
            destroyed := [], overrun := false, reallocs := [] } ∧
    vec_assign
        { size := 2, element_size := 2, capacity := 2, data := [1, 0, 2, 0], destroyer := true,
          destroyed := [], overrun := false, reallocs := [] } 2 [9, 0] =
      .ok { size := 2, element_size := 2, capacity := 2, data := [9, 0, 9, 0], destroyer := true,
            destroyed := [0, 2], overrun := false, reallocs := [],
            destroyed_bytes := [[1, 0], [2, 0]], destroyed_size := [2, 2] } := by
  decide

/-- C30, counterexample: on the empty vector of 4-byte elements, `vec_back`
returns, without halting, the pointer 4 bytes before the start of the
buffer, and so does `stk_top` on the stack that `stk_init(4)` returns. -/
theorem vec_back_on_empty_returns_pointer :
    vec_back
        { size := 0, element_size := 4, capacity := 0, data := [], destroyer := false,
          destroyed := [], overrun := false, reallocs := [] } = .ok (-4) ∧
    stk_init 4 = .ok ⟨{ size := 0, element_size := 4, capacity := 0, data := [],
                        destroyer := false, destroyed := [], overrun := false,
                        reallocs := [] }⟩ ∧
    stk_top ⟨{ size := 0, element_size := 4, capacity := 0, data := [], destroyer := false,
               destroyed := [], overrun := false, reallocs := [] }⟩ = .ok (-4) := by
  decide

/-- C30, amended: `vec_back` and `stk_top` have no check and never halt. On a
vector whose live bytes fit the address space they return the slot of
index `size - 1` when `size > 0`, and the pointer `element_size` bytes before
the start of the buffer when `size = 0`. -/
theorem vec_back_correct (vec : vector) (hes : 0 < vec.element_size)
    (hes63 : vec.element_size < 2 ^ 63) (hfit : vec.size * vec.element_size < 2 ^ 63) :
    (0 < vec.size →
      vec_back vec = .ok (((vec.size - 1) * vec.element_size : Nat) : Int) ∧
      stk_top ⟨vec⟩ = .ok (((vec.size - 1) * vec.element_size : Nat) : Int)) ∧
    (vec.size = 0 →
      vec_back vec = .ok (-(vec.element_size : Int)) ∧
      stk_top ⟨vec⟩ = .ok (-(vec.element_size : Int))) :=
  ⟨fun h0 => ⟨vec_back_nonempty vec hes h0 hfit, vec_back_nonempty vec hes h0 hfit⟩,
   fun h0 => ⟨vec_back_empty vec hes hes63 h0, vec_back_empty vec hes hes63 h0⟩⟩

theorem vec_back_correct_witness :
    vec_back
        { size := 3, element_size := 4, capacity := 4,
          data := [3, 0, 0, 0, 1, 0, 0, 0, 2, 0, 0, 0, 0, 0, 0, 0],
          destroyer := false, destroyed := [], overrun := false, reallocs := [] } = .ok 8 :=
  ((vec_back_correct
      { size := 3, element_size := 4, capacity := 4,
        data := [3, 0, 0, 0, 1, 0, 0, 0, 2, 0, 0, 0, 0, 0, 0, 0],
        destroyer := false, destroyed := [], overrun := false, reallocs := [] }
      (by decide) (by decide) (by decide)).1 (by decide)).1

/-! ## fill and find of util.c -/

theorem blk_flatten_replicate (b : List Nat) (es : Nat) (hb : b.length = es) :
    ∀ k t, t < k → blk (List.replicate k b).flatten (t * es) es = b := by
  intro k
  induction k with
  | zero => intro t ht; omega
  | succ k ih =>
    intro t ht
    rw [List.replicate_succ, List.flatten_cons]
    cases t with
    | zero =>
      unfold blk
      rw [Nat.zero_mul, List.drop_zero, ← hb, List.take_left']
      rfl
    | succ t =>
      unfold blk
      rw [Nat.succ_mul, Nat.add_comm (t * es) es, ← List.drop_drop, ← hb, List.drop_left', hb]
      · exact ih t (by omega)
      · rfl

theorem length_flatten_replicate (b : List Nat) (es : Nat) (hb : b.length = es) (k : Nat) :
    (List.replicate k b).flatten.length = k * es := by
  induction k with
  | zero => simp
  | succ k ih =>
    rw [List.replicate_succ, List.flatten_cons, List.length_append, ih, hb, Nat.succ_mul]
    omega

/-- The loop of `fill` on `k` slots from the offset `a` inside the block: one
write of `k` copies of the value. -/
theorem fill_loop_spec (es : Nat) (hes : 0 < es) (value : List Nat) :
    ∀ (k a : Nat) (vec : vector) (fuel : Nat), a + k * es ≤ vec.data.length → k * es ≤ fuel →
      fill_loop es value ((a + k * es : Nat) : Int) fuel vec (a : Int) = .ok
        { vec with data := vec.data.take a ++ (List.replicate k (bytes_of value es)).flatten ++
            vec.data.drop (a + k * es) } := by
  intro k
  induction k with
  | zero =>
    intro a vec fuel _ _
    have hd : vec.data.take a ++ (List.replicate 0 (bytes_of value es)).flatten ++
        vec.data.drop (a + 0 * es) = vec.data := by simp
    rw [hd]
    cases fuel with
    | zero => unfold fill_loop; rw [if_neg (by omega)]
    | succ f => unfold fill_loop; rw [if_neg (by omega)]
  | succ k ih =>
    intro a vec fuel hin hf
    rw [Nat.succ_mul] at hin hf
    obtain ⟨f, rfl⟩ : ∃ f, fuel = f + 1 := ⟨fuel - 1, by omega⟩
    have hb : (bytes_of value es).length = es := length_bytes_of _ _
    unfold fill_loop
    rw [if_pos (by rw [Nat.succ_mul]; omega),
      vec_memcpy_in vec a (bytes_of value es) (by rw [hb]; omega)]
    have e1 : (a : Int) + (es : Int) = ((a + es : Nat) : Int) := by push_cast; rfl
    have e2 : a + (k + 1) * es = a + es + k * es := by rw [Nat.succ_mul]; omega
    rw [e1, e2, ih (a + es) _ f
      (by show a + es + k * es ≤ (_ : List Nat).length
          rw [length_write (by rw [hb]; omega)]; omega) (by omega)]
    simp only [hb]
    have hfl := length_flatten_replicate (bytes_of value es) es hb k
    have hw := write_write_adjacent vec.data (bytes_of value es)
      (List.replicate k (bytes_of value es)).flatten a (by rw [hb, hfl]; omega)
    rw [hb, hfl] at hw
    rw [hw, List.length_append, hb, hfl, List.replicate_succ, List.flatten_cons]
    rw [Nat.add_assoc a es (k * es)]

theorem fill_spec (vec : vector) (a n es : Nat) (value : List Nat) (hes : 0 < es)
    (hin : a + n * es ≤ vec.data.length) :
    fill vec (a : Int) ((a + n * es : Nat) : Int) es value = .ok
      { vec with data := vec.data.take a ++ (List.replicate n (bytes_of value es)).flatten ++
          vec.data.drop (a + n * es) } := by
  unfold fill
  exact fill_loop_spec es hes value n a vec _ hin (by omega)

theorem memcmp_eq_zero : ∀ (x y : List Nat), x.length = y.length → (memcmp x y = 0 ↔ x = y) := by
  intro x
  induction x with
  | nil =>
    intro y h
    cases y with
    | nil => simp [memcmp]
    | cons b y => simp at h
  | cons a x ih =>
    intro y h
    cases y with
    | nil => simp at h
    | cons b y =>
      simp only [List.length_cons, Nat.add_right_cancel_iff] at h
      unfold memcmp
      by_cases hab : a = b
      · rw [if_pos hab, ih y h, hab]
        simp
      · rw [if_neg hab]
        constructor
        · intro h1
          exact absurd (by omega) hab
        · intro h1
          cases h1
          exact absurd rfl hab

/-- The loop of `find_cmp` from the slot `j`, none of the earlier slots matching. -/
theorem find_loop_spec (vec : vector) (a n es : Nat) (value : List Nat)
    (cmp : List Nat → List Nat → Int) (hes : 0 < es) :
    ∀ (k j fuel : Nat), j + k = n → k * es ≤ fuel →
      (∀ t, t < j → cmp (blk vec.data (a + t * es) es) (bytes_of value es) ≠ 0) →
      ∃ p, find_loop vec es value cmp ((a + n * es : Nat) : Int) fuel ((a + j * es : Nat) : Int)
          = .ok p ∧
        ((∃ i, i < n ∧ p = ((a + i * es : Nat) : Int) ∧
            cmp (blk vec.data (a + i * es) es) (bytes_of value es) = 0 ∧
            ∀ t, t < i → cmp (blk vec.data (a + t * es) es) (bytes_of value es) ≠ 0) ∨
          (p = ((a + n * es : Nat) : Int) ∧
            ∀ t, t < n → cmp (blk vec.data (a + t * es) es) (bytes_of value es) ≠ 0)) := by
  intro k
  induction k with
  | zero =>
    intro j fuel hj _ hprev
    have hjn : j = n := by omega
    subst hjn
    refine ⟨_, ?_, Or.inr ⟨rfl, hprev⟩⟩
    cases fuel with
    | zero => unfold find_loop; rw [if_neg (by omega)]
    | succ f => unfold find_loop; rw [if_neg (by omega)]
  | succ k ih =>
    intro j fuel hj hf hprev
    rw [Nat.succ_mul] at hf
    obtain ⟨f, rfl⟩ : ∃ f, fuel = f + 1 := ⟨fuel - 1, by omega⟩
    have hlt : j * es < n * es := mul_lt_mul_es hes (by omega)
    unfold find_loop
    rw [if_pos (by omega), Int.toNat_ofNat]
    by_cases hc : cmp (blk vec.data (a + j * es) es) (bytes_of value es) = 0
    · rw [if_pos (show cmp (List.take es (List.drop (a + j * es) vec.data))
        (bytes_of value es) = 0 from hc)]
      exact ⟨_, rfl, Or.inl ⟨j, by omega, rfl, hc, hprev⟩⟩
    · rw [if_neg (show ¬ cmp (List.take es (List.drop (a + j * es) vec.data))
        (bytes_of value es) = 0 from hc)]
      have e1 : ((a + j * es : Nat) : Int) + (es : Int) = ((a + (j + 1) * es : Nat) : Int) := by
        rw [Nat.succ_mul]; push_cast; omega
      rw [e1]
      refine ih (j + 1) f (by omega) (by omega) ?_
      intro t ht
      by_cases htj : t = j
      · rw [htj]; exact hc
      · exact hprev t (by omega)

theorem find_cmp_spec (vec : vector) (a n es : Nat) (value : List Nat)
    (cmp : List Nat → List Nat → Int) (hes : 0 < es) :
    ∃ p, find_cmp vec (a : Int) ((a + n * es : Nat) : Int) es value cmp = .ok p ∧
      ((∃ i, i < n ∧ p = ((a + i * es : Nat) : Int) ∧
          cmp (blk vec.data (a + i * es) es) (bytes_of value es) = 0 ∧
          ∀ t, t < i → cmp (blk vec.data (a + t * es) es) (bytes_of value es) ≠ 0) ∨
        (p = ((a + n * es : Nat) : Int) ∧
          ∀ t, t < n → cmp (blk vec.data (a + t * es) es) (bytes_of value es) ≠ 0)) := by
  have h := find_loop_spec vec a n es value cmp hes n 0 ((((a + n * es : Nat) : Int) -
    (a : Int)).toNat) (by omega) (by omega) (fun t ht => absurd ht (Nat.not_lt_zero _))
  rw [Nat.zero_mul, Nat.add_zero] at h
  exact h

/-! ## The descriptor under sequences of calls -/

theorem loadInP_ok (m : List α) (s e p : Int) (hs : 0 ≤ s) (he : e ≤ m.length)
    (h1 : s ≤ p) (h2 : p < e) : ∃ x, loadInP m s e p = .ok x ∧ m[p.toNat]? = some x := by
  have hp : p.toNat < m.length := by omega
  refine ⟨m[p.toNat], ?_, List.getElem?_eq_getElem hp⟩
  unfold loadInP loadP
  rw [if_pos ⟨h1, h2⟩, if_pos (by omega)]
  exact load_of_lt hp

/-- The left scan stops at or before any slot that does not compare below the
pivot slot. -/
theorem quick_scan_left_ok (cmp : α → α → Int) (m : List α) (s e P : Int) (hs : 0 ≤ s)
    (he : e ≤ m.length) (hP1 : s ≤ P) (hP2 : P < e) :
    ∀ (fuel : Nat) (left j : Int), s ≤ left → left ≤ j → j < e →
      (∀ x y, m[j.toNat]? = some x → m[P.toNat]? = some y → ¬ cmp x y < 0) →
      (j - left).toNat < fuel →
      ∃ l1, quick_scan_left cmp m s e P fuel left = .ok l1 ∧ left ≤ l1 ∧ l1 ≤ j ∧
        (∀ x y, m[l1.toNat]? = some x → m[P.toNat]? = some y → ¬ cmp x y < 0) := by
  intro fuel
  induction fuel with
  | zero => intro left j _ _ _ _ hf; omega
  | succ fuel ih =>
    intro left j h1 h2 h3 hj hf
    obtain ⟨a, ha, ha'⟩ := loadInP_ok m s e left hs he h1 (by omega)
    obtain ⟨p, hp, hp'⟩ := loadInP_ok m s e P hs he hP1 hP2
    unfold quick_scan_left
    simp only [ha, hp, bind, Except.bind]
    by_cases hc : cmp a p < 0
    · rw [if_pos hc]
      have hne : left ≠ j := by
        intro h
        rw [h] at ha'
        exact hj a p ha' hp' hc
      obtain ⟨l1, r1, r2, r3, r4⟩ := ih (left + 1) j (by omega) (by omega) h3 hj (by omega)
      exact ⟨l1, r1, by omega, r3, r4⟩
    · rw [if_neg hc]
      refine ⟨left, rfl, le_refl _, h2, ?_⟩
      intro x y hx hy
      rw [ha'] at hx
      rw [hp'] at hy
      cases hx
      cases hy
      exact hc

/-- The right scan stops at or after any slot that does not compare above the
pivot slot. -/
theorem quick_scan_right_ok (cmp : α → α → Int) (m : List α) (s e P : Int) (hs : 0 ≤ s)
    (he : e ≤ m.length) (hP1 : s ≤ P) (hP2 : P < e) :
    ∀ (fuel : Nat) (right j : Int), right < e → j ≤ right → s ≤ j →
      (∀ x y, m[j.toNat]? = some x → m[P.toNat]? = some y → ¬ cmp x y > 0) →
      (right - j).toNat < fuel →
      ∃ r1, quick_scan_right cmp m s e P fuel right = .ok r1 ∧ r1 ≤ right ∧ j ≤ r1 ∧
        (∀ x y, m[r1.toNat]? = some x → m[P.toNat]? = some y → ¬ cmp x y > 0) := by
  intro fuel
  induction fuel with
  | zero => intro right j _ _ _ _ hf; omega
  | succ fuel ih =>
    intro right j h1 h2 h3 hj hf
    obtain ⟨a, ha, ha'⟩ := loadInP_ok m s e right hs he (by omega) h1
    obtain ⟨p, hp, hp'⟩ := loadInP_ok m s e P hs he hP1 hP2
    unfold quick_scan_right
    simp only [ha, hp, bind, Except.bind]
    by_cases hc : cmp a p > 0
    · rw [if_pos hc]
      have hne : right ≠ j := by
        intro h
        rw [h] at ha'
        exact hj a p ha' hp' hc
      obtain ⟨r1, q1, q2, q3, q4⟩ := ih (right - 1) j (by omega) (by omega) h3 hj (by omega)
      exact ⟨r1, q1, by omega, q3, q4⟩
    · rw [if_neg hc]
      refine ⟨right, rfl, le_refl _, h2, ?_⟩
      intro x y hx hy
      rw [ha'] at hx
      rw [hp'] at hy
      cases hx
      cases hy
      exact hc

/-- The exchange of two slots of the range. -/
theorem swapInP_ok (m : List α) (s e a b : Int) (hs : 0 ≤ s) (he : e ≤ m.length)
    (ha1 : s ≤ a) (ha2 : a < e) (hb1 : s ≤ b) (hb2 : b < e) :
    ∃ m1, swapInP m s e a b = .ok m1 ∧ m1.length = m.length ∧ m1.Perm m ∧
      ∀ t, m1[t]? = m[tr a.toNat b.toNat t]? := by
  have ha : a.toNat < m.length := by omega
  have hb : b.toNat < m.length := by omega
  have h : swapInP m s e a b = swap m a.toNat b.toNat := by
    unfold swapInP swapP
    rw [if_pos ⟨ha1, ha2, hb1, hb2⟩, if_pos ⟨by omega, by omega⟩]
  rw [h, swap_of_lt ha hb]
  exact ⟨_, rfl, swap_spec ha hb (swap_of_lt ha hb)⟩

theorem IsTotalPreorder.not_lt_self {cmp : α → α → Int} (hc : IsTotalPreorder cmp) (x : α) :
    ¬ cmp x x < 0 := by
  intro h
  have := (hc.flip x x).1 h
  omega

/-- After the exchange of a slot that does not compare below the pivot slot
with a slot that does not compare above it, the two slots have exchanged
these roles, whether or not the pivot slot is one of them. -/
theorem stoppers_after_swap {cmp : α → α → Int} (hc : IsTotalPreorder cmp) (m m1 : List α)
    (a b p : Nat) (hm : ∀ t, m1[t]? = m[tr a b t]?)
    (hge : ∀ x y, m[a]? = some x → m[p]? = some y → ¬ cmp x y < 0)
    (hle : ∀ x y, m[b]? = some x → m[p]? = some y → ¬ cmp x y > 0) :
    (∀ x y, m1[b]? = some x → m1[p]? = some y → ¬ cmp x y < 0) ∧
    (∀ x y, m1[a]? = some x → m1[p]? = some y → ¬ cmp x y > 0) := by
  have hb : m1[b]? = m[a]? := by rw [hm]; unfold tr; rw [if_pos rfl]
  have ha : m1[a]? = m[b]? := by
    rw [hm]; unfold tr
    by_cases h : a = b
    · rw [if_pos h, h]
    · rw [if_neg h, if_pos rfl]
  constructor
  · intro x y hx hy
    rw [hb] at hx
    by_cases h1 : p = b
    · rw [h1, hb] at hy
      rw [hx] at hy
      cases hy
      exact hc.not_lt_self x
    · by_cases h2 : p = a
      · rw [h2, ha] at hy
        rw [h2] at hle
        have := hle y x hy hx
        intro h3
        exact this ((hc.flip x y).1 h3)
      · have hp : m1[p]? = m[p]? := by rw [hm]; unfold tr; rw [if_neg h1, if_neg h2]
        rw [hp] at hy
        exact hge x y hx hy
  · intro x y hx hy
    rw [ha] at hx
    by_cases h2 : p = a
    · rw [h2, ha] at hy
      rw [hx] at hy
      cases hy
      intro h3
      exact hc.not_lt_self x ((hc.flip x x).2 h3)
    · by_cases h1 : p = b
      · rw [h1, hb] at hy
        rw [h1] at hge
        have := hge y x hy hx
        intro h3
        exact this ((hc.flip y x).2 h3)
      · have hp : m1[p]? = m[p]? := by rw [hm]; unfold tr; rw [if_neg h1, if_neg h2]
        rw [hp] at hy
        exact hle x y hx hy

/-- The partition loop of `quick_sort`: from a state in which, as long as
`left ≤ right`, a slot `jl` at or after `left` does not compare below the
pivot slot and a slot `jr` at or before `right` does not compare above it,
the loop returns with every dereferenced pointer inside the range, the
content a permutation and `left`, `right` moved inwards; strictly so when
`jl ≤ jr`. -/
theorem quick_partition_ok {cmp : α → α → Int} (hc : IsTotalPreorder cmp) (s e P : Int)
    (hs : 0 ≤ s) (hP1 : s ≤ P) (hP2 : P < e) :
    ∀ (fuel : Nat) (m : List α) (left right jl jr : Int), e ≤ m.length → s ≤ left →
      right < e → left ≤ e → s - 1 ≤ right →
      (left ≤ right → left ≤ jl ∧ jl < e ∧ s ≤ jr ∧ jr ≤ right ∧
        (∀ x y, m[jl.toNat]? = some x → m[P.toNat]? = some y → ¬ cmp x y < 0) ∧
        (∀ x y, m[jr.toNat]? = some x → m[P.toNat]? = some y → ¬ cmp x y > 0)) →
      (right + 2 - left).toNat ≤ fuel →
      ∃ m1 l1 r1, quick_partition cmp s e P fuel m left right = .ok (m1, l1, r1) ∧
        m1.Perm m ∧ left ≤ l1 ∧ l1 ≤ e ∧ r1 ≤ right ∧ s - 1 ≤ r1 ∧
        (left ≤ right → jl ≤ jr → left < l1 ∧ r1 < right) := by
  intro fuel
  induction fuel with
  | zero =>
    intro m left right jl jr _ h1 h2 h3 h4 _ hf
    have hlr : ¬ left ≤ right := by omega
    refine ⟨m, left, right, ?_, List.Perm.refl _, le_refl _, h3, le_refl _, h4,
      fun h => absurd h hlr⟩
    unfold quick_partition
    rw [if_neg hlr]
  | succ fuel ih =>
    intro m left right jl jr he h1 h2 h3 h4 hst hf
    unfold quick_partition
    by_cases hlr : left ≤ right
    · rw [if_pos hlr]
      obtain ⟨a1, a2, a3, a4, a5, a6⟩ := hst hlr
      obtain ⟨l1, hl, l2, l3, l4⟩ := quick_scan_left_ok cmp m s e P hs he hP1 hP2
        ((e - s).toNat + 1) left jl h1 a1 a2 a5 (by omega)
      obtain ⟨r1, hr, r2, r3, r4⟩ := quick_scan_right_ok cmp m s e P hs he hP1 hP2
        ((e - s).toNat + 1) right jr h2 a4 a3 a6 (by omega)
      simp only [hl, hr, bind, Except.bind]
      by_cases hsw : l1 ≤ r1
      · rw [if_pos hsw]
        obtain ⟨m1, hm1, hlen, hperm, hget⟩ := swapInP_ok m s e l1 r1 hs he (by omega) (by omega)
          (by omega) (by omega)
        simp only [hm1]
        obtain ⟨g1, g2⟩ := stoppers_after_swap hc m m1 l1.toNat r1.toNat P.toNat hget l4 r4
        obtain ⟨m2, l2', r2', q1, q2, q3, q4, q5, q6, -⟩ := ih m1 (l1 + 1) (r1 - 1) r1 l1
          (by rw [hlen]; exact he) (by omega) (by omega) (by omega) (by omega)
          (fun h => ⟨by omega, by omega, by omega, by omega, g1, g2⟩) (by omega)
        exact ⟨m2, l2', r2', q1, q2.trans hperm, by omega, q4, by omega, q6,
          fun _ _ => ⟨by omega, by omega⟩⟩
      · rw [if_neg hsw]
        obtain ⟨m2, l2', r2', q1, q2, q3, q4, q5, q6, -⟩ := ih m l1 r1 jl jr he (by omega)
          (by omega) (by omega) (by omega) (fun h => absurd h hsw) (by omega)
        exact ⟨m2, l2', r2', q1, q2, by omega, q4, by omega, q6,
          fun _ hj => absurd (by omega) hsw⟩
    · rw [if_neg hlr]
      exact ⟨m, left, right, rfl, List.Perm.refl _, le_refl _, h3, le_refl _, h4,
        fun h => absurd h hlr⟩

/-- The function `quick_sort` on a sub-range of at most `fuel + 1` slots returns a permutation. -/
theorem quick_sort_rng_ok {cmp : α → α → Int} (hc : IsTotalPreorder cmp) :
    ∀ (fuel : Nat) (m : List α) (s e : Int), 0 ≤ s → e ≤ m.length → (e - s).toNat ≤ fuel + 1 →
      ∃ m1, quick_sort_rng cmp fuel m s e = .ok m1 ∧ m1.Perm m := by
  intro fuel
  induction fuel with
  | zero =>
    intro m s e _ _ hn
    unfold quick_sort_rng
    rw [if_pos (by omega)]
    exact ⟨m, rfl, List.Perm.refl _⟩
  | succ fuel ih =>
    intro m s e hs he hn
    unfold quick_sort_rng
    simp only
    by_cases h1 : (e - s).toNat ≤ 1
    · rw [if_pos h1]
      exact ⟨m, rfl, List.Perm.refl _⟩
    · rw [if_neg h1]
      have hP1 : s ≤ s + (((e - s).toNat / 2 : Nat) : Int) := by omega
      have hP2 : s + (((e - s).toNat / 2 : Nat) : Int) < e := by omega
      have hrefl : ∀ x y : α, m[(s + (((e - s).toNat / 2 : Nat) : Int)).toNat]? = some x →
          m[(s + (((e - s).toNat / 2 : Nat) : Int)).toNat]? = some y →
          ¬ cmp x y < 0 ∧ ¬ cmp x y > 0 := by
        intro x y hx hy
        rw [hx] at hy
        cases hy
        exact ⟨hc.not_lt_self x, fun h => hc.not_lt_self x ((hc.flip x x).2 h)⟩
      obtain ⟨m1, l1, r1, q1, q2, q3, q4, q5, q6, q7⟩ := quick_partition_ok hc s e
        (s + (((e - s).toNat / 2 : Nat) : Int)) hs hP1 hP2 ((e - s).toNat + 1) m s (e - 1)
        (s + (((e - s).toNat / 2 : Nat) : Int)) (s + (((e - s).toNat / 2 : Nat) : Int))
        he (le_refl _) (by omega) (by omega) (by omega)
        (fun _ => ⟨by omega, by omega, by omega, by omega,
          fun x y hx hy => (hrefl x y hx hy).1, fun x y hx hy => (hrefl x y hx hy).2⟩)
        (by omega)
      obtain ⟨q8, q9⟩ := q7 (by omega) (le_refl _)
      simp only [q1, bind, Except.bind]
      have hl1 : m1.length = m.length := q2.length_eq
      obtain ⟨m2, w1, w2⟩ := ih m1 s (r1 + 1) hs (by omega) (by omega)
      simp only [w1]
      have hl2 : m2.length = m1.length := w2.length_eq
      obtain ⟨m3, w3, w4⟩ := ih m2 l1 e (by omega) (by omega) (by omega)
      exact ⟨m3, w3, w4.trans (w2.trans q2)⟩

theorem quick_sort_ok {cmp : α → α → Int} (hc : IsTotalPreorder cmp) (xs : List α) :
    ∃ ys, quick_sort cmp xs = .ok ys ∧ ys.Perm xs := by
  unfold quick_sort
  exact quick_sort_rng_ok hc xs.length xs 0 xs.length (le_refl _) (le_refl _) (by omega)

/-! ## reverse of util.c -/

/-- The exchange of two bytes inside the block. -/
theorem vec_byte_swap_in (vec : vector) (a b : Nat) (ha : a < vec.data.length)
    (hb : b < vec.data.length) :
    ∃ D1, vec_byte_swap vec (a : Int) (b : Int) = { vec with data := D1 } ∧
      D1.length = vec.data.length ∧ ∀ t, D1[t]? = vec.data[tr a b t]? := by
  refine ⟨(vec.data.set a vec.data[b]).set b vec.data[a], ?_, by simp, ?_⟩
  · unfold vec_byte_swap
    rw [if_pos ⟨by omega, by omega, by omega, by omega⟩]
    simp only [Int.toNat_ofNat]
    rw [List.getD_eq_getElem _ _ ha, List.getD_eq_getElem _ _ hb]
  · intro t
    rw [exchange_getElem? vec.data ha hb]
    unfold tr
    split_ifs <;> rfl

/-- The inner loop of `reverse` from the byte `j` of two slots at the offsets
`L` and `R` that are disjoint or the same: the remaining `k` bytes of the
slots are exchanged. -/
theorem reverse_inner_spec (L R es : Nat) (hLR : L + es ≤ R ∨ L = R) :
    ∀ (k j : Nat) (vec : vector), j + k = es → L + es ≤ vec.data.length →
      R + es ≤ vec.data.length →
      ∃ D1, reverse_inner (L : Int) (R : Int) k j vec = { vec with data := D1 } ∧
        D1.length = vec.data.length ∧
        ∀ t, D1[t]? = vec.data[if L + j ≤ t ∧ t < L + j + k then t - L + R
          else if R + j ≤ t ∧ t < R + j + k then t - R + L else t]? := by
  intro k
  induction k with
  | zero =>
    intro j vec _ _ _
    refine ⟨vec.data, rfl, rfl, ?_⟩
    intro t
    rw [if_neg (by omega), if_neg (by omega)]
  | succ k ih =>
    intro j vec hj hL hR
    obtain ⟨D1, h1, hl1, hg1⟩ := vec_byte_swap_in vec (L + j) (R + j) (by omega) (by omega)
    have e1 : ((L : Int) + (j : Int)) = ((L + j : Nat) : Int) := by push_cast; rfl
    have e2 : ((R : Int) + (j : Int)) = ((R + j : Nat) : Int) := by push_cast; rfl
    unfold reverse_inner
    rw [e1, e2, h1]
    obtain ⟨D2, h2, hl2, hg2⟩ := ih (j + 1) { vec with data := D1 } (by omega)
      (by show L + es ≤ D1.length; omega) (by show R + es ≤ D1.length; omega)
    refine ⟨D2, h2, by rw [hl2]; exact hl1, ?_⟩
    intro t
    rw [hg2]
    show D1[_]? = _
    rw [hg1]
    congr 1
    unfold tr
    split_ifs <;> omega

/-- What the exchange of two slots, disjoint or the same, does to the blocks of
the buffer. -/
theorem swap_slots_facts (D D1 : List Nat) (L R es : Nat) (hLR : L + es ≤ R ∨ L = R)
    (hg : ∀ t, D1[t]? = D[if L + 0 ≤ t ∧ t < L + 0 + es then t - L + R
      else if R + 0 ≤ t ∧ t < R + 0 + es then t - R + L else t]?) :
    blk D1 L es = blk D R es ∧ blk D1 R es = blk D L es ∧
    (∀ off len, (off + len ≤ L ∨ L + es ≤ off) → (off + len ≤ R ∨ R + es ≤ off) →
      blk D1 off len = blk D off len) ∧
    (∀ x, (x < L ∨ L + es ≤ x) → (x < R ∨ R + es ≤ x) → D1[x]? = D[x]?) := by
  refine ⟨?_, ?_, ?_, ?_⟩
  · apply List.ext_getElem?
    intro r
    rw [getElem?_blk, getElem?_blk]
    by_cases hr : r < es
    · rw [if_pos hr, if_pos hr, hg, if_pos (by omega)]
      congr 1
      omega
    · rw [if_neg hr, if_neg hr]
  · apply List.ext_getElem?
    intro r
    rw [getElem?_blk, getElem?_blk]
    by_cases hr : r < es
    · rw [if_pos hr, if_pos hr, hg]
      by_cases h1 : L + 0 ≤ R + r ∧ R + r < L + 0 + es
      · rw [if_pos h1]
        congr 1
        omega
      · rw [if_neg h1, if_pos (by omega)]
        congr 1
        omega
    · rw [if_neg hr, if_neg hr]
  · intro off len h1 h2
    apply List.ext_getElem?
    intro r
    rw [getElem?_blk, getElem?_blk]
    by_cases hr : r < len
    · rw [if_pos hr, if_pos hr, hg, if_neg (by omega), if_neg (by omega)]
    · rw [if_neg hr, if_neg hr]
  · intro x h1 h2
    rw [hg, if_neg (by omega), if_neg (by omega)]

/-- The outer loop of `reverse` on the range of `n` slots from the offset `a`,
after `t` iterations: the first and the last `t` slots hold the mirrored
slots of the input, the others and the bytes outside the range are
untouched. -/
theorem reverse_loop_spec (vec0 : vector) (a n es : Nat) (hes : 0 < es)
    (hin : a + n * es ≤ vec0.data.length) :
    ∀ (fuel t : Nat) (Dt : List Nat), Dt.length = vec0.data.length →
      (∀ k, k < n → blk Dt (a + k * es) es =
        blk vec0.data (a + (if k < t ∨ n - t ≤ k then n - 1 - k else k) * es) es) →
      (∀ x, (x < a ∨ a + n * es ≤ x) → Dt[x]? = vec0.data[x]?) →
      n * es / 2 - t * es ≤ fuel →
      ∃ Df, reverse_loop (n * es / 2) es fuel { vec0 with data := Dt } (t * es)
          ((a + t * es : Nat) : Int) (((a + n * es : Nat) : Int) - (((t + 1) * es : Nat) : Int))
          = .ok { vec0 with data := Df } ∧
        Df.length = vec0.data.length ∧
        (∀ k, k < n → blk Df (a + k * es) es = blk vec0.data (a + (n - 1 - k) * es) es) ∧
        (∀ x, (x < a ∨ a + n * es ≤ x) → Df[x]? = vec0.data[x]?) := by
  intro fuel
  induction fuel with
  | zero =>
    intro t Dt hl hinv hout hf
    have hx : ¬ t * es < n * es / 2 := by omega
    refine ⟨Dt, by unfold reverse_loop; rw [if_neg hx], hl, ?_, hout⟩
    have hn : n ≤ 2 * t + 1 := by
      by_contra h
      have h1 : 2 * t + 2 ≤ n := by omega
      have h2 := Nat.mul_le_mul_right es h1
      rw [Nat.add_mul, Nat.mul_assoc] at h2
      omega
    intro k hk
    rw [hinv k hk]
    by_cases c : k < t ∨ n - t ≤ k
    · rw [if_pos c]
    · rw [if_neg c, show n - 1 - k = k by omega]
  | succ fuel ih =>
    intro t Dt hl hinv hout hf
    unfold reverse_loop
    by_cases hx : t * es < n * es / 2
    · rw [if_pos hx]
      have h2t : 2 * t < n := by
        have h1 : 2 * t * es < n * es := by rw [Nat.mul_assoc]; omega
        exact Nat.lt_of_mul_lt_mul_right h1
      have hR : (n - 1 - t) * es + (t + 1) * es = n * es := by
        rw [← Nat.add_mul]; congr 1; omega
      have ht1 : (t + 1) * es = t * es + es := Nat.succ_mul _ _
      have hLR : a + t * es + es ≤ a + (n - 1 - t) * es ∨ a + t * es = a + (n - 1 - t) * es := by
        by_cases c : t = n - 1 - t
        · right; rw [← c]
        · left
          have := Nat.mul_le_mul_right es (show t + 1 ≤ n - 1 - t by omega)
          omega
      have er : (((a + n * es : Nat) : Int) - (((t + 1) * es : Nat) : Int)) =
          ((a + (n - 1 - t) * es : Nat) : Int) := by omega
      obtain ⟨D1, h1, hl1, hg1⟩ := reverse_inner_spec (a + t * es) (a + (n - 1 - t) * es) es hLR
        es 0 { vec0 with data := Dt } (by omega) (by show _ ≤ Dt.length; omega)
        (by show _ ≤ Dt.length; omega)
      obtain ⟨f1, f2, f3, f4⟩ := swap_slots_facts Dt D1 (a + t * es) (a + (n - 1 - t) * es) es hLR hg1
      rw [er, h1]
      have e1 : t * es + es = (t + 1) * es := ht1.symm
      have e2 : ((a + t * es : Nat) : Int) + (es : Int) = ((a + (t + 1) * es : Nat) : Int) := by
        omega
      have e3 : ((a + (n - 1 - t) * es : Nat) : Int) - (es : Int) =
          ((a + n * es : Nat) : Int) - (((t + 1 + 1) * es : Nat) : Int) := by
        have : (t + 1 + 1) * es = (t + 1) * es + es := by rw [Nat.add_mul, Nat.one_mul]
        omega
      rw [e1, e2, e3]
      refine ih (t + 1) D1 (by rw [← hl]; exact hl1) ?_ ?_ (by omega)
      · intro k hk
        by_cases c1 : k = t
        · rw [c1, f1, hinv (n - 1 - t) (by omega), if_neg (by omega), if_pos (by omega)]
        · by_cases c2 : k = n - 1 - t
          · rw [c2, f2, hinv t (by omega), if_neg (by omega), if_pos (by omega),
              show n - 1 - (n - 1 - t) = t by omega]
          · have d1 : a + k * es + es ≤ a + t * es ∨ a + t * es + es ≤ a + k * es := by
              rcases Nat.lt_or_gt_of_ne c1 with h | h
              · left; have := @succ_mul_le _ _ es h; omega
              · right; have := @succ_mul_le _ _ es h; omega
            have d2 : a + k * es + es ≤ a + (n - 1 - t) * es ∨
                a + (n - 1 - t) * es + es ≤ a + k * es := by
              rcases Nat.lt_or_gt_of_ne c2 with h | h
              · left; have := @succ_mul_le _ _ es h; omega
              · right; have := @succ_mul_le _ _ es h; omega
            rw [f3 _ _ d1 d2, hinv k hk]
            by_cases c : k < t ∨ n - t ≤ k
            · rw [if_pos c, if_pos (by omega)]
            · rw [if_neg c, if_neg (by omega)]
      · intro x hx'
        rw [f4 x (by omega) (by omega)]
        exact hout x hx'
    · rw [if_neg hx]
      refine ⟨Dt, rfl, hl, ?_, hout⟩
      have hn : n ≤ 2 * t + 1 := by
        by_contra h
        have h1 : 2 * t + 2 ≤ n := by omega
        have h2 := Nat.mul_le_mul_right es h1
        rw [Nat.add_mul, Nat.mul_assoc] at h2
        omega
      intro k hk
      rw [hinv k hk]
      by_cases c : k < t ∨ n - t ≤ k
      · rw [if_pos c]
      · rw [if_neg c, show n - 1 - k = k by omega]

theorem reverse_spec (vec : vector) (a n es : Nat) (hes : 0 < es)
    (hin : a + n * es ≤ vec.data.length) (hfit : vec.data.length < 2 ^ 64) :
    ∃ Df, reverse vec (a : Int) ((a + n * es : Nat) : Int) es =
        .ok ({ vec with data := Df }, (a : Int)) ∧
      Df.length = vec.data.length ∧
      (∀ k, k < n → blk Df (a + k * es) es = blk vec.data (a + (n - 1 - k) * es) es) ∧
      (∀ x, (x < a ∨ a + n * es ≤ x) → Df[x]? = vec.data[x]?) := by
  have h := reverse_loop_spec vec a n es hes hin (n * es / 2) 0 vec.data rfl
    (fun k hk => by rw [if_neg (by omega)]) (fun _ _ => rfl) (by omega)
  simp only [Nat.zero_mul, Nat.add_zero, Nat.zero_add, Nat.one_mul] at h
  obtain ⟨Df, h1, h2, h3, h4⟩ := h
  refine ⟨Df, ?_, h2, h3, h4⟩
  have ht : toSizeT (((a + n * es : Nat) : Int) - (a : Int)) = n * es := by
    have : (((a + n * es : Nat) : Int) - (a : Int)) = ((n * es : Nat) : Int) := by omega
    rw [this]
    exact toSizeT_of_nat (by omega)
  unfold reverse
  simp only [ht]
  have hv : ({ vec with data := vec.data } : vector) = vec := rfl
  rw [hv] at h1
  rw [h1]
  rfl

theorem vec_reverse_spec (vec : vector) (hwf : vec_wf vec) (hfit : vec.data.length < 2 ^ 64) :
    ∃ v1, vec_reverse vec = .ok v1 ∧ vec_elems v1 = (vec_elems vec).reverse ∧
      v1.size = vec.size ∧ v1.capacity = vec.capacity := by
  obtain ⟨hes, hsc, hlen⟩ := hwf
  have hin : 0 + vec.size * vec.element_size ≤ vec.data.length := by
    rw [hlen, Nat.zero_add]; exact Nat.mul_le_mul_right _ hsc
  obtain ⟨Df, h1, h2, h3, -⟩ := reverse_spec vec 0 vec.size vec.element_size hes hin hfit
  rw [Nat.zero_add] at h1
  refine ⟨{ vec with data := Df }, ?_, ?_, rfl, rfl⟩
  · unfold vec_reverse
    have e0 : ((0 : Nat) : Int) = 0 := rfl
    rw [e0] at h1
    rw [h1]
    rfl
  · apply List.ext_getElem?
    intro k
    rw [getElem?_vec_elems]
    show (if k < vec.size then some (blk Df (k * vec.element_size) vec.element_size) else none) = _
    by_cases hk : k < vec.size
    · rw [if_pos hk, List.getElem?_reverse (by rw [length_vec_elems]; exact hk),
        length_vec_elems, getElem?_vec_elems, if_pos (by omega)]
      have := h3 k hk
      rw [Nat.zero_add, Nat.zero_add] at this
      rw [this]
      rfl
    · rw [if_neg hk, List.getElem?_eq_none]
      rw [List.length_reverse, length_vec_elems]
      omega

/-! ## Statements about vec_at, the searches, the default comparator and the linked list -/

/-- C31, failing input: on the empty vector of 4-byte elements `vec_at` with the
index `-1` passes `assert(index >= -vec->size)` (in `size_t`, `-0` is `0` and
every converted index is at least `0`) and returns the pointer 4 bytes before
the buffer; with the index `-2^31` likewise. On a vector of three elements
the indices `2`, `-1` and `-3` give the slots 2, 2 and 0, and the indices `3`
and `-4` fail on the assertion. -/
theorem vec_at_negative_index_on_empty :
    vec_at { size := 0, element_size := 4, capacity := 0, data := [], destroyer := false,
             destroyed := [], overrun := false, reallocs := [] } (-1) = .ok (-4) ∧
    vec_at { size := 0, element_size := 4, capacity := 0, data := [], destroyer := false,
             destroyed := [], overrun := false, reallocs := [] } (-2147483648)
      = .ok (-8589934592) ∧
    vec_at { size := 0, element_size := 4, capacity := 0, data := [], destroyer := false,
             destroyed := [], overrun := false, reallocs := [] } 0 = .error .assertion ∧
    vec_at { size := 3, element_size := 4, capacity := 4,
             data := [3, 0, 0, 0, 1, 0, 0, 0, 2, 0, 0, 0, 0, 0, 0, 0], destroyer := false,
             destroyed := [], overrun := false, reallocs := [] } 2 = .ok 8 ∧
    vec_at { size := 3, element_size := 4, capacity := 4,
             data := [3, 0, 0, 0, 1, 0, 0, 0, 2, 0, 0, 0, 0, 0, 0, 0], destroyer := false,
             destroyed := [], overrun := false, reallocs := [] } (-1) = .ok 8 ∧
    vec_at { size := 3, element_size := 4, capacity := 4,
             data := [3, 0, 0, 0, 1, 0, 0, 0, 2, 0, 0, 0, 0, 0, 0, 0], destroyer := false,
             destroyed := [], overrun := false, reallocs := [] } (-3) = .ok 0 ∧
    vec_at { size := 3, element_size := 4, capacity := 4,
             data := [3, 0, 0, 0, 1, 0, 0, 0, 2, 0, 0, 0, 0, 0, 0, 0], destroyer := false,
             destroyed := [], overrun := false, reallocs := [] } 3 = .error .assertion ∧
    vec_at { size := 3, element_size := 4, capacity := 4,
             data := [3, 0, 0, 0, 1, 0, 0, 0, 2, 0, 0, 0, 0, 0, 0, 0], destroyer := false,
             destroyed := [], overrun := false, reallocs := [] } (-4) = .error .assertion := by
  decide

/-- C33, failing input: on the vector of the three ints 3, 1, 2 the value 9
occurs nowhere; `vec_find_rng` on the first two elements and `vec_find_n` with
`n = 2` return the end of the searched range, the offset 8, which is the slot
of the live element 2, while `vec_end` is the offset 12; `vec_find` on the
whole vector returns 12. -/
theorem vec_find_rng_returns_range_end :
    vec_find_rng { size := 3, element_size := 4, capacity := 4,
                   data := [3, 0, 0, 0, 1, 0, 0, 0, 2, 0, 0, 0, 0, 0, 0, 0], destroyer := false,
                   destroyed := [], overrun := false, reallocs := [] } 0 8 [9, 0, 0, 0]
      = .ok 8 ∧
    vec_find_n { size := 3, element_size := 4, capacity := 4,
                 data := [3, 0, 0, 0, 1, 0, 0, 0, 2, 0, 0, 0, 0, 0, 0, 0], destroyer := false,
                 destroyed := [], overrun := false, reallocs := [] } 0 2 [9, 0, 0, 0]
      = .ok 8 ∧
    vec_end { size := 3, element_size := 4, capacity := 4,
              data := [3, 0, 0, 0, 1, 0, 0, 0, 2, 0, 0, 0, 0, 0, 0, 0], destroyer := false,
              destroyed := [], overrun := false, reallocs := [] } = 12 ∧
    vec_find { size := 3, element_size := 4, capacity := 4,
               data := [3, 0, 0, 0, 1, 0, 0, 0, 2, 0, 0, 0, 0, 0, 0, 0], destroyer := false,
               destroyed := [], overrun := false, reallocs := [] } [9, 0, 0, 0] = .ok 12 := by
  decide

/-- C36, failing input: for the ints `2^31 - 1` and `-1` the difference
`(2^31 - 1) - (-1)` wraps to `-2^31`, so `int_cmp` is negative although the first
is the greater; `vec_sort`, `vec_sort_n` and `vec_sort_rng` on the vector of the two
ints `-1`, `2^31 - 1`, which is in order, exchange them and leave
`2^31 - 1`, `-1`. -/
theorem vec_sort_int_cmp_overflow :
    int_of_bytes [255, 255, 255, 127] = 2147483647 ∧
    int_of_bytes [255, 255, 255, 255] = -1 ∧
    int_cmp [255, 255, 255, 127] [255, 255, 255, 255] = -2147483648 ∧
    vec_sort { size := 2, element_size := 4, capacity := 2,
               data := [255, 255, 255, 255, 255, 255, 255, 127], destroyer := false,
               destroyed := [], overrun := false, reallocs := [] } =
      .ok { size := 2, element_size := 4, capacity := 2,
            data := [255, 255, 255, 127, 255, 255, 255, 255], destroyer := false,
            destroyed := [], overrun := false, reallocs := [] } ∧
    vec_sort_n { size := 2, element_size := 4, capacity := 2,
                 data := [255, 255, 255, 255, 255, 255, 255, 127], destroyer := false,
                 destroyed := [], overrun := false, reallocs := [] } 0 2 =
      .ok { size := 2, element_size := 4, capacity := 2,
            data := [255, 255, 255, 127, 255, 255, 255, 255], destroyer := false,
            destroyed := [], overrun := false, reallocs := [] } ∧
    vec_sort_rng { size := 2, element_size := 4, capacity := 2,
                   data := [255, 255, 255, 255, 255, 255, 255, 127], destroyer := false,
                   destroyed := [], overrun := false, reallocs := [] } 0 8 =
      .ok { size := 2, element_size := 4, capacity := 2,
            data := [255, 255, 255, 127, 255, 255, 255, 255], destroyer := false,
            destroyed := [], overrun := false, reallocs := [] } := by
  decide

/-- C40, failing input: with 16-byte elements `ll_set_at` on the node 1 copies
`sizeof(data)` = 8 bytes, so the node keeps its last 8 bytes and does not hold
the 16 bytes of the data (`ll_set` on the node likewise); with 4-byte elements
the 8 bytes copied run past the end of the 4-byte block of the node. -/
theorem ll_set_at_copies_pointer_size :
    ll_set_at { size := 2,
                nodes := [[0, 0, 0, 0, 0, 0, 0, 0, 0, 0, 0, 0, 0, 0, 0, 0],
                          [0, 0, 0, 0, 0, 0, 0, 0, 0, 0, 0, 0, 0, 0, 0, 0]],
                element_size := 16, overrun := false } 1
        [1, 2, 3, 4, 5, 6, 7, 8, 9, 10, 11, 12, 13, 14, 15, 16] =
      .ok { size := 2,
            nodes := [[0, 0, 0, 0, 0, 0, 0, 0, 0, 0, 0, 0, 0, 0, 0, 0],
                      [1, 2, 3, 4, 5, 6, 7, 8, 0, 0, 0, 0, 0, 0, 0, 0]],
            element_size := 16, overrun := false } ∧
    ll_set [0, 0, 0, 0, 0, 0, 0, 0, 0, 0, 0, 0, 0, 0, 0, 0]
        [1, 2, 3, 4, 5, 6, 7, 8, 9, 10, 11, 12, 13, 14, 15, 16] =
      ([1, 2, 3, 4, 5, 6, 7, 8, 0, 0, 0, 0, 0, 0, 0, 0], false) ∧
    ll_set_at { size := 2, nodes := [[0, 0, 0, 0], [0, 0, 0, 0]], element_size := 4,
                overrun := false } 1 [1, 2, 3, 4] =
      .ok { size := 2, nodes := [[0, 0, 0, 0], [1, 2, 3, 4]], element_size := 4,
            overrun := true } ∧
    ll_create_node { size := 2,
                     nodes := [[0, 0, 0, 0, 0, 0, 0, 0, 0, 0, 0, 0, 0, 0, 0, 0],
                               [0, 0, 0, 0, 0, 0, 0, 0, 0, 0, 0, 0, 0, 0, 0, 0]],
                     element_size := 16, overrun := false }
        [1, 2, 3, 4, 5, 6, 7, 8, 9, 10, 11, 12, 13, 14, 15, 16] =
      [1, 2, 3, 4, 5, 6, 7, 8, 9, 10, 11, 12, 13, 14, 15, 16] := by
  decide

/-- C32: for a range of `n` slots of `element_size ≥ 1` bytes inside the block,
from the offset `a`, and every value, `find_cmp` returns; the pointer it
returns is either the first slot on which the comparator is `0` (the
comparator is not `0` on any earlier slot) or, exactly when the comparator is
`0` on no slot of the range, the end of the range. The function `find` does the
same with equality of the `element_size` bytes of the slot and of the value. -/
theorem find_correct (vec : vector) (a n es : Nat) (value : List Nat)
    (cmp : List Nat → List Nat → Int) (hes : 0 < es) (hin : a + n * es ≤ vec.data.length) :
    (∃ p, find_cmp vec (a : Int) ((a + n * es : Nat) : Int) es value cmp = .ok p ∧
      ((∃ i, i < n ∧ p = ((a + i * es : Nat) : Int) ∧
          cmp (blk vec.data (a + i * es) es) (bytes_of value es) = 0 ∧
          ∀ t, t < i → cmp (blk vec.data (a + t * es) es) (bytes_of value es) ≠ 0) ∨
        (p = ((a + n * es : Nat) : Int) ∧
          ∀ t, t < n → cmp (blk vec.data (a + t * es) es) (bytes_of value es) ≠ 0)) ∧
      (p = ((a + n * es : Nat) : Int) ↔
        ∀ t, t < n → cmp (blk vec.data (a + t * es) es) (bytes_of value es) ≠ 0)) ∧
    (∃ p, find vec (a : Int) ((a + n * es : Nat) : Int) es value = .ok p ∧
      ((∃ i, i < n ∧ p = ((a + i * es : Nat) : Int) ∧
          blk vec.data (a + i * es) es = bytes_of value es ∧
          ∀ t, t < i → blk vec.data (a + t * es) es ≠ bytes_of value es) ∨
        (p = ((a + n * es : Nat) : Int) ∧
          ∀ t, t < n → blk vec.data (a + t * es) es ≠ bytes_of value es)) ∧
      (p = ((a + n * es : Nat) : Int) ↔
        ∀ t, t < n → blk vec.data (a + t * es) es ≠ bytes_of value es)) := by
  have key : ∀ c : List Nat → List Nat → Int,
      ∃ p, find_cmp vec (a : Int) ((a + n * es : Nat) : Int) es value c = .ok p ∧
      ((∃ i, i < n ∧ p = ((a + i * es : Nat) : Int) ∧
          c (blk vec.data (a + i * es) es) (bytes_of value es) = 0 ∧
          ∀ t, t < i → c (blk vec.data (a + t * es) es) (bytes_of value es) ≠ 0) ∨
        (p = ((a + n * es : Nat) : Int) ∧
          ∀ t, t < n → c (blk vec.data (a + t * es) es) (bytes_of value es) ≠ 0)) ∧
      (p = ((a + n * es : Nat) : Int) ↔
        ∀ t, t < n → c (blk vec.data (a + t * es) es) (bytes_of value es) ≠ 0) := by
    intro c
    obtain ⟨p, hp, hd⟩ := find_cmp_spec vec a n es value c hes
    refine ⟨p, hp, hd, ?_⟩
    rcases hd with ⟨i, hi, hpi, h0, -⟩ | ⟨hpe, hall⟩
    · have hlt : i * es < n * es := mul_lt_mul_es hes hi
      constructor
      · intro h1
        rw [hpi] at h1
        omega
      · intro h1
        exact absurd h0 (h1 i hi)
    · exact ⟨fun _ => hall, fun _ => hpe⟩
  refine ⟨key cmp, ?_⟩
  have hm : ∀ t, t < n → (memcmp (blk vec.data (a + t * es) es) (bytes_of value es) = 0 ↔
      blk vec.data (a + t * es) es = bytes_of value es) := by
    intro t ht
    have h1 := @succ_mul_le _ _ es ht
    exact memcmp_eq_zero _ _ (by rw [length_blk (by omega), length_bytes_of])
  obtain ⟨p, hp, hd, hiff⟩ := key memcmp
  refine ⟨p, hp, ?_, ?_⟩
  · rcases hd with ⟨i, hi, hpi, h0, hprev⟩ | ⟨hpe, hall⟩
    · exact Or.inl ⟨i, hi, hpi, (hm i hi).1 h0,
        fun t ht h => hprev t ht ((hm t (by omega)).2 h)⟩
    · exact Or.inr ⟨hpe, fun t ht h => hall t ht ((hm t ht).2 h)⟩
  · rw [hiff]
    constructor
    · intro h t ht h1
      exact h t ht ((hm t ht).2 h1)
    · intro h t ht h1
      exact h t ht ((hm t ht).1 h1)

theorem find_correct_witness :
    ∃ p, find { size := 3, element_size := 4, capacity := 4,
                data := [3, 0, 0, 0, 1, 0, 0, 0, 2, 0, 0, 0, 0, 0, 0, 0], destroyer := false,
                destroyed := [], overrun := false, reallocs := [] }
        0 12 4 [9, 0, 0, 0] = .ok p ∧ p = 12 :=
  match (find_correct
      { size := 3, element_size := 4, capacity := 4,
        data := [3, 0, 0, 0, 1, 0, 0, 0, 2, 0, 0, 0, 0, 0, 0, 0], destroyer := false,
        destroyed := [], overrun := false, reallocs := [] }
      0 3 4 [9, 0, 0, 0] memcmp (by decide) (by decide)).2 with
  | ⟨p, h, _, hiff⟩ => ⟨p, h, hiff.2 (by decide)⟩

/-- C35: for a range of `n` slots of `element_size ≥ 1` bytes inside the block,
from the offset `a`, and every value, `fill` returns with every slot of the
range holding the `element_size` bytes of the value, every byte before and
after the range unchanged and the descriptor unchanged; `fill_n` with the
count `n` is `fill` on that range. -/
theorem fill_correct (vec : vector) (a n es : Nat) (value : List Nat) (hes : 0 < es)
    (hin : a + n * es ≤ vec.data.length) :
    (∃ v1, fill vec (a : Int) ((a + n * es : Nat) : Int) es value = .ok v1 ∧
      (∀ t, t < n → blk v1.data (a + t * es) es = bytes_of value es) ∧
      v1.data.take a = vec.data.take a ∧
      v1.data.drop (a + n * es) = vec.data.drop (a + n * es) ∧
      v1.data.length = vec.data.length ∧
      v1.size = vec.size ∧ v1.capacity = vec.capacity ∧
      v1.element_size = vec.element_size ∧ v1.overrun = vec.overrun ∧
      v1.destroyed = vec.destroyed) ∧
    fill_n vec (a : Int) n es value =
      fill vec (a : Int) ((a + n * es : Nat) : Int) es value := by
  have hb : (bytes_of value es).length = es := length_bytes_of _ _
  have hfl := length_flatten_replicate (bytes_of value es) es hb n
  have hla : (vec.data.take a).length = a := by rw [List.length_take]; omega
  refine ⟨⟨_, fill_spec vec a n es value hes hin, ?_, ?_, ?_, ?_, rfl, rfl, rfl, rfl, rfl⟩, ?_⟩
  · intro t ht
    show blk (_ ++ _ ++ _) (a + t * es) es = _
    rw [blk_write_inside_len vec.data _ a (t * es) es (n * es) hfl hin (succ_mul_le ht)]
    exact blk_flatten_replicate _ es hb n t ht
  · show List.take a (_ ++ _ ++ _) = _
    rw [List.append_assoc]
    exact List.take_left' hla
  · show List.drop (a + n * es) (_ ++ _ ++ _) = _
    have hl2 : (vec.data.take a ++ (List.replicate n (bytes_of value es)).flatten).length =
        a + n * es := by rw [List.length_append, hla, hfl]
    exact List.drop_left' hl2
  · show (_ ++ _ ++ _ : List Nat).length = _
    exact length_write_len hfl hin
  · unfold fill_n
    congr 1

theorem fill_correct_witness :
    ∃ v1, fill { size := 3, element_size := 2, capacity := 4, data := [3, 0, 1, 0, 2, 0, 0, 0],
                 destroyer := false, destroyed := [], overrun := false, reallocs := [] }
        2 6 2 [9, 7] = .ok v1 ∧ blk v1.data 2 2 = [9, 7] ∧ blk v1.data 4 2 = [9, 7] ∧
      v1.data.take 2 = [3, 0] ∧ v1.data.drop 6 = [0, 0] :=
  match (fill_correct
      { size := 3, element_size := 2, capacity := 4, data := [3, 0, 1, 0, 2, 0, 0, 0],
        destroyer := false, destroyed := [], overrun := false, reallocs := [] }
      2 2 2 [9, 7] (by decide) (by decide)).1 with
  | ⟨v1, h, h2, h3, h4, _, _, _, _, _, _⟩ =>
    ⟨v1, h, h2 0 (by decide), h2 1 (by decide), h3, h4⟩

/-- C37: on a stack whose vector satisfies the invariants of the data model
(its live bytes fitting the address space), after `stk_push` of a value
`stk_top` returns the slot that holds the bytes of the value, `stk_size` is one
more than before, `stk_empty` is false and the element sequence is the old
one followed by the value; `stk_pop` after it returns with the element
sequence and the size of before the push. -/
theorem stack_push_top_pop (stk : stack) (x : List Nat) (hwf : vec_wf stk.data)
    (hfit : (stk.data.size + 1) * stk.data.element_size < 2 ^ 63) :
    ∃ s1, stk_push stk x = .ok s1 ∧
      (∃ p : Nat, stk_top s1 = .ok (p : Int) ∧
        blk s1.data.data p s1.data.element_size = bytes_of x stk.data.element_size) ∧
      stk_size s1 = stk_size stk + 1 ∧ stk_empty s1 = false ∧
      vec_elems s1.data = vec_elems stk.data ++ [bytes_of x stk.data.element_size] ∧
      ∃ s2, stk_pop s1 = .ok s2 ∧ vec_elems s2.data = vec_elems stk.data ∧
        stk_size s2 = stk_size stk := by
  obtain ⟨v1, e1, p1, p2, p3, p4, -, -, -, -, -, p10⟩ := vec_push_back_spec stk.data x hwf
  have hpos : 0 < v1.size := by omega
  have hvb := vec_back_nonempty v1 p10.1 hpos (by rw [p1, p2]; exact hfit)
  have hpop := (vec_pop_back_spec v1).2 hpos
  refine ⟨⟨v1⟩, by unfold stk_push; rw [e1]; rfl, ⟨(v1.size - 1) * v1.element_size, hvb, ?_⟩,
    p1, ?_, vec_elems_push stk.data v1 _ p1 p3 p4, ⟨_, by unfold stk_pop; rw [hpop]; rfl, ?_, ?_⟩⟩
  · rw [← p3, p1, Nat.add_sub_cancel]
    rfl
  · show (v1.size == 0) = false
    rw [p1]
    rfl
  · refine vec_elems_congr stk.data _ (by show v1.size - 1 = _; omega) ?_
    intro k hk
    exact p4 k hk
  · show v1.size - 1 = stk.data.size
    omega

theorem stack_push_top_pop_witness :
    ∃ s1, stk_push
        ⟨{ size := 2, element_size := 4, capacity := 2, data := [5, 0, 0, 0, 4, 0, 0, 0],
           destroyer := false, destroyed := [], overrun := false, reallocs := [0, 1] }⟩
        [3, 0, 0, 0] = .ok s1 ∧
      stk_size s1 = 3 ∧
      vec_elems s1.data = [[5, 0, 0, 0], [4, 0, 0, 0], [3, 0, 0, 0]] ∧
      ∃ s2, stk_pop s1 = .ok s2 ∧ vec_elems s2.data = [[5, 0, 0, 0], [4, 0, 0, 0]] ∧
        stk_size s2 = 2 :=
  match stack_push_top_pop
      ⟨{ size := 2, element_size := 4, capacity := 2, data := [5, 0, 0, 0, 4, 0, 0, 0],
         destroyer := false, destroyed := [], overrun := false, reallocs := [0, 1] }⟩
      [3, 0, 0, 0] ⟨by decide, by decide, by decide⟩ (by decide) with
  | ⟨s1, h, _, h3, _, h5, s2, h6, h7, h8⟩ =>
    ⟨s1, h, h3, h5.trans (by decide), s2, h6, h7.trans (by decide), h8⟩

/-- C34: for an element size of at least 1 and a range of `n` slots inside
the block, from the offset `a`, `reverse` returns the pointer `start` and
leaves in the slot `k` of the range the former bytes of the slot
`n - 1 - k`, every byte before and after the range and the descriptor
unchanged; on a vector that satisfies the invariants of the data model
`vec_reverse` leaves the live sequence reversed. -/
theorem reverse_correct (vec : vector) (a n es : Nat) (hes : 0 < es)
    (hin : a + n * es ≤ vec.data.length) (hfit : vec.data.length < 2 ^ 64) :
    (∃ v1, reverse vec (a : Int) ((a + n * es : Nat) : Int) es = .ok (v1, (a : Int)) ∧
      (∀ k, k < n → blk v1.data (a + k * es) es = blk vec.data (a + (n - 1 - k) * es) es) ∧
      v1.data.take a = vec.data.take a ∧
      v1.data.drop (a + n * es) = vec.data.drop (a + n * es) ∧
      v1.data.length = vec.data.length ∧ v1.size = vec.size ∧ v1.capacity = vec.capacity ∧
      v1.element_size = vec.element_size ∧ v1.overrun = vec.overrun ∧
      v1.destroyed = vec.destroyed) ∧
    (vec_wf vec → ∃ v2, vec_reverse vec = .ok v2 ∧ vec_elems v2 = (vec_elems vec).reverse ∧
      v2.size = vec.size ∧ v2.capacity = vec.capacity) := by
  obtain ⟨Df, h1, h2, h3, h4⟩ := reverse_spec vec a n es hes hin hfit
  refine ⟨⟨_, h1, h3, ?_, ?_, h2, rfl, rfl, rfl, rfl, rfl⟩,
    fun hwf => vec_reverse_spec vec hwf hfit⟩
  · apply List.ext_getElem?
    intro x
    show (List.take a Df)[x]? = _
    rw [List.getElem?_take, List.getElem?_take]
    by_cases hx : x < a
    · rw [if_pos hx, if_pos hx, h4 x (Or.inl hx)]
    · rw [if_neg hx, if_neg hx]
  · apply List.ext_getElem?
    intro x
    show (List.drop (a + n * es) Df)[x]? = _
    rw [List.getElem?_drop, List.getElem?_drop, h4 _ (Or.inr (by omega))]

theorem reverse_correct_witness :
    ∃ v1, reverse
        { size := 3, element_size := 2, capacity := 4, data := [3, 4, 1, 5, 2, 6, 7, 8],
          destroyer := false, destroyed := [], overrun := false, reallocs := [] }
        0 6 2 = .ok (v1, 0) ∧
      blk v1.data 0 2 = [2, 6] ∧ blk v1.data 2 2 = [1, 5] ∧ blk v1.data 4 2 = [3, 4] ∧
      v1.data.drop 6 = [7, 8] :=
  match (reverse_correct
      { size := 3, element_size := 2, capacity := 4, data := [3, 4, 1, 5, 2, 6, 7, 8],
        destroyer := false, destroyed := [], overrun := false, reallocs := [] }
      0 3 2 (by decide) (by decide) (by decide)).1 with
  | ⟨v1, h, h2, _, h4, _, _, _, _, _, _⟩ =>
    ⟨v1, h, h2 0 (by decide), h2 1 (by decide), h2 2 (by decide), h4⟩

/-- C38: for every range and every comparator that is a total preorder,
`quick_sort` returns: it never dereferences a pointer outside the range, the
fuel of the model (one unit for each level of the recursion, `n + 1` for a
scan and for the partition loop of a range of `n` slots) suffices, and the
final content is a permutation of the input. On every sub-range of at least
two slots the partition loop returns with `left` and `right` moved strictly
inwards, so that both recursive calls are on strictly shorter ranges. -/
theorem quick_sort_terminates {α : Type} (cmp : α → α → Int) (xs : List α)
    (hc : IsTotalPreorder cmp) :
    (∃ ys, quick_sort cmp xs = .ok ys ∧ ys.Perm xs) ∧
    (∀ (m : List α) (s e : Int), 0 ≤ s → e ≤ m.length → 2 ≤ (e - s).toNat →
      ∃ m1 l1 r1, quick_partition cmp s e (s + (((e - s).toNat / 2 : Nat) : Int))
          ((e - s).toNat + 1) m s (e - 1) = .ok (m1, l1, r1) ∧
        m1.Perm m ∧ s < l1 ∧ l1 ≤ e ∧ s - 1 ≤ r1 ∧ r1 < e - 1 ∧
        (r1 + 1 - s).toNat < (e - s).toNat ∧ (e - l1).toNat < (e - s).toNat) := by
  refine ⟨quick_sort_ok hc xs, ?_⟩
  intro m s e hs he hn
  have hP1 : s ≤ s + (((e - s).toNat / 2 : Nat) : Int) := by omega
  have hP2 : s + (((e - s).toNat / 2 : Nat) : Int) < e := by omega
  have hrefl : ∀ x y : α, m[(s + (((e - s).toNat / 2 : Nat) : Int)).toNat]? = some x →
      m[(s + (((e - s).toNat / 2 : Nat) : Int)).toNat]? = some y →
      ¬ cmp x y < 0 ∧ ¬ cmp x y > 0 := by
    intro x y hx hy
    rw [hx] at hy
    cases hy
    exact ⟨hc.not_lt_self x, fun h => hc.not_lt_self x ((hc.flip x x).2 h)⟩
  obtain ⟨m1, l1, r1, q1, q2, q3, q4, q5, q6, q7⟩ := quick_partition_ok hc s e
    (s + (((e - s).toNat / 2 : Nat) : Int)) hs hP1 hP2 ((e - s).toNat + 1) m s (e - 1)
    (s + (((e - s).toNat / 2 : Nat) : Int)) (s + (((e - s).toNat / 2 : Nat) : Int))
    he (le_refl _) (by omega) (by omega) (by omega)
    (fun _ => ⟨by omega, by omega, by omega, by omega,
      fun x y hx hy => (hrefl x y hx hy).1, fun x y hx hy => (hrefl x y hx hy).2⟩)
    (by omega)
  obtain ⟨q8, q9⟩ := q7 (by omega) (le_refl _)
  exact ⟨m1, l1, r1, q1, q2, q8, q4, q6, q9, by omega, by omega⟩

theorem quick_sort_terminates_witness :
    ∃ ys, quick_sort diff_cmp [2, 2, 0, 1] = .ok ys ∧ ys.Perm [2, 2, 0, 1] :=
  (quick_sort_terminates diff_cmp [2, 2, 0, 1] diff_cmp_total).1

end CDsa
